import Mathlib

/-!
# RedBlackTree.h: a pointer-level model and its verification

The C++ class template `RedBlackTree<T>` is modelled at `T = int` over an explicit
free store.  A node lives at an address (a natural number); the three links
`parent`, `left`, `right` are optional addresses (`none` is `nullptr`).  Every
member function is translated statement by statement: each `p->f` is a read of the
store through `p`, each `p->f = e` is a write, and reading or writing through
`nullptr` (or through a freed address) is the error `Err.nullDeref`.  Loops and
recursive helpers are bounded by the number of cells ever allocated (`next`);
running out of that bound is the distinct error `Err.outOfFuel`.

`currentSize` is a C++ `int`; it is modelled as an unbounded integer (a tree of
2^31 nodes is out of reach of the model's interest).
-/

/-- Ways in which a run of the C++ code can fail to produce a value. -/
inductive Err where
  | nullDeref
  | outOfFuel
  | noReturn
deriving DecidableEq, Repr

/-- The class `NodeT<int>`: a value, three links and a colour flag. -/
structure NodeT where
  data : Int
  parent : Option Nat
  left : Option Nat
  right : Option Nat
  isBlack : Bool
deriving DecidableEq, Repr

/-- The free store: the cell at each address, `none` when not allocated (or freed). -/
abbrev Heap := Nat → Option NodeT

/-- The class `RedBlackTree<int>` together with the free store its nodes live in.
`next` is the next address `new` hands out. -/
structure RedBlackTree where
  heap : Heap
  next : Nat
  root : Option Nat
  currentSize : Int

namespace RedBlackTree

/-- Store update at one address. -/
def put (h : Heap) (a : Nat) (c : Option NodeT) : Heap :=
  fun b => if b = a then c else h b

/-- Read through a pointer: `*p`. -/
def rd (h : Heap) (p : Option Nat) : Except Err NodeT :=
  match p with
  | none => .error .nullDeref
  | some a =>
    match h a with
    | none => .error .nullDeref
    | some n => .ok n

/-- Write through a pointer: `p->field = ...`, given as an update of the node. -/
def wr (h : Heap) (p : Option Nat) (f : NodeT → NodeT) : Except Err Heap :=
  match p with
  | none => .error .nullDeref
  | some a =>
    match h a with
    | none => .error .nullDeref
    | some n => .ok (put h a (some (f n)))

/-- The constructor `NodeT(value)`: a Red node without links. -/
def NodeT.mk1 (value : Int) : NodeT :=
  { data := value, parent := none, left := none, right := none, isBlack := false }

/-- The default constructor: empty tree, root is null. -/
def empty : RedBlackTree :=
  { heap := fun _ => none, next := 0, root := none, currentSize := 0 }

/-- The expression `new NodeT<T>(value)`. -/
def new (s : RedBlackTree) (value : Int) : RedBlackTree × Option Nat :=
  ({ s with heap := put s.heap s.next (some (NodeT.mk1 value)), next := s.next + 1 },
    some s.next)

/-- The expression `p->parent`. -/
def getParent (h : Heap) (p : Option Nat) : Except Err (Option Nat) := do
  let n ← rd h p
  pure n.parent

/-- The expression `p->left`. -/
def getLeft (h : Heap) (p : Option Nat) : Except Err (Option Nat) := do
  let n ← rd h p
  pure n.left

/-- The expression `p->right`. -/
def getRight (h : Heap) (p : Option Nat) : Except Err (Option Nat) := do
  let n ← rd h p
  pure n.right

/-- The expression `p->isBlack`. -/
def getIsBlack (h : Heap) (p : Option Nat) : Except Err Bool := do
  let n ← rd h p
  pure n.isBlack

/-- The expression `p->data`. -/
def getData (h : Heap) (p : Option Nat) : Except Err Int := do
  let n ← rd h p
  pure n.data

/-- The statement `p->parent = q`. -/
def setParent (h : Heap) (p q : Option Nat) : Except Err Heap :=
  wr h p (fun n => { n with parent := q })

/-- The statement `p->left = q`. -/
def setLeft (h : Heap) (p q : Option Nat) : Except Err Heap :=
  wr h p (fun n => { n with left := q })

/-- The statement `p->right = q`. -/
def setRight (h : Heap) (p q : Option Nat) : Except Err Heap :=
  wr h p (fun n => { n with right := q })

/-- The statement `p->isBlack = b`. -/
def setIsBlack (h : Heap) (p : Option Nat) (b : Bool) : Except Err Heap :=
  wr h p (fun n => { n with isBlack := b })

/-- The statement `p->data = v`. -/
def setData (h : Heap) (p : Option Nat) (v : Int) : Except Err Heap :=
  wr h p (fun n => { n with data := v })

/-- The `while (pos != nullptr)` loop of `btInsert`; returns `tempParent` and `isLeft`. -/
def btInsertLoop : Nat → Heap → Int → Option Nat → Option Nat → Bool →
    Except Err (Option Nat × Bool)
  | 0, _, _, _, _, _ => .error .outOfFuel
  | fuel + 1, h, value, pos, tempParent, isLeft =>
    if pos ≠ none then do
      let tempParent := pos
      let d ← getData h tempParent
      if value < d then do
        let pos ← getLeft h tempParent
        btInsertLoop fuel h value pos tempParent true
      else do
        let pos ← getRight h tempParent
        btInsertLoop fuel h value pos tempParent false
    else pure (tempParent, isLeft)

/-- The helper `btInsert`: plain binary-tree insertion, returns the new node. -/
def btInsert (s : RedBlackTree) (value : Int) : Except Err (RedBlackTree × Option Nat) := do
  let pos := s.root
  let (s, newNode) := new s value
  let tempParent := s.root
  let isLeft := true
  if s.root = none then
    pure ({ s with root := newNode }, newNode)
  else do
    let (tempParent, isLeft) ← btInsertLoop s.next s.heap value pos tempParent isLeft
    if isLeft then do
      let h ← setLeft s.heap tempParent newNode
      let h ← setParent h newNode tempParent
      pure ({ s with heap := h }, newNode)
    else do
      let h ← setRight s.heap tempParent newNode
      let h ← setParent h newNode tempParent
      pure ({ s with heap := h }, newNode)

/-- The helper `leftRotate`. -/
def leftRotate (s : RedBlackTree) (node : Option Nat) : Except Err RedBlackTree := do
  let h := s.heap
  -- NodeT<T>* temp = node->right;
  let temp ← getRight h node
  -- node->right = temp->left;
  let tl ← getLeft h temp
  let h ← setRight h node tl
  -- if (temp->left != nullptr) temp->left->parent = node;
  let tl ← getLeft h temp
  let h ← if tl ≠ none then setParent h tl node else pure h
  -- temp->parent = node->parent;
  let np ← getParent h node
  let h ← setParent h temp np
  -- if (node->parent == nullptr) root = temp;
  -- else if (node == node->parent->left) node->parent->left = temp;
  -- else node->parent->right = temp;
  let np ← getParent h node
  let (h, root) ←
    if np = none then (pure (h, temp) : Except Err (Heap × Option Nat))
    else do
      let npl ← getLeft h np
      if node = npl then do
        let h ← setLeft h np temp
        pure (h, s.root)
      else do
        let h ← setRight h np temp
        pure (h, s.root)
  -- temp->left = node; node->parent = temp;
  let h ← setLeft h temp node
  let h ← setParent h node temp
  pure { s with heap := h, root := root }

/-- The helper `rightRotate`, the mirror image of `leftRotate`. -/
def rightRotate (s : RedBlackTree) (node : Option Nat) : Except Err RedBlackTree := do
  let h := s.heap
  -- NodeT<T>* temp = node->left;
  let temp ← getLeft h node
  -- node->left = temp->right;
  let tr ← getRight h temp
  let h ← setLeft h node tr
  -- if (temp->right != nullptr) temp->right->parent = node;
  let tr ← getRight h temp
  let h ← if tr ≠ none then setParent h tr node else pure h
  -- temp->parent = node->parent;
  let np ← getParent h node
  let h ← setParent h temp np
  -- if (node->parent == nullptr) root = temp;
  -- else if (node == node->parent->right) node->parent->right = temp;
  -- else node->parent->left = temp;
  let np ← getParent h node
  let (h, root) ←
    if np = none then (pure (h, temp) : Except Err (Heap × Option Nat))
    else do
      let npr ← getRight h np
      if node = npr then do
        let h ← setRight h np temp
        pure (h, s.root)
      else do
        let h ← setLeft h np temp
        pure (h, s.root)
  -- temp->right = node; node->parent = temp;
  let h ← setRight h temp node
  let h ← setParent h node temp
  pure { s with heap := h, root := root }

/-- The `while (temp->left != nullptr)` loop of `getSuccessor`; returns `temp` and `sParent`. -/
def getSuccessorLoop : Nat → Heap → Option Nat → Option Nat →
    Except Err (Option Nat × Option Nat)
  | 0, _, _, _ => .error .outOfFuel
  | fuel + 1, h, temp, sParent => do
    let tl ← getLeft h temp
    if tl ≠ none then
      getSuccessorLoop fuel h tl temp
    else
      pure (temp, sParent)

/-- The helper `getSuccessor`: the left-most node of the right subtree, and its parent. -/
def getSuccessor (s : RedBlackTree) (target : Option Nat) :
    Except Err (Option Nat × Option Nat) := do
  let temp ← getRight s.heap target
  getSuccessorLoop s.next s.heap temp target

/-- The helper `findNode`: falling out of the loop leaves the function without a
return statement. -/
def findNode : Nat → Heap → Int → Option Nat → Except Err (Option Nat)
  | 0, _, _, _ => .error .outOfFuel
  | fuel + 1, h, value, temp =>
    if temp ≠ none then do
      let d ← getData h temp
      if value = d then
        pure temp
      else if value > d then do
        let r ← getRight h temp
        findNode fuel h value r
      else do
        let l ← getLeft h temp
        findNode fuel h value l
    else .error .noReturn

/-- The left-child branch of the loop body of `fix`. -/
def fixLeft (s : RedBlackTree) (node : Option Nat) : Except Err (RedBlackTree × Option Nat) := do
  -- NodeT<T>* sibling = node->parent->right;
  let np ← getParent s.heap node
  let sibling ← getRight s.heap np
  -- if (sibling != nullptr && !sibling->isBlack)
  let c1 ← if sibling ≠ none then (do
      let b ← getIsBlack s.heap sibling
      pure (!b) : Except Err Bool) else pure false
  let (s, sibling) ←
    if c1 then (do
      let h ← setIsBlack s.heap sibling true
      let np ← getParent h node
      let h ← setIsBlack h np false
      let np ← getParent h node
      let s ← leftRotate { s with heap := h } np
      let np ← getParent s.heap node
      let sibling ← getRight s.heap np
      pure (s, sibling) : Except Err (RedBlackTree × Option Nat))
    else pure (s, sibling)
  -- if (sibling->left->isBlack && sibling->right->isBlack)
  let sl ← getLeft s.heap sibling
  let slb ← getIsBlack s.heap sl
  let c2 ← if slb then (do
      let sr ← getRight s.heap sibling
      getIsBlack s.heap sr : Except Err Bool) else pure false
  if c2 then do
    let h ← setIsBlack s.heap sibling false
    let np ← getParent h node
    pure ({ s with heap := h }, np)
  else do
    -- if (sibling->right->isBlack)
    let sr ← getRight s.heap sibling
    let srb ← getIsBlack s.heap sr
    let (s, sibling) ←
      if srb then (do
        let sl ← getLeft s.heap sibling
        let h ← setIsBlack s.heap sl true
        let h ← setIsBlack h sibling false
        let s ← rightRotate { s with heap := h } sibling
        let np ← getParent s.heap node
        let sibling ← getRight s.heap np
        pure (s, sibling) : Except Err (RedBlackTree × Option Nat))
      else pure (s, sibling)
    -- sibling->isBlack = node->parent->isBlack;
    let np ← getParent s.heap node
    let npb ← getIsBlack s.heap np
    let h ← setIsBlack s.heap sibling npb
    -- node->parent->isBlack = true;
    let np ← getParent h node
    let h ← setIsBlack h np true
    -- sibling->right->isBlack = true;
    let sr ← getRight h sibling
    let h ← setIsBlack h sr true
    -- leftRotate(node->parent); node = root;
    let np ← getParent h node
    let s ← leftRotate { s with heap := h } np
    pure (s, s.root)

/-- The right-child branch of the loop body of `fix`. -/
def fixRight (s : RedBlackTree) (node : Option Nat) : Except Err (RedBlackTree × Option Nat) := do
  -- NodeT<T>* sibling = node->parent->left;
  let np ← getParent s.heap node
  let sibling ← getLeft s.heap np
  -- if (sibling != nullptr && !sibling->isBlack)
  let c1 ← if sibling ≠ none then (do
      let b ← getIsBlack s.heap sibling
      pure (!b) : Except Err Bool) else pure false
  let (s, sibling) ←
    if c1 then (do
      let h ← setIsBlack s.heap sibling true
      let np ← getParent h node
      let h ← setIsBlack h np false
      let np ← getParent h node
      let s ← rightRotate { s with heap := h } np
      let np ← getParent s.heap node
      let sibling ← getLeft s.heap np
      pure (s, sibling) : Except Err (RedBlackTree × Option Nat))
    else pure (s, sibling)
  -- if (sibling->right->isBlack && sibling->left->isBlack)
  let sr ← getRight s.heap sibling
  let srb ← getIsBlack s.heap sr
  let c2 ← if srb then (do
      let sl ← getLeft s.heap sibling
      getIsBlack s.heap sl : Except Err Bool) else pure false
  if c2 then do
    let h ← setIsBlack s.heap sibling false
    let np ← getParent h node
    pure ({ s with heap := h }, np)
  else do
    -- if (sibling->left->isBlack)
    let sl ← getLeft s.heap sibling
    let slb ← getIsBlack s.heap sl
    let (s, sibling) ←
      if slb then (do
        let sr ← getRight s.heap sibling
        let h ← setIsBlack s.heap sr true
        let h ← setIsBlack h sibling false
        let s ← leftRotate { s with heap := h } sibling
        let np ← getParent s.heap node
        let sibling ← getLeft s.heap np
        pure (s, sibling) : Except Err (RedBlackTree × Option Nat))
      else pure (s, sibling)
    -- sibling->isBlack = node->parent->isBlack;
    let np ← getParent s.heap node
    let npb ← getIsBlack s.heap np
    let h ← setIsBlack s.heap sibling npb
    -- node->parent->isBlack = true;
    let np ← getParent h node
    let h ← setIsBlack h np true
    -- sibling->left->isBlack = true;
    let sl ← getLeft h sibling
    let h ← setIsBlack h sl true
    -- rightRotate(node->parent); node = root;
    let np ← getParent h node
    let s ← rightRotate { s with heap := h } np
    pure (s, s.root)

/-- The `while (node != root && node->isBlack)` loop of `fix`; returns the final `node`. -/
def fixLoop : Nat → RedBlackTree → Option Nat → Except Err (RedBlackTree × Option Nat)
  | 0, _, _ => .error .outOfFuel
  | fuel + 1, s, node => do
    let c ← if node ≠ s.root then getIsBlack s.heap node else pure false
    if c then do
      let np ← getParent s.heap node
      let npl ← getLeft s.heap np
      if node = npl then do
        let (s, node) ← fixLeft s node
        fixLoop fuel s node
      else do
        let (s, node) ← fixRight s node
        fixLoop fuel s node
    else pure (s, node)

/-- The helper `fix`: the deletion fix-up. -/
def fix (s : RedBlackTree) (node : Option Nat) : Except Err RedBlackTree := do
  let (s, node) ← fixLoop (s.next + 1) s node
  -- node->isBlack = true;
  let h ← setIsBlack s.heap node true
  pure { s with heap := h }

/-- The helper `searchVectorHelper`: in-order walk pushing the values within the bounds. -/
def searchVectorHelper : Nat → Heap → Int → Int → Option Nat → List Int →
    Except Err (List Int)
  | 0, _, _, _, _, _ => .error .outOfFuel
  | fuel + 1, h, start, «end», node, result =>
    if node ≠ none then do
      let l ← getLeft h node
      let result ← searchVectorHelper fuel h start «end» l result
      let d ← getData h node
      let result := if d ≥ start ∧ d ≤ «end» then result ++ [d] else result
      let r ← getRight h node
      searchVectorHelper fuel h start «end» r result
    else pure result

/-- The helper `dumpHelper`: in-order walk pushing every value. -/
def dumpHelper : Nat → Heap → Option Nat → List Int → Except Err (List Int)
  | 0, _, _, _ => .error .outOfFuel
  | fuel + 1, h, node, result =>
    if node ≠ none then do
      let l ← getLeft h node
      let result ← dumpHelper fuel h l result
      let d ← getData h node
      let result := result ++ [d]
      let r ← getRight h node
      dumpHelper fuel h r result
    else pure result

/-- The helper `copyHelper`: pre-order copy; returns the store, the allocation
counter and the address of the copy. -/
def copyHelper : Nat → Heap → Nat → Option Nat → Except Err (Heap × Nat × Option Nat)
  | 0, _, _, _ => .error .outOfFuel
  | fuel + 1, h, next, node =>
    if node = none then pure (h, next, none)
    else do
      let d ← getData h node
      let newNode := some next
      let h := put h next (some (NodeT.mk1 d))
      let next := next + 1
      -- newNode->left = copyHelper(node->left);
      let l ← getLeft h node
      let (h, next, cl) ← copyHelper fuel h next l
      let h ← setLeft h newNode cl
      -- if (newNode->left != nullptr) newNode->left->parent = newNode;
      let nl ← getLeft h newNode
      let h ← if nl ≠ none then setParent h nl newNode else pure h
      -- newNode->right = copyHelper(node->right);
      let r ← getRight h node
      let (h, next, cr) ← copyHelper fuel h next r
      let h ← setRight h newNode cr
      -- if (newNode->right != nullptr) newNode->right->parent = newNode;
      let nr ← getRight h newNode
      let h ← if nr ≠ none then setParent h nr newNode else pure h
      pure (h, next, newNode)

/-- The helper `clearTree`: post-order deallocation. -/
def clearTree : Nat → Heap → Option Nat → Except Err Heap
  | 0, _, _ => .error .outOfFuel
  | fuel + 1, h, node =>
    if node ≠ none then do
      let l ← getLeft h node
      let h ← clearTree fuel h l
      let r ← getRight h node
      let h ← clearTree fuel h r
      -- delete node;
      match node with
      | some a => pure (put h a none)
      | none => pure h
    else pure h

/-- The helper `deepCopy`: `this` becomes a copy of the tree `(rroot, rsize)` that
lives in the same store. -/
def deepCopy (s : RedBlackTree) (rroot : Option Nat) (rsize : Int) :
    Except Err RedBlackTree := do
  if rroot ≠ none then do
    let h ← clearTree (s.next + 1) s.heap s.root
    let (h, next, root) ← copyHelper (s.next + 1) h s.next rroot
    pure { heap := h, next := next, root := root, currentSize := rsize }
  else
    pure { s with root := none, currentSize := rsize }

/-- The loop of the member `search(T)`. -/
def searchLoop : Nat → Heap → Int → Option Nat → Except Err Bool
  | 0, _, _, _ => .error .outOfFuel
  | fuel + 1, h, value, temp =>
    if temp ≠ none then do
      let d ← getData h temp
      if value = d then
        pure true
      else if value > d then do
        let r ← getRight h temp
        searchLoop fuel h value r
      else do
        let l ← getLeft h temp
        searchLoop fuel h value l
    else pure false

/-- The member `search(T)`. -/
def search (s : RedBlackTree) (value : Int) : Except Err Bool :=
  searchLoop (s.next + 1) s.heap value s.root

/-- The member `search(T, T)`: the values between the two bounds. -/
def searchRange (s : RedBlackTree) (start «end» : Int) : Except Err (List Int) :=
  searchVectorHelper (s.next + 1) s.heap start «end» s.root []

/-- The member `dump`. -/
def dump (s : RedBlackTree) : Except Err (List Int) :=
  dumpHelper (s.next + 1) s.heap s.root []

/-- The member `size`. -/
def size (s : RedBlackTree) : Int := s.currentSize

/-- The member `getRoot`. -/
def getRoot (s : RedBlackTree) : Option Nat := s.root

/-- The branch of the loop body of `insert` taken when the parent of `newNode` is a
left child. -/
def insertLeft (s : RedBlackTree) (newNode : Option Nat) :
    Except Err (RedBlackTree × Option Nat) := do
  -- NodeT<T>* uncle = newNode->parent->parent->right;
  let np ← getParent s.heap newNode
  let npp ← getParent s.heap np
  let uncle ← getRight s.heap npp
  -- if (uncle != nullptr && !uncle->isBlack)
  let c ← if uncle ≠ none then (do
      let b ← getIsBlack s.heap uncle
      pure (!b) : Except Err Bool) else pure false
  if c then do
    let np ← getParent s.heap newNode
    let h ← setIsBlack s.heap np true
    let h ← setIsBlack h uncle true
    let np ← getParent h newNode
    let npp ← getParent h np
    let h ← setIsBlack h npp false
    let np ← getParent h newNode
    let npp ← getParent h np
    pure ({ s with heap := h }, npp)
  else do
    -- if (newNode == newNode->parent->right)
    let np ← getParent s.heap newNode
    let npr ← getRight s.heap np
    let (s, newNode) ←
      if newNode = npr then (do
        let newNode ← getParent s.heap newNode
        let s ← leftRotate s newNode
        pure (s, newNode) : Except Err (RedBlackTree × Option Nat))
      else pure (s, newNode)
    let np ← getParent s.heap newNode
    let h ← setIsBlack s.heap np true
    let np ← getParent h newNode
    let npp ← getParent h np
    let h ← setIsBlack h npp false
    let np ← getParent h newNode
    let npp ← getParent h np
    let s ← rightRotate { s with heap := h } npp
    pure (s, newNode)

/-- The branch of the loop body of `insert` taken when the parent of `newNode` is a
right child. -/
def insertRight (s : RedBlackTree) (newNode : Option Nat) :
    Except Err (RedBlackTree × Option Nat) := do
  -- NodeT<T>* uncle = newNode->parent->parent->left;
  let np ← getParent s.heap newNode
  let npp ← getParent s.heap np
  let uncle ← getLeft s.heap npp
  -- if (uncle != nullptr && !uncle->isBlack)
  let c ← if uncle ≠ none then (do
      let b ← getIsBlack s.heap uncle
      pure (!b) : Except Err Bool) else pure false
  if c then do
    let np ← getParent s.heap newNode
    let h ← setIsBlack s.heap np true
    let h ← setIsBlack h uncle true
    let np ← getParent h newNode
    let npp ← getParent h np
    let h ← setIsBlack h npp false
    let np ← getParent h newNode
    let npp ← getParent h np
    pure ({ s with heap := h }, npp)
  else do
    -- if (newNode == newNode->parent->left)
    let np ← getParent s.heap newNode
    let npl ← getLeft s.heap np
    let (s, newNode) ←
      if newNode = npl then (do
        let newNode ← getParent s.heap newNode
        let s ← rightRotate s newNode
        pure (s, newNode) : Except Err (RedBlackTree × Option Nat))
      else pure (s, newNode)
    let np ← getParent s.heap newNode
    let h ← setIsBlack s.heap np true
    let np ← getParent h newNode
    let npp ← getParent h np
    let h ← setIsBlack h npp false
    let np ← getParent h newNode
    let npp ← getParent h np
    let s ← leftRotate { s with heap := h } npp
    pure (s, newNode)

/-- The rebalancing loop of `insert`:
`while (newNode->parent != root && newNode != root && !newNode->parent->isBlack)`. -/
def insertLoop : Nat → RedBlackTree → Option Nat → Except Err RedBlackTree
  | 0, _, _ => .error .outOfFuel
  | fuel + 1, s, newNode => do
    let np ← getParent s.heap newNode
    let c ← if np ≠ s.root then
        (if newNode ≠ s.root then (do
          let np ← getParent s.heap newNode
          let b ← getIsBlack s.heap np
          pure (!b) : Except Err Bool) else pure false)
      else pure false
    if c then do
      let np ← getParent s.heap newNode
      let npp ← getParent s.heap np
      let nppl ← getLeft s.heap npp
      if np = nppl then do
        let (s, newNode) ← insertLeft s newNode
        insertLoop fuel s newNode
      else do
        let (s, newNode) ← insertRight s newNode
        insertLoop fuel s newNode
    else pure s

/-- The member `insert`. -/
def insert (s : RedBlackTree) (value : Int) : Except Err (Bool × RedBlackTree) := do
  let found ← search s value
  if !found then do
    let (s, newNode) ← btInsert s value
    let s := { s with currentSize := s.currentSize + 1 }
    let s ← insertLoop (s.next + 1) s newNode
    -- root->isBlack = true;
    let h ← setIsBlack s.heap s.root true
    pure (true, { s with heap := h })
  else
    pure (false, s)

/-- The statements of `remove` that take `toRemove` out of the tree: its only child,
if any, is linked to the parent of `toRemove` (or becomes the root).  Returns the
child. -/
def unlink (s : RedBlackTree) (toRemove : Option Nat) :
    Except Err (RedBlackTree × Option Nat) := do
  -- if (toRemove->left != nullptr) child = toRemove->left; else child = toRemove->right;
  let rl ← getLeft s.heap toRemove
  let child ← if rl ≠ none then getLeft s.heap toRemove else getRight s.heap toRemove
  -- if (child != nullptr) child->parent = toRemove->parent;
  let h ← if child ≠ none then (do
      let rp ← getParent s.heap toRemove
      setParent s.heap child rp : Except Err Heap) else pure s.heap
  -- if (toRemove->parent == nullptr) root = child;
  -- else if (toRemove == toRemove->parent->left) toRemove->parent->left = child;
  -- else toRemove->parent->right = child;
  let rp ← getParent h toRemove
  let (h, root) ←
    if rp = none then (pure (h, child) : Except Err (Heap × Option Nat))
    else do
      let rpl ← getLeft h rp
      if toRemove = rpl then do
        let h ← setLeft h rp child
        pure (h, s.root)
      else do
        let h ← setRight h rp child
        pure (h, s.root)
  pure ({ s with heap := h, root := root }, child)

/-- The member `remove`. -/
def remove (s : RedBlackTree) (value : Int) : Except Err (Bool × RedBlackTree) := do
  let found ← search s value
  if found then do
    let target ← findNode (s.next + 1) s.heap value s.root
    let sParent : Option Nat := none
    -- if (target->left == nullptr || target->right == nullptr)
    let tl ← getLeft s.heap target
    let c ← if tl = none then pure true else (do
      let tr ← getRight s.heap target
      pure (decide (tr = none)) : Except Err Bool)
    let (toRemove, _sParent) ←
      if c then (pure (target, sParent) : Except Err (Option Nat × Option Nat))
      else getSuccessor s target
    let (s, child) ← unlink s toRemove
    -- if (toRemove != target) target->data = toRemove->data;
    let h ← if toRemove ≠ target then (do
        let d ← getData s.heap toRemove
        setData s.heap target d : Except Err Heap) else pure s.heap
    let s := { s with heap := h }
    -- if (toRemove->isBlack && child != nullptr) fix(child);
    let rb ← getIsBlack s.heap toRemove
    let s ← if rb ∧ child ≠ none then fix s child else pure s
    -- delete toRemove; currentSize--;
    let h := match toRemove with
      | some a => put s.heap a none
      | none => s.heap
    pure (true, { s with heap := h, currentSize := s.currentSize - 1 })
  else
    pure (false, s)

/-- Runs `insert` for every value of a list, left to right, starting from `s`. -/
def insertAll (s : RedBlackTree) : List Int → Except Err RedBlackTree
  | [] => pure s
  | v :: vs => do
    let (_, s) ← insert s v
    insertAll s vs

/-- Runs `remove` for every value of a list, left to right, starting from `s`. -/
def removeAll (s : RedBlackTree) : List Int → Except Err RedBlackTree
  | [] => pure s
  | v :: vs => do
    let (_, s) ← remove s v
    removeAll s vs

end RedBlackTree

/-! ## Shapes: the tree a store holds below a pointer -/

/-- A binary tree of cells: each node records its address, colour flag, and value. -/
inductive Shape where
  | nil
  | node (a : Nat) (c : Bool) (l : Shape) (v : Int) (r : Shape)
deriving DecidableEq, Repr

namespace Shape

/-- The pointer to the root cell of a shape. -/
def ptr : Shape → Option Nat
  | nil => none
  | node a _ _ _ _ => some a

/-- The addresses of the cells of a shape. -/
def addrs : Shape → List Nat
  | nil => []
  | node a _ l _ r => a :: (addrs l ++ addrs r)

/-- The values of a shape, in order. -/
def values : Shape → List Int
  | nil => []
  | node _ _ l v r => values l ++ v :: values r

/-- The number of nodes. -/
def count : Shape → Nat
  | nil => 0
  | node _ _ l _ r => count l + count r + 1

/-- The number of nodes on the longest path from the root down to a leaf. -/
def height : Shape → Nat
  | nil => 0
  | node _ _ l _ r => max (height l) (height r) + 1

/-- Whether the root is Black; an absent node counts as Black. -/
def isBlackRoot : Shape → Bool
  | nil => true
  | node _ c _ _ _ => c

/-- Invariant 1, the binary-search-tree property: at every node the values of the
left subtree are smaller and those of the right subtree larger. -/
def BST : Shape → Prop
  | nil => True
  | node _ _ l v r => (∀ x ∈ values l, x < v) ∧ (∀ x ∈ values r, v < x) ∧ BST l ∧ BST r

/-- Invariant 3: a Red node never has a Red child. -/
def NoRedRed : Shape → Prop
  | nil => True
  | node _ c l _ r =>
    (c = false → isBlackRoot l = true ∧ isBlackRoot r = true) ∧ NoRedRed l ∧ NoRedRed r

/-- The number of Black nodes on the left-most path to a null leaf. -/
def bh : Shape → Nat
  | nil => 0
  | node _ c l _ _ => bh l + (if c then 1 else 0)

/-- Invariant 4: every path from a node to a null leaf below it passes through the
same number of Black nodes. -/
def Balanced : Shape → Prop
  | nil => True
  | node _ _ l _ r => bh l = bh r ∧ Balanced l ∧ Balanced r

/-- The store holds the shape below its pointer, with the given parent link at
the root and every child linking back to its parent. -/
def Rep (h : Heap) : Shape → Option Nat → Prop
  | nil, _ => True
  | node a c l v r, par =>
    h a = some { data := v, parent := par, left := ptr l, right := ptr r, isBlack := c } ∧
    Rep h l (some a) ∧ Rep h r (some a)

/-- The outcome of the descent of `search(T)` on a shape. -/
def find (value : Int) : Shape → Bool
  | nil => false
  | node _ _ l v r =>
    if value = v then true else if value > v then find value r else find value l

end Shape

/-- The tree object `s` holds the shape `t`: the root pointer leads to it, the cells
are pairwise distinct and were all handed out by `new`. -/
structure Holds (s : RedBlackTree) (t : Shape) : Prop where
  root : s.root = t.ptr
  rep : Shape.Rep s.heap t none
  nodup : t.addrs.Nodup
  bound : ∀ a ∈ t.addrs, a < s.next


/-! ## Spines: the part of a tree above a position -/

/-- One step of the way from a position up to the root: the node above, and the
subtree on its other side.  `L` means the position is the left child. -/
inductive Frame where
  | L (a : Nat) (c : Bool) (v : Int) (r : Shape)
  | R (a : Nat) (c : Bool) (l : Shape) (v : Int)
deriving DecidableEq, Repr

namespace Frame

/-- The node of the frame with the given subtree put at the position. -/
def fill : Frame → Shape → Shape
  | L a c v r, t => Shape.node a c t v r
  | R a c l v, t => Shape.node a c l v t

/-- The address of the node of the frame. -/
def addr : Frame → Nat
  | L a _ _ _ => a
  | R a _ _ _ => a

/-- The colour flag of the node of the frame. -/
def isBlack : Frame → Bool
  | L _ c _ _ => c
  | R _ c _ _ => c

/-- The addresses of the node of the frame and of the subtree on the other side. -/
def addrs : Frame → List Nat
  | L a _ _ r => a :: r.addrs
  | R a _ l _ => a :: l.addrs

end Frame

/-- A spine: the frames from a position up to the root, nearest node first. -/
abbrev Spine := List Frame

namespace Spine

/-- The whole tree: the subtree at the position put back below the spine. -/
def plug : Spine → Shape → Shape
  | [], t => t
  | f :: k, t => plug k (f.fill t)

/-- The parent pointer a node at the position has. -/
def par : Spine → Option Nat
  | [] => none
  | f :: _ => some f.addr

/-- The addresses of all cells of the spine. -/
def addrs : Spine → List Nat
  | [] => []
  | f :: k => f.addrs ++ addrs k

/-- The values to the left of the position, in order. -/
def before : Spine → List Int
  | [] => []
  | Frame.L _ _ _ _ :: k => before k
  | Frame.R _ _ l v :: k => before k ++ (l.values ++ [v])

/-- The values to the right of the position, in order. -/
def after : Spine → List Int
  | [] => []
  | Frame.L _ _ v r :: k => (v :: r.values) ++ after k
  | Frame.R _ _ _ _ :: k => after k

/-- The store holds the spine, given the pointer stored for the position. -/
def Rep (h : Heap) : Spine → Option Nat → Prop
  | [], _ => True
  | Frame.L a c v r :: k, p =>
    h a = some { data := v, parent := par k, left := p, right := r.ptr, isBlack := c } ∧
    Shape.Rep h r (some a) ∧ Rep h k (some a)
  | Frame.R a c l v :: k, p =>
    h a = some { data := v, parent := par k, left := l.ptr, right := p, isBlack := c } ∧
    Shape.Rep h l (some a) ∧ Rep h k (some a)

end Spine


/-- The two stores agree at every address outside the list. -/
def SameOutside (S : List Nat) (h2 h : Heap) : Prop :=
  ∀ z, z ∉ S → h2 z = h z

/-! ## The rebalancing loop of `insert`, on positions -/

namespace Shape

/-- The statement `root->isBlack = true` on a shape. -/
def setRootBlack : Shape → Shape
  | nil => nil
  | node a _ l v r => node a true l v r

end Shape

namespace Spine
open Shape

/-- Whether the position is a left child (`isLeft` of `btInsert`). -/
def headIsLeft : Spine → Bool
  | Frame.L _ _ _ _ :: _ => true
  | _ => false

/-- The descent of `btInsert`: the spine of the null position where the value goes. -/
def descend (value : Int) : Shape → Spine → Spine
  | nil, k => k
  | node a c l v r, k =>
    if value < v then descend value l (Frame.L a c v r :: k)
    else descend value r (Frame.R a c l v :: k)

/-- One pass through the body of the rebalancing loop of `insert`, for `newNode` at
the position `(k, t)`; `none` when the loop condition fails. -/
def insStep : Spine → Shape → Option (Spine × Shape)
  | f :: Frame.L ga _ gv u :: k, t =>
    if f.isBlack then none
    else
      match u with
      | node ua false ul uv ur =>
        -- Red uncle: recolour and move two levels up
        match f with
        | Frame.L pa _ pv pr =>
          some (k, node ga false (node pa true t pv pr) gv (node ua true ul uv ur))
        | Frame.R pa _ pl pv =>
          some (k, node ga false (node pa true pl pv t) gv (node ua true ul uv ur))
      | _ =>
        match f, t with
        | Frame.R pa pc pl pv, node n _ tl v tr =>
          -- leftRotate(parent), then recolour and rightRotate(grandparent)
          some (Frame.L n true v (node ga false tr gv u) :: k, node pa pc pl pv tl)
        | Frame.L pa _ pv pr, t =>
          -- recolour and rightRotate(grandparent)
          some (Frame.L pa true pv (node ga false pr gv u) :: k, t)
        | Frame.R _ _ _ _, nil => none
  | f :: Frame.R ga _ u gv :: k, t =>
    if f.isBlack then none
    else
      match u with
      | node ua false ul uv ur =>
        match f with
        | Frame.L pa _ pv pr =>
          some (k, node ga false (node ua true ul uv ur) gv (node pa true t pv pr))
        | Frame.R pa _ pl pv =>
          some (k, node ga false (node ua true ul uv ur) gv (node pa true pl pv t))
      | _ =>
        match f, t with
        | Frame.L pa pc pv pr, node n _ tl v tr =>
          -- rightRotate(parent), then recolour and leftRotate(grandparent)
          some (Frame.R n true (node ga false u gv tl) v :: k, node pa pc tr pv pr)
        | Frame.R pa _ pl pv, t =>
          some (Frame.R pa true (node ga false u gv pl) pv :: k, t)
        | Frame.L _ _ _ _, nil => none
  | _, _ => none

/-- The rebalancing loop of `insert` on positions: the whole tree when it stops. -/
def insLoop : Nat → Spine → Shape → Shape
  | 0, k, t => plug k t
  | fuel + 1, k, t =>
    match insStep k t with
    | none => plug k t
    | some (k2, t2) => insLoop fuel k2 t2

end Spine

namespace Shape

/-- The tree after a call `insert(value)` that returns true, the new node being
allocated at address `n`. -/
def insertAt (t : Shape) (value : Int) (n : Nat) : Shape :=
  (Spine.insLoop ((Spine.descend value t []).length + 1) (Spine.descend value t [])
    (node n false nil value nil)).setRootBlack

end Shape

namespace Spine
open Shape

/-- No Red node of the spine has a Red child, where `hb` tells whether the subtree
at the position has a Black root. -/
def NoRedRed : Spine → Bool → Prop
  | [], _ => True
  | Frame.L _ c _ r :: k, hb =>
    (c = false → hb = true ∧ r.isBlackRoot = true) ∧ Shape.NoRedRed r ∧ NoRedRed k c
  | Frame.R _ c l _ :: k, hb =>
    (c = false → l.isBlackRoot = true ∧ hb = true) ∧ Shape.NoRedRed l ∧ NoRedRed k c

/-- The black-heights along the spine are uniform, where `n` is the black-height of
the subtree at the position. -/
def Balanced : Spine → Nat → Prop
  | [], _ => True
  | Frame.L _ c _ r :: k, n =>
    n = r.bh ∧ Shape.Balanced r ∧ Balanced k (n + (if c then 1 else 0))
  | Frame.R _ c l _ :: k, n =>
    l.bh = n ∧ Shape.Balanced l ∧ Balanced k (l.bh + (if c then 1 else 0))

end Spine

namespace Shape

/-- The four structural invariants of a red-black tree. -/
def RedBlack (t : Shape) : Prop :=
  t.BST ∧ t.isBlackRoot = true ∧ t.NoRedRed ∧ t.Balanced

end Shape

/-! ## `remove` on positions -/

namespace Spine
open Shape

/-- The descent of `findNode`: the position of the node holding the value. -/
def locate (value : Int) : Shape → Spine → Option (Spine × Shape)
  | nil, _ => none
  | node a c l v r, k =>
    if value = v then some (k, node a c l v r)
    else if value > v then locate value r (Frame.R a c l v :: k)
    else locate value l (Frame.L a c v r :: k)

/-- The descent of `getSuccessor`: the position of the left-most node of a subtree. -/
def leftmost : Shape → Spine → Spine × Shape
  | node a c (node b cb bl bv br) v r, k => leftmost (node b cb bl bv br) (Frame.L a c v r :: k)
  | t, k => (k, t)

end Spine

namespace Shape
open Spine

/-- The subtree that takes the place of an unlinked node: its only child, made Black
by `fix` when the unlinked node was Black.  (This describes `fix` for a child that
is absent or Red.) -/
def spliceChild (removedIsBlack : Bool) (child : Shape) : Shape :=
  if removedIsBlack then child.setRootBlack else child

/-- The tree after a call `remove(value)` that returns true, for a tree in which the
only child of a Black node is Red. -/
def removeAt (t : Shape) (value : Int) : Shape :=
  match locate value t [] with
  | some (k, node _ c nil _ r) => plug k (spliceChild c r)
  | some (k, node _ c (node b cb bl bv br) _ nil) => plug k (spliceChild c (node b cb bl bv br))
  | some (k, node a c (node b cb bl bv br) _ (node d cd dl dv dr)) =>
    match leftmost (node d cd dl dv dr) [] with
    | (ki, node _ sc _ sv sr) =>
      plug k (node a c (node b cb bl bv br) sv (plug ki (spliceChild sc sr)))
    | (_, nil) => t
  | _ => t

end Shape

namespace Shape
open Spine

/-- The position of the node a call `remove(value)` unlinks and deletes (`toRemove`):
the node holding the value, or the left-most node of its right subtree when that node
has two children. -/
def unlinked (t : Shape) (value : Int) : Option (Spine × Shape) :=
  match locate value t [] with
  | some (k, node a c (node b cb bl bv br) v (node d cd dl dv dr)) =>
    some ((leftmost (node d cd dl dv dr) []).1 ++ Frame.R a c (node b cb bl bv br) v :: k,
      (leftmost (node d cd dl dv dr) []).2)
  | some (k, n) => some (k, n)
  | none => none

end Shape

/-- A store holding the tree with Black root 20 and Red children 10 and 30. -/
def sampleTree : RedBlackTree :=
  { heap := fun a =>
      if a = 0 then some ⟨20, none, some 1, some 2, true⟩
      else if a = 1 then some ⟨10, some 0, none, none, false⟩
      else if a = 2 then some ⟨30, some 0, none, none, false⟩
      else none
    next := 3
    root := some 0
    currentSize := 3 }

/-- The shape held by `sampleTree`. -/
def sampleShape : Shape :=
  .node 0 true (.node 1 false .nil 10 .nil) 20 (.node 2 false .nil 30 .nil)


namespace RedBlackTree

/-- The copy constructor: a new tree object, living in the store of `r`, is made a
copy of `r` (`root(nullptr), currentSize(0)`, then `deepCopy(r)`). -/
def copyConstruct (r : RedBlackTree) : Except Err RedBlackTree :=
  deepCopy { heap := r.heap, next := r.next, root := none, currentSize := 0 } r.root r.currentSize

/-- The operator `operator=`: `same` tells whether the argument is this very object
(`this == &r`); otherwise the argument is the tree `(rroot, rsize)` of the same store. -/
def assign (s : RedBlackTree) (same : Bool) (rroot : Option Nat) (rsize : Int) :
    Except Err RedBlackTree :=
  if same then pure s else deepCopy s rroot rsize

end RedBlackTree

namespace Shape

/-- The shape `copyHelper` builds for a shape when the next free address is `n`:
cells are allocated in pre-order and every node is made by `NodeT(value)`. -/
def copyAt : Shape → Nat → Shape
  | nil, _ => nil
  | node _ _ l v r, n => node n false (copyAt l (n + 1)) v (copyAt r (n + 1 + l.count))

/-- Two shapes have the same form: nodes at the same positions, with the same values. -/
def SameForm : Shape → Shape → Prop
  | nil, nil => True
  | node _ _ l v r, node _ _ l2 v2 r2 => v = v2 ∧ SameForm l l2 ∧ SameForm r r2
  | _, _ => False

/-- Two shapes have the same colour at every position. -/
def SameColours : Shape → Shape → Prop
  | nil, nil => True
  | node _ c l _ r, node _ c2 l2 _ r2 => c = c2 ∧ SameColours l l2 ∧ SameColours r r2
  | _, _ => False

/-- Every node of the shape is Red. -/
def AllRed : Shape → Prop
  | nil => True
  | node _ c l _ r => c = false ∧ AllRed l ∧ AllRed r

end Shape

namespace Shape

/-- The cells of a shape: address, colour and value of every node. -/
def cells : Shape → List (Nat × Bool × Int)
  | nil => []
  | node a c l v r => (a, c, v) :: (cells l ++ cells r)

end Shape

/-- Parent-reference consistency of a tree object whose nodes are the cells at the
given addresses: the parent reference of the root is absent, and every child of a
node refers back to the node. -/
def ParentsConsistent (s : RedBlackTree) (nodes : List Nat) : Prop :=
  (∀ a, s.root = some a → ∃ n, s.heap a = some n ∧ n.parent = none) ∧
  ∀ a ∈ nodes, ∃ n, s.heap a = some n ∧
    (∀ b, n.left = some b → ∃ m, s.heap b = some m ∧ m.parent = some a) ∧
    (∀ b, n.right = some b → ∃ m, s.heap b = some m ∧ m.parent = some a)

/-- The tree objects obtained from the empty tree by `insert` calls, by `remove` calls
made on trees that satisfy the invariants, by copy construction, and by copy
assignment from a tree of the same store whose cells are apart. -/
inductive Reachable : RedBlackTree → Prop
  | empty : Reachable RedBlackTree.empty
  | insert {s s2 : RedBlackTree} {b : Bool} (v : Int) :
    Reachable s → RedBlackTree.insert s v = .ok (b, s2) → Reachable s2
  | remove {s s2 : RedBlackTree} {t : Shape} {b : Bool} (v : Int) :
    Reachable s → Holds s t → t.RedBlack → RedBlackTree.remove s v = .ok (b, s2) → Reachable s2
  | copy {r d : RedBlackTree} :
    Reachable r → RedBlackTree.copyConstruct r = .ok d → Reachable d
  | assign {d r d2 : RedBlackTree} {td ts : Shape} :
    Reachable d → Holds d td → Holds r ts → r.heap = d.heap → r.next = d.next →
    (∀ a ∈ ts.addrs, a ∉ td.addrs) →
    RedBlackTree.assign d false r.root r.currentSize = .ok d2 → Reachable d2
/-! ## Basic facts -/

namespace RedBlackTree

@[simp] theorem ok_bind {α β : Type} (a : α) (f : α → Except Err β) :
    (Except.ok a >>= f) = f a := rfl

@[simp] theorem error_bind {α β : Type} (e : Err) (f : α → Except Err β) :
    ((Except.error e : Except Err α) >>= f) = Except.error e := rfl

@[simp] theorem pure_eq_ok {α : Type} (a : α) : (pure a : Except Err α) = Except.ok a := rfl

@[simp] theorem put_same (h : Heap) (a : Nat) (c : Option NodeT) : put h a c a = c := by
  simp [put]

theorem put_other (h : Heap) {a b : Nat} (c : Option NodeT) (hne : b ≠ a) :
    put h a c b = h b := by
  simp [put, hne]

theorem rd_cell {h : Heap} {a : Nat} {n : NodeT} (e : h a = some n) :
    rd h (some a) = .ok n := by
  simp [rd, e]

theorem wr_cell {h : Heap} {a : Nat} {n : NodeT} (e : h a = some n) (f : NodeT → NodeT) :
    wr h (some a) f = .ok (put h a (some (f n))) := by
  simp [wr, e]

end RedBlackTree

namespace Shape
open RedBlackTree

theorem count_eq_length_addrs (t : Shape) : t.count = t.addrs.length := by
  induction t with
  | nil => rfl
  | node a c l v r ihl ihr => simp [count, addrs, ihl, ihr]

theorem count_eq_length_values (t : Shape) : t.count = t.values.length := by
  induction t with
  | nil => rfl
  | node a c l v r ihl ihr => simp [count, values, ihl, ihr]; omega

theorem height_le_count (t : Shape) : t.height ≤ t.count := by
  induction t with
  | nil => simp [height, count]
  | node a c l v r ihl ihr => simp [height, count]; omega

/-- Two stores that agree on the cells of a shape hold it alike. -/
theorem Rep.frame {h h2 : Heap} {t : Shape} {par : Option Nat}
    (hr : Rep h t par) (hag : ∀ a ∈ t.addrs, h2 a = h a) : Rep h2 t par := by
  induction t generalizing par with
  | nil => trivial
  | node a c l v r ihl ihr =>
    obtain ⟨e, hl, hrr⟩ := hr
    refine ⟨?_, ihl hl ?_, ihr hrr ?_⟩
    · rw [hag a (by simp [addrs])]; exact e
    · intro b hb; exact hag b (by simp [addrs, hb])
    · intro b hb; exact hag b (by simp [addrs, hb])

/-- The shape below a pointer is determined by the store. -/
theorem Rep.unique {h : Heap} {t u : Shape} {par par2 : Option Nat}
    (ht : Rep h t par) (hu : Rep h u par2) (hp : t.ptr = u.ptr) : t = u := by
  induction t generalizing u par par2 with
  | nil =>
    cases u with
    | nil => rfl
    | node => simp [ptr] at hp
  | node a c l v r ihl ihr =>
    cases u with
    | nil => simp [ptr] at hp
    | node a2 c2 l2 v2 r2 =>
      simp only [ptr, Option.some.injEq] at hp
      subst hp
      obtain ⟨e, hl, hr⟩ := ht
      obtain ⟨e2, hl2, hr2⟩ := hu
      rw [e] at e2
      simp only [Option.some.injEq, NodeT.mk.injEq] at e2
      obtain ⟨rfl, -, el, er, rfl⟩ := e2
      rw [ihl hl hl2 el, ihr hr hr2 er]

end Shape

namespace Shape

@[simp] theorem ptr_nil : ptr nil = none := rfl
@[simp] theorem ptr_node (a : Nat) (c : Bool) (l : Shape) (v : Int) (r : Shape) :
    ptr (node a c l v r) = some a := rfl
@[simp] theorem addrs_nil : addrs nil = [] := rfl
@[simp] theorem addrs_node (a : Nat) (c : Bool) (l : Shape) (v : Int) (r : Shape) :
    addrs (node a c l v r) = a :: (addrs l ++ addrs r) := rfl
@[simp] theorem values_nil : values nil = [] := rfl
@[simp] theorem values_node (a : Nat) (c : Bool) (l : Shape) (v : Int) (r : Shape) :
    values (node a c l v r) = values l ++ v :: values r := rfl

theorem ptr_eq_none {t : Shape} : t.ptr = none ↔ t = nil := by
  cases t <;> simp

end Shape

namespace Shape
open RedBlackTree

theorem Rep.cellData {h : Heap} {a : Nat} {c : Bool} {l r : Shape} {v : Int} {par : Option Nat}
    (hr : Rep h (node a c l v r) par) : getData h (some a) = .ok v := by
  simp [RedBlackTree.getData, rd_cell hr.1]

theorem Rep.cellLeft {h : Heap} {a : Nat} {c : Bool} {l r : Shape} {v : Int} {par : Option Nat}
    (hr : Rep h (node a c l v r) par) : getLeft h (some a) = .ok l.ptr := by
  simp [RedBlackTree.getLeft, rd_cell hr.1]

theorem Rep.cellRight {h : Heap} {a : Nat} {c : Bool} {l r : Shape} {v : Int} {par : Option Nat}
    (hr : Rep h (node a c l v r) par) : getRight h (some a) = .ok r.ptr := by
  simp [RedBlackTree.getRight, rd_cell hr.1]

theorem Rep.cellParent {h : Heap} {a : Nat} {c : Bool} {l r : Shape} {v : Int} {par : Option Nat}
    (hr : Rep h (node a c l v r) par) : getParent h (some a) = .ok par := by
  simp [RedBlackTree.getParent, rd_cell hr.1]

theorem Rep.cellIsBlack {h : Heap} {a : Nat} {c : Bool} {l r : Shape} {v : Int} {par : Option Nat}
    (hr : Rep h (node a c l v r) par) : getIsBlack h (some a) = .ok c := by
  simp [RedBlackTree.getIsBlack, rd_cell hr.1]

/-- The loop of `search(T)` computes the descent `find`. -/
theorem searchLoop_rep {h : Heap} {t : Shape} {par : Option Nat} (hr : Rep h t par)
    (value : Int) (fuel : Nat) (hf : t.height < fuel) :
    searchLoop fuel h value t.ptr = .ok (t.find value) := by
  induction t generalizing fuel par with
  | nil =>
    cases fuel with
    | zero => omega
    | succ n => simp [searchLoop, find]
  | node a c l v r ihl ihr =>
    cases fuel with
    | zero => omega
    | succ n =>
      simp only [height] at hf
      have hl : l.height < n := by omega
      have hrr : r.height < n := by omega
      simp only [searchLoop, ptr_node, find, hr.cellData, hr.cellLeft, hr.cellRight, ok_bind, ne_eq, not_false_eq_true, if_true, reduceCtorEq]
      by_cases e : value = v
      · simp [e]
      · by_cases g : value > v
        · simp [e, g, ihr hr.2.2 n hrr]
        · simp [e, g, ihl hr.2.1 n hl]

/-- The walk of `dumpHelper` appends the values of the shape, in order. -/
theorem dumpHelper_rep {h : Heap} {t : Shape} {par : Option Nat} (hr : Rep h t par)
    (fuel : Nat) (hf : t.height < fuel) (acc : List Int) :
    dumpHelper fuel h t.ptr acc = .ok (acc ++ t.values) := by
  induction t generalizing fuel par acc with
  | nil =>
    cases fuel with
    | zero => omega
    | succ n => simp [dumpHelper]
  | node a c l v r ihl ihr =>
    cases fuel with
    | zero => omega
    | succ n =>
      simp only [height] at hf
      have hl : l.height < n := by omega
      have hrr : r.height < n := by omega
      simp [dumpHelper, hr.cellData, hr.cellLeft, hr.cellRight,
        ihl hr.2.1 n hl, ihr hr.2.2 n hrr]

/-- The walk of `searchVectorHelper` appends the values within the bounds, in order. -/
theorem searchVectorHelper_rep {h : Heap} {t : Shape} {par : Option Nat} (hr : Rep h t par)
    (lo hi : Int) (fuel : Nat) (hf : t.height < fuel) (acc : List Int) :
    searchVectorHelper fuel h lo hi t.ptr acc =
      .ok (acc ++ t.values.filter (fun x => decide (lo ≤ x ∧ x ≤ hi))) := by
  induction t generalizing fuel par acc with
  | nil =>
    cases fuel with
    | zero => omega
    | succ n => simp [searchVectorHelper]
  | node a c l v r ihl ihr =>
    cases fuel with
    | zero => omega
    | succ n =>
      simp only [height] at hf
      have hl : l.height < n := by omega
      have hrr : r.height < n := by omega
      simp only [searchVectorHelper, ptr_node, values_node, hr.cellData, hr.cellLeft, hr.cellRight,
        ihl hr.2.1 n hl, ok_bind, ne_eq, not_false_eq_true, if_true, reduceCtorEq]
      by_cases e : lo ≤ v ∧ v ≤ hi
      · simp [e, ihr hr.2.2 n hrr, List.filter_cons]
      · simp [e, ihr hr.2.2 n hrr, List.filter_cons]

end Shape

theorem Holds.height_lt {s : RedBlackTree} {t : Shape} (hs : Holds s t) :
    t.height < s.next + 1 := by
  have h1 := t.height_le_count
  have h2 : t.addrs.length ≤ s.next := by
    have hsub : t.addrs.toFinset ⊆ Finset.range s.next := by
      intro a ha
      simp only [List.mem_toFinset] at ha
      simpa using hs.bound a ha
    have hc := Finset.card_le_card hsub
    rw [List.toFinset_card_of_nodup hs.nodup] at hc
    simpa using hc
  rw [t.count_eq_length_addrs] at h1
  omega
namespace Spine
open Shape

@[simp] theorem plug_nil (t : Shape) : plug [] t = t := rfl
@[simp] theorem plug_cons (f : Frame) (k   : Spine) (t : Shape) :
    plug (f :: k) t = plug k (f.fill t) := rfl
@[simp] theorem par_nil : par [] = none := rfl
@[simp] theorem par_cons (f : Frame) (k   : Spine) : par (f :: k) = some f.addr := rfl
@[simp] theorem spine_addrs_nil : addrs [] = [] := rfl
@[simp] theorem addrs_cons (f : Frame) (k   : Spine) : addrs (f :: k) = f.addrs ++ addrs k := rfl

theorem plug_append (k1 k2   : Spine) (t : Shape) : plug (k1 ++ k2) t = plug k2 (plug k1 t) := by
  induction k1 generalizing t with
  | nil => rfl
  | cons f k ih => simp [ih]

theorem ptr_plug_cons (f : Frame) (k   : Spine) (t u : Shape) :
    (plug (f :: k) t).ptr = (plug (f :: k) u).ptr := by
  induction k generalizing f t u with
  | nil => cases f <;> rfl
  | cons g k ih => simp only [plug_cons] at ih ⊢; exact ih g _ _

/-- The root pointer depends on the subtree only through its own pointer. -/
theorem ptr_plug_congr (k   : Spine) {t u : Shape} (e : t.ptr = u.ptr) :
    (plug k t).ptr = (plug k u).ptr := by
  cases k with
  | nil => simpa using e
  | cons f k => exact ptr_plug_cons f k t u

theorem addrs_plug_perm (k : Spine) (t : Shape) :
    (plug k t).addrs.Perm (t.addrs ++ addrs k) := by
  induction k generalizing t with
  | nil => simp
  | cons f k ih =>
    refine (ih (f.fill t)).trans ?_
    rw [List.perm_iff_count]
    intro x
    cases f with
    | L a c v r =>
      simp only [Frame.fill, Shape.addrs_node, addrs_cons, Frame.addrs, List.count_append,
        List.count_cons, List.cons_append]
      omega
    | R a c l v =>
      simp only [Frame.fill, Shape.addrs_node, addrs_cons, Frame.addrs, List.count_append,
        List.count_cons, List.cons_append]
      omega

theorem values_plug (k   : Spine) (t : Shape) :
    (plug k t).values = before k ++ t.values ++ after k := by
  induction k generalizing t with
  | nil => simp [before, after]
  | cons f k ih =>
    cases f with
    | L a c v r => simp [ih, Frame.fill, before, after]
    | R a c l v => simp [ih, Frame.fill, before, after]

/-- A tree holds in the store exactly when the subtree at a position and the spine
above it do. -/
theorem rep_plug {h : Heap} (k : Spine) (t : Shape) :
    Shape.Rep h (plug k t) none ↔ Shape.Rep h t (par k) ∧ Rep h k t.ptr := by
  induction k generalizing t with
  | nil => simp [Rep]
  | cons f k ih =>
    rw [plug_cons, ih]
    cases f with
    | L a c v r => simp only [Frame.fill, Shape.Rep, Rep, par_cons, Frame.addr, ptr_node]; tauto
    | R a c l v => simp only [Frame.fill, Shape.Rep, Rep, par_cons, Frame.addr, ptr_node]; tauto

/-- Two stores that agree on the cells of a spine hold it alike. -/
theorem Rep.frame_spine {h h2 : Heap} {k : Spine} {p : Option Nat}
    (hr : Rep h k p) (hag : ∀ a ∈ addrs k, h2 a = h a) : Rep h2 k p := by
  induction k generalizing p with
  | nil => trivial
  | cons f k ih =>
    cases f with
    | L a c v r =>
      obtain ⟨e, hs, hk⟩ := hr
      refine ⟨?_, hs.frame ?_, ih hk ?_⟩
      · rw [hag a (by simp [Frame.addrs])]; exact e
      · intro b hb; exact hag b (by simp [Frame.addrs, hb])
      · intro b hb; exact hag b (by simp [hb])
    | R a c l v =>
      obtain ⟨e, hs, hk⟩ := hr
      refine ⟨?_, hs.frame ?_, ih hk ?_⟩
      · rw [hag a (by simp [Frame.addrs])]; exact e
      · intro b hb; exact hag b (by simp [Frame.addrs, hb])
      · intro b hb; exact hag b (by simp [hb])

end Spine

namespace Shape
open RedBlackTree

theorem ptr_ne_of_not_mem {t : Shape} {a : Nat} (h : a ∉ t.addrs) : t.ptr ≠ some a := by
  cases t with
  | nil => simp
  | node b c l v r =>
    simp only [addrs_node, List.mem_cons, not_or] at h
    simp only [ptr_node, ne_eq, Option.some.injEq]
    exact fun e => h.1 e.symm

end Shape

namespace Spine
open RedBlackTree Shape

theorem ptr_plug_mem (f : Frame) (k : Spine) (t : Shape) :
    ∃ b ∈ addrs (f :: k), (plug (f :: k) t).ptr = some b := by
  induction k generalizing f t with
  | nil => cases f <;> simp [Frame.fill, Frame.addrs]
  | cons g k ih =>
    obtain ⟨b, hb, e⟩ := ih g (f.fill t)
    exact ⟨b, by simp only [addrs_cons] at hb ⊢; simp [hb], e⟩

end Spine

namespace RedBlackTree

theorem agree_put {S : List Nat} {h2 h : Heap} {a : Nat} (c : Option NodeT)
    (hag : ∀ b ∈ S, h2 b = h b) (hn : a ∉ S) : ∀ b ∈ S, put h2 a c b = h b := by
  intro b hb
  have hne : b ≠ a := fun e => hn (e ▸ hb)
  rw [put_other _ _ hne]
  exact hag b hb

end RedBlackTree

namespace Holds
open RedBlackTree Shape Spine

variable {s : RedBlackTree} {k : Spine} {t : Shape}

theorem nodup_split (hs : Holds s (plug k t)) : (t.addrs ++ Spine.addrs k).Nodup :=
  (addrs_plug_perm k t).nodup_iff.1 hs.nodup

theorem bound_split (hs : Holds s (plug k t)) : ∀ a ∈ t.addrs ++ Spine.addrs k, a < s.next :=
  fun a ha => hs.bound a ((addrs_plug_perm k t).mem_iff.2 ha)

theorem rep_sub (hs : Holds s (plug k t)) : Shape.Rep s.heap t (par k) :=
  ((rep_plug k t).1 hs.rep).1

theorem rep_spine (hs : Holds s (plug k t)) : Spine.Rep s.heap k t.ptr :=
  ((rep_plug k t).1 hs.rep).2

/-- Building `Holds` for a tree given as a subtree below a spine. -/
theorem of_split {s2 : RedBlackTree} {k : Spine} {t : Shape}
    (hroot : s2.root = (plug k t).ptr) (hsub : Shape.Rep s2.heap t (par k))
    (hsp : Spine.Rep s2.heap k t.ptr) (hnd : (t.addrs ++ Spine.addrs k).Nodup)
    (hb : ∀ a ∈ t.addrs ++ Spine.addrs k, a < s2.next) : Holds s2 (plug k t) :=
  { root := hroot
    rep := (rep_plug k t).2 ⟨hsub, hsp⟩
    nodup := (addrs_plug_perm k t).nodup_iff.2 hnd
    bound := fun a ha => hb a ((addrs_plug_perm k t).mem_iff.1 ha) }

/-- The root pointer is the pointer of a node exactly when the node is at the top. -/
theorem root_eq_iff {a : Nat} {c : Bool} {l r : Shape} {v : Int}
    (hs : Holds s (plug k (node a c l v r))) : s.root = some a ↔ k = [] := by
  constructor
  · intro e
    cases k with
    | nil => rfl
    | cons f k =>
      exfalso
      obtain ⟨b, hb, e2⟩ := ptr_plug_mem f k (node a c l v r)
      rw [hs.root, e2] at e
      have hn := hs.nodup_split
      simp only [Option.some.injEq] at e
      subst e
      rw [List.nodup_append] at hn
      exact hn.2.2 (by simp) hb
  · rintro rfl
    simpa using hs.root

end Holds

namespace Holds
open RedBlackTree Shape Spine

variable {s : RedBlackTree} {k : Spine}

/-- Recolouring the node at a position. -/
theorem setIsBlack_focus {a : Nat} {c : Bool} {l r : Shape} {v : Int}
    (hs : Holds s (plug k (node a c l v r))) (b : Bool) :
    ∃ h2, setIsBlack s.heap (some a) b = .ok h2 ∧
      Holds { s with heap := h2 } (plug k (node a b l v r)) ∧
      ∀ x, x ∉ (plug k (node a c l v r)).addrs → h2 x = s.heap x := by
  have hsub := hs.rep_sub
  have hsp := hs.rep_spine
  have hn := hs.nodup_split
  obtain ⟨e, hl, hr⟩ := hsub
  refine ⟨_, by simp only [setIsBlack]; exact wr_cell e _, ?_, ?_⟩
  · simp only [addrs_node, List.cons_append, List.nodup_cons, List.mem_append, not_or,
      List.nodup_append] at hn
    refine of_split (k := k) (t := node a b l v r) ?_ ⟨by simp, ?_, ?_⟩ ?_ ?_ ?_
    · exact hs.root.trans (ptr_plug_congr k rfl)
    · exact hl.frame (agree_put _ (fun _ _ => rfl) hn.1.1.1)
    · exact hr.frame (agree_put _ (fun _ _ => rfl) hn.1.1.2)
    · exact Spine.Rep.frame_spine hsp (agree_put _ (fun _ _ => rfl) hn.1.2)
    · exact hs.nodup_split
    · exact hs.bound_split
  · intro x hx
    have : x ≠ a := by
      rintro rfl
      exact hx ((addrs_plug_perm k _).mem_iff.2 (by simp))
    simp [put, this]

end Holds

namespace RedBlackTree
theorem put_apply (h : Heap) (a b : Nat) (c : Option NodeT) :
    put h a c b = if b = a then c else h b := rfl
end RedBlackTree

namespace Holds
open RedBlackTree Shape Spine

variable {s : RedBlackTree} {k : Spine}

/-- Building `Holds` for a rearrangement of the cells of a tree that is held. -/
theorem of_split_perm {s2 : RedBlackTree} {k k2 : Spine} {t t2 : Shape}
    (hs : Holds s (plug k2 t2)) (hnext : s2.next = s.next)
    (hperm : (t.addrs ++ Spine.addrs k).Perm (t2.addrs ++ Spine.addrs k2))
    (hroot : s2.root = (plug k t).ptr) (hsub : Shape.Rep s2.heap t (par k))
    (hsp : Spine.Rep s2.heap k t.ptr) : Holds s2 (plug k t) :=
  of_split hroot hsub hsp (hperm.nodup_iff.2 hs.nodup_split)
    (fun a ha => hnext ▸ hs.bound_split a (hperm.mem_iff.1 ha))

set_option maxHeartbeats 1000000 in
/-- The helper `leftRotate` at a position whose node has a right child. -/
theorem leftRotate_focus {x y : Nat} {cx cy : Bool} {α β γ : Shape} {vx vy : Int}
    (hs : Holds s (plug k (node x cx α vx (node y cy β vy γ)))) :
    ∃ s2, leftRotate s (some x) = .ok s2 ∧
      Holds s2 (plug k (node y cy (node x cx α vx β) vy γ)) ∧
      s2.next = s.next ∧ s2.currentSize = s.currentSize ∧
      SameOutside (plug k (node x cx α vx (node y cy β vy γ))).addrs s2.heap s.heap := by
  have hsub := hs.rep_sub
  have hsp := hs.rep_spine
  have hn := hs.nodup_split
  have hroot := hs.root
  have hout : ∀ z, z ∉ (plug k (node x cx α vx (node y cy β vy γ))).addrs →
      z ∉ (node x cx α vx (node y cy β vy γ)).addrs ++ Spine.addrs k :=
    fun z hz hz2 => hz ((addrs_plug_perm k _).mem_iff.2 hz2)
  generalize (plug k (node x cx α vx (node y cy β vy γ))).addrs = S at hout ⊢
  obtain ⟨ex, hα, ey, hβ, hγ⟩ := hsub
  cases β with
  | nil =>
    cases k with
    | nil =>
      simp only [addrs_node, List.cons_append, List.nodup_cons, List.mem_append, not_or,
        List.nodup_append, List.mem_cons, List.append_assoc, List.disjoint_cons_right,
        List.disjoint_cons_left, List.disjoint_append_right, List.disjoint_append_left,
        Shape.addrs_nil, Spine.spine_addrs_nil, Spine.addrs_cons, Frame.addrs, List.nil_append,
        List.append_nil, List.not_mem_nil, not_false_eq_true, List.nodup_nil,
        List.disjoint_nil_left, List.disjoint_nil_right, true_and, and_true] at hn hout
      have hxy : x ≠ y := by
        simp only [ne_eq, hn, not_false_eq_true]
      have hyx : y ≠ x := fun e => hxy e.symm
      simp [leftRotate, getLeft, getRight, getParent, setLeft, setRight, setParent, rd, wr,
        put_apply, ex, ey, Frame.fill, Frame.addr, hxy, hyx]
      refine ⟨?_, ?_⟩
      · refine of_split_perm (k := []) (t := node y cy (node x cx α vx (nil)) vy γ) hs rfl ?_ (rfl) ?_ ?_
        · rw [List.perm_iff_count]; intro z
          simp only [addrs_node, List.count_append, List.count_cons, Shape.addrs_nil,
            Spine.spine_addrs_nil, Spine.addrs_cons, Frame.addrs, List.count_nil, List.cons_append]
          omega
        · exact ⟨by simp [put_apply, Frame.addr, hxy, hyx], ⟨by simp [put_apply, Frame.addr, hxy, hyx], hα.frame (by repeat (first | exact fun _ _ => rfl | refine agree_put _ ?_ (by simp only [hn, not_false_eq_true]))), trivial⟩, hγ.frame (by repeat (first | exact fun _ _ => rfl | refine agree_put _ ?_ (by simp only [hn, not_false_eq_true])))⟩
        · exact trivial
      · intro z hz
        have hz2 := hout z hz
        simp only [put_apply, hz2, if_false]

    | cons f k =>
      cases f with
      | L p cp vp r =>
      obtain ⟨ep, hsib, hk⟩ := hsp
      simp only [addrs_node, List.cons_append, List.nodup_cons, List.mem_append, not_or,
        List.nodup_append, List.mem_cons, List.append_assoc, List.disjoint_cons_right,
        List.disjoint_cons_left, List.disjoint_append_right, List.disjoint_append_left,
        Shape.addrs_nil, Spine.spine_addrs_nil, Spine.addrs_cons, Frame.addrs, List.nil_append,
        List.append_nil, List.not_mem_nil, not_false_eq_true, List.nodup_nil,
        List.disjoint_nil_left, List.disjoint_nil_right, true_and, and_true] at hn hout
      have hxy : x ≠ y := by
        simp only [ne_eq, hn, not_false_eq_true]
      have hyx : y ≠ x := fun e => hxy e.symm
      have hxp : x ≠ p := by
        simp only [ne_eq, hn, not_false_eq_true]
      have hpx : p ≠ x := fun e => hxp e.symm
      have hyp : y ≠ p := by
        simp only [ne_eq, hn, not_false_eq_true]
      have hpy : p ≠ y := fun e => hyp e.symm
      simp [leftRotate, getLeft, getRight, getParent, setLeft, setRight, setParent, rd, wr,
        put_apply, ex, ey, ep, Frame.fill, Frame.addr, hxy, hyx, hxp, hpx, hyp, hpy]
      refine ⟨?_, ?_⟩
      · refine of_split_perm (k := Frame.L p cp vp r :: k) (t := node y cy (node x cx α vx (nil)) vy γ) hs rfl ?_ (hroot.trans (ptr_plug_cons _ _ _ _)) ?_ ?_
        · rw [List.perm_iff_count]; intro z
          simp only [addrs_node, List.count_append, List.count_cons, Shape.addrs_nil,
            Spine.spine_addrs_nil, Spine.addrs_cons, Frame.addrs, List.count_nil, List.cons_append]
          omega
        · exact ⟨by simp [put_apply, Frame.addr, hxy, hyx, hxp, hpx, hyp, hpy], ⟨by simp [put_apply, Frame.addr, hxy, hyx, hxp, hpx, hyp, hpy], hα.frame (by repeat (first | exact fun _ _ => rfl | refine agree_put _ ?_ (by simp only [hn, not_false_eq_true]))), trivial⟩, hγ.frame (by repeat (first | exact fun _ _ => rfl | refine agree_put _ ?_ (by simp only [hn, not_false_eq_true])))⟩
        · exact ⟨by simp [put_apply, Frame.addr, hxy, hyx, hxp, hpx, hyp, hpy], hsib.frame (by repeat (first | exact fun _ _ => rfl | refine agree_put _ ?_ (by simp only [hn, not_false_eq_true]))), Spine.Rep.frame_spine hk (by repeat (first | exact fun _ _ => rfl | refine agree_put _ ?_ (by simp only [hn, not_false_eq_true])))⟩
      · intro z hz
        have hz2 := hout z hz
        simp only [put_apply, hz2, if_false]

      | R p cp l vp =>
      obtain ⟨ep, hsib, hk⟩ := hsp
      simp only [addrs_node, List.cons_append, List.nodup_cons, List.mem_append, not_or,
        List.nodup_append, List.mem_cons, List.append_assoc, List.disjoint_cons_right,
        List.disjoint_cons_left, List.disjoint_append_right, List.disjoint_append_left,
        Shape.addrs_nil, Spine.spine_addrs_nil, Spine.addrs_cons, Frame.addrs, List.nil_append,
        List.append_nil, List.not_mem_nil, not_false_eq_true, List.nodup_nil,
        List.disjoint_nil_left, List.disjoint_nil_right, true_and, and_true] at hn hout
      have hxy : x ≠ y := by
        simp only [ne_eq, hn, not_false_eq_true]
      have hyx : y ≠ x := fun e => hxy e.symm
      have hxp : x ≠ p := by
        simp only [ne_eq, hn, not_false_eq_true]
      have hpx : p ≠ x := fun e => hxp e.symm
      have hyp : y ≠ p := by
        simp only [ne_eq, hn, not_false_eq_true]
      have hpy : p ≠ y := fun e => hyp e.symm
      have hsx : ¬ some x = l.ptr := fun e =>
        ptr_ne_of_not_mem (t := l) (a := x) (by simp only [hn, not_false_eq_true]) e.symm
      simp [leftRotate, getLeft, getRight, getParent, setLeft, setRight, setParent, rd, wr,
        put_apply, ex, ey, ep, Frame.fill, Frame.addr, hsx, hxy, hyx, hxp, hpx, hyp, hpy]
      refine ⟨?_, ?_⟩
      · refine of_split_perm (k := Frame.R p cp l vp :: k) (t := node y cy (node x cx α vx (nil)) vy γ) hs rfl ?_ (hroot.trans (ptr_plug_cons _ _ _ _)) ?_ ?_
        · rw [List.perm_iff_count]; intro z
          simp only [addrs_node, List.count_append, List.count_cons, Shape.addrs_nil,
            Spine.spine_addrs_nil, Spine.addrs_cons, Frame.addrs, List.count_nil, List.cons_append]
          omega
        · exact ⟨by simp [put_apply, Frame.addr, hxy, hyx, hxp, hpx, hyp, hpy], ⟨by simp [put_apply, Frame.addr, hxy, hyx, hxp, hpx, hyp, hpy], hα.frame (by repeat (first | exact fun _ _ => rfl | refine agree_put _ ?_ (by simp only [hn, not_false_eq_true]))), trivial⟩, hγ.frame (by repeat (first | exact fun _ _ => rfl | refine agree_put _ ?_ (by simp only [hn, not_false_eq_true])))⟩
        · exact ⟨by simp [put_apply, Frame.addr, hxy, hyx, hxp, hpx, hyp, hpy], hsib.frame (by repeat (first | exact fun _ _ => rfl | refine agree_put _ ?_ (by simp only [hn, not_false_eq_true]))), Spine.Rep.frame_spine hk (by repeat (first | exact fun _ _ => rfl | refine agree_put _ ?_ (by simp only [hn, not_false_eq_true])))⟩
      · intro z hz
        have hz2 := hout z hz
        simp only [put_apply, hz2, if_false]

  | node b cb βl vb βr =>
    cases k with
    | nil =>
      obtain ⟨eb, hβl, hβr⟩ := hβ
      simp only [addrs_node, List.cons_append, List.nodup_cons, List.mem_append, not_or,
        List.nodup_append, List.mem_cons, List.append_assoc, List.disjoint_cons_right,
        List.disjoint_cons_left, List.disjoint_append_right, List.disjoint_append_left,
        Shape.addrs_nil, Spine.spine_addrs_nil, Spine.addrs_cons, Frame.addrs, List.nil_append,
        List.append_nil, List.not_mem_nil, not_false_eq_true, List.nodup_nil,
        List.disjoint_nil_left, List.disjoint_nil_right, true_and, and_true] at hn hout
      have hxy : x ≠ y := by
        simp only [ne_eq, hn, not_false_eq_true]
      have hyx : y ≠ x := fun e => hxy e.symm
      have hxb : x ≠ b := by
        simp only [ne_eq, hn, not_false_eq_true]
      have hbx : b ≠ x := fun e => hxb e.symm
      have hyb : y ≠ b := by
        simp only [ne_eq, hn, not_false_eq_true]
      have hby : b ≠ y := fun e => hyb e.symm
      simp [leftRotate, getLeft, getRight, getParent, setLeft, setRight, setParent, rd, wr,
        put_apply, ex, ey, eb, Frame.fill, Frame.addr, hxy, hyx, hxb, hbx, hyb, hby]
      refine ⟨?_, ?_⟩
      · refine of_split_perm (k := []) (t := node y cy (node x cx α vx (node b cb βl vb βr)) vy γ) hs rfl ?_ (rfl) ?_ ?_
        · rw [List.perm_iff_count]; intro z
          simp only [addrs_node, List.count_append, List.count_cons, Shape.addrs_nil,
            Spine.spine_addrs_nil, Spine.addrs_cons, Frame.addrs, List.count_nil, List.cons_append]
          omega
        · exact ⟨by simp [put_apply, Frame.addr, hxy, hyx, hxb, hbx, hyb, hby], ⟨by simp [put_apply, Frame.addr, hxy, hyx, hxb, hbx, hyb, hby], hα.frame (by repeat (first | exact fun _ _ => rfl | refine agree_put _ ?_ (by simp only [hn, not_false_eq_true]))), ⟨by simp [put_apply, Frame.addr, hxy, hyx, hxb, hbx, hyb, hby], hβl.frame (by repeat (first | exact fun _ _ => rfl | refine agree_put _ ?_ (by simp only [hn, not_false_eq_true]))), hβr.frame (by repeat (first | exact fun _ _ => rfl | refine agree_put _ ?_ (by simp only [hn, not_false_eq_true])))⟩⟩, hγ.frame (by repeat (first | exact fun _ _ => rfl | refine agree_put _ ?_ (by simp only [hn, not_false_eq_true])))⟩
        · exact trivial
      · intro z hz
        have hz2 := hout z hz
        simp only [put_apply, hz2, if_false]

    | cons f k =>
      cases f with
      | L p cp vp r =>
      obtain ⟨ep, hsib, hk⟩ := hsp
      obtain ⟨eb, hβl, hβr⟩ := hβ
      simp only [addrs_node, List.cons_append, List.nodup_cons, List.mem_append, not_or,
        List.nodup_append, List.mem_cons, List.append_assoc, List.disjoint_cons_right,
        List.disjoint_cons_left, List.disjoint_append_right, List.disjoint_append_left,
        Shape.addrs_nil, Spine.spine_addrs_nil, Spine.addrs_cons, Frame.addrs, List.nil_append,
        List.append_nil, List.not_mem_nil, not_false_eq_true, List.nodup_nil,
        List.disjoint_nil_left, List.disjoint_nil_right, true_and, and_true] at hn hout
      have hxy : x ≠ y := by
        simp only [ne_eq, hn, not_false_eq_true]
      have hyx : y ≠ x := fun e => hxy e.symm
      have hxb : x ≠ b := by
        simp only [ne_eq, hn, not_false_eq_true]
      have hbx : b ≠ x := fun e => hxb e.symm
      have hxp : x ≠ p := by
        simp only [ne_eq, hn, not_false_eq_true]
      have hpx : p ≠ x := fun e => hxp e.symm
      have hyb : y ≠ b := by
        simp only [ne_eq, hn, not_false_eq_true]
      have hby : b ≠ y := fun e => hyb e.symm
      have hyp : y ≠ p := by
        simp only [ne_eq, hn, not_false_eq_true]
      have hpy : p ≠ y := fun e => hyp e.symm
      have hbp : b ≠ p := by
        simp only [ne_eq, hn, not_false_eq_true]
      have hpb : p ≠ b := fun e => hbp e.symm
      simp [leftRotate, getLeft, getRight, getParent, setLeft, setRight, setParent, rd, wr,
        put_apply, ex, ey, eb, ep, Frame.fill, Frame.addr, hxy, hyx, hxb, hbx, hxp, hpx, hyb, hby, hyp, hpy, hbp, hpb]
      refine ⟨?_, ?_⟩
      · refine of_split_perm (k := Frame.L p cp vp r :: k) (t := node y cy (node x cx α vx (node b cb βl vb βr)) vy γ) hs rfl ?_ (hroot.trans (ptr_plug_cons _ _ _ _)) ?_ ?_
        · rw [List.perm_iff_count]; intro z
          simp only [addrs_node, List.count_append, List.count_cons, Shape.addrs_nil,
            Spine.spine_addrs_nil, Spine.addrs_cons, Frame.addrs, List.count_nil, List.cons_append]
          omega
        · exact ⟨by simp [put_apply, Frame.addr, hxy, hyx, hxb, hbx, hxp, hpx, hyb, hby, hyp, hpy, hbp, hpb], ⟨by simp [put_apply, Frame.addr, hxy, hyx, hxb, hbx, hxp, hpx, hyb, hby, hyp, hpy, hbp, hpb], hα.frame (by repeat (first | exact fun _ _ => rfl | refine agree_put _ ?_ (by simp only [hn, not_false_eq_true]))), ⟨by simp [put_apply, Frame.addr, hxy, hyx, hxb, hbx, hxp, hpx, hyb, hby, hyp, hpy, hbp, hpb], hβl.frame (by repeat (first | exact fun _ _ => rfl | refine agree_put _ ?_ (by simp only [hn, not_false_eq_true]))), hβr.frame (by repeat (first | exact fun _ _ => rfl | refine agree_put _ ?_ (by simp only [hn, not_false_eq_true])))⟩⟩, hγ.frame (by repeat (first | exact fun _ _ => rfl | refine agree_put _ ?_ (by simp only [hn, not_false_eq_true])))⟩
        · exact ⟨by simp [put_apply, Frame.addr, hxy, hyx, hxb, hbx, hxp, hpx, hyb, hby, hyp, hpy, hbp, hpb], hsib.frame (by repeat (first | exact fun _ _ => rfl | refine agree_put _ ?_ (by simp only [hn, not_false_eq_true]))), Spine.Rep.frame_spine hk (by repeat (first | exact fun _ _ => rfl | refine agree_put _ ?_ (by simp only [hn, not_false_eq_true])))⟩
      · intro z hz
        have hz2 := hout z hz
        simp only [put_apply, hz2, if_false]

      | R p cp l vp =>
      obtain ⟨ep, hsib, hk⟩ := hsp
      obtain ⟨eb, hβl, hβr⟩ := hβ
      simp only [addrs_node, List.cons_append, List.nodup_cons, List.mem_append, not_or,
        List.nodup_append, List.mem_cons, List.append_assoc, List.disjoint_cons_right,
        List.disjoint_cons_left, List.disjoint_append_right, List.disjoint_append_left,
        Shape.addrs_nil, Spine.spine_addrs_nil, Spine.addrs_cons, Frame.addrs, List.nil_append,
        List.append_nil, List.not_mem_nil, not_false_eq_true, List.nodup_nil,
        List.disjoint_nil_left, List.disjoint_nil_right, true_and, and_true] at hn hout
      have hxy : x ≠ y := by
        simp only [ne_eq, hn, not_false_eq_true]
      have hyx : y ≠ x := fun e => hxy e.symm
      have hxb : x ≠ b := by
        simp only [ne_eq, hn, not_false_eq_true]
      have hbx : b ≠ x := fun e => hxb e.symm
      have hxp : x ≠ p := by
        simp only [ne_eq, hn, not_false_eq_true]
      have hpx : p ≠ x := fun e => hxp e.symm
      have hyb : y ≠ b := by
        simp only [ne_eq, hn, not_false_eq_true]
      have hby : b ≠ y := fun e => hyb e.symm
      have hyp : y ≠ p := by
        simp only [ne_eq, hn, not_false_eq_true]
      have hpy : p ≠ y := fun e => hyp e.symm
      have hbp : b ≠ p := by
        simp only [ne_eq, hn, not_false_eq_true]
      have hpb : p ≠ b := fun e => hbp e.symm
      have hsx : ¬ some x = l.ptr := fun e =>
        ptr_ne_of_not_mem (t := l) (a := x) (by simp only [hn, not_false_eq_true]) e.symm
      simp [leftRotate, getLeft, getRight, getParent, setLeft, setRight, setParent, rd, wr,
        put_apply, ex, ey, eb, ep, Frame.fill, Frame.addr, hsx, hxy, hyx, hxb, hbx, hxp, hpx, hyb, hby, hyp, hpy, hbp, hpb]
      refine ⟨?_, ?_⟩
      · refine of_split_perm (k := Frame.R p cp l vp :: k) (t := node y cy (node x cx α vx (node b cb βl vb βr)) vy γ) hs rfl ?_ (hroot.trans (ptr_plug_cons _ _ _ _)) ?_ ?_
        · rw [List.perm_iff_count]; intro z
          simp only [addrs_node, List.count_append, List.count_cons, Shape.addrs_nil,
            Spine.spine_addrs_nil, Spine.addrs_cons, Frame.addrs, List.count_nil, List.cons_append]
          omega
        · exact ⟨by simp [put_apply, Frame.addr, hxy, hyx, hxb, hbx, hxp, hpx, hyb, hby, hyp, hpy, hbp, hpb], ⟨by simp [put_apply, Frame.addr, hxy, hyx, hxb, hbx, hxp, hpx, hyb, hby, hyp, hpy, hbp, hpb], hα.frame (by repeat (first | exact fun _ _ => rfl | refine agree_put _ ?_ (by simp only [hn, not_false_eq_true]))), ⟨by simp [put_apply, Frame.addr, hxy, hyx, hxb, hbx, hxp, hpx, hyb, hby, hyp, hpy, hbp, hpb], hβl.frame (by repeat (first | exact fun _ _ => rfl | refine agree_put _ ?_ (by simp only [hn, not_false_eq_true]))), hβr.frame (by repeat (first | exact fun _ _ => rfl | refine agree_put _ ?_ (by simp only [hn, not_false_eq_true])))⟩⟩, hγ.frame (by repeat (first | exact fun _ _ => rfl | refine agree_put _ ?_ (by simp only [hn, not_false_eq_true])))⟩
        · exact ⟨by simp [put_apply, Frame.addr, hxy, hyx, hxb, hbx, hxp, hpx, hyb, hby, hyp, hpy, hbp, hpb], hsib.frame (by repeat (first | exact fun _ _ => rfl | refine agree_put _ ?_ (by simp only [hn, not_false_eq_true]))), Spine.Rep.frame_spine hk (by repeat (first | exact fun _ _ => rfl | refine agree_put _ ?_ (by simp only [hn, not_false_eq_true])))⟩
      · intro z hz
        have hz2 := hout z hz
        simp only [put_apply, hz2, if_false]

set_option maxHeartbeats 1000000 in
/-- The helper `rightRotate` at a position whose node has a left child. -/
theorem rightRotate_focus {x y : Nat} {cx cy : Bool} {α β γ : Shape} {vx vy : Int}
    (hs : Holds s (plug k (node x cx (node y cy α vy β) vx γ))) :
    ∃ s2, rightRotate s (some x) = .ok s2 ∧
      Holds s2 (plug k (node y cy α vy (node x cx β vx γ))) ∧
      s2.next = s.next ∧ s2.currentSize = s.currentSize ∧
      SameOutside (plug k (node x cx (node y cy α vy β) vx γ)).addrs s2.heap s.heap := by
  have hsub := hs.rep_sub
  have hsp := hs.rep_spine
  have hn := hs.nodup_split
  have hroot := hs.root
  have hout : ∀ z, z ∉ (plug k (node x cx (node y cy α vy β) vx γ)).addrs →
      z ∉ (node x cx (node y cy α vy β) vx γ).addrs ++ Spine.addrs k :=
    fun z hz hz2 => hz ((addrs_plug_perm k _).mem_iff.2 hz2)
  generalize (plug k (node x cx (node y cy α vy β) vx γ)).addrs = S at hout ⊢
  obtain ⟨ex, ⟨ey, hα, hβ⟩, hγ⟩ := hsub
  cases β with
  | nil =>
    cases k with
    | nil =>
      simp only [addrs_node, List.cons_append, List.nodup_cons, List.mem_append, not_or,
        List.nodup_append, List.mem_cons, List.append_assoc, List.disjoint_cons_right,
        List.disjoint_cons_left, List.disjoint_append_right, List.disjoint_append_left,
        Shape.addrs_nil, Spine.spine_addrs_nil, Spine.addrs_cons, Frame.addrs, List.nil_append,
        List.append_nil, List.not_mem_nil, not_false_eq_true, List.nodup_nil,
        List.disjoint_nil_left, List.disjoint_nil_right, true_and, and_true] at hn hout
      have hxy : x ≠ y := by
        simp only [ne_eq, hn, not_false_eq_true]
      have hyx : y ≠ x := fun e => hxy e.symm
      simp [rightRotate, getLeft, getRight, getParent, setLeft, setRight, setParent, rd, wr,
        put_apply, ex, ey, Frame.fill, Frame.addr, hxy, hyx]
      refine ⟨?_, ?_⟩
      · refine of_split_perm (k := []) (t := node y cy α vy (node x cx (nil) vx γ)) hs rfl ?_ (rfl) ?_ ?_
        · rw [List.perm_iff_count]; intro z
          simp only [addrs_node, List.count_append, List.count_cons, Shape.addrs_nil,
            Spine.spine_addrs_nil, Spine.addrs_cons, Frame.addrs, List.count_nil, List.cons_append]
          omega
        · exact ⟨by simp [put_apply, Frame.addr, hxy, hyx], hα.frame (by repeat (first | exact fun _ _ => rfl | refine agree_put _ ?_ (by simp only [hn, not_false_eq_true]))), ⟨by simp [put_apply, Frame.addr, hxy, hyx], trivial, hγ.frame (by repeat (first | exact fun _ _ => rfl | refine agree_put _ ?_ (by simp only [hn, not_false_eq_true])))⟩⟩
        · exact trivial
      · intro z hz
        have hz2 := hout z hz
        simp only [put_apply, hz2, if_false]

    | cons f k =>
      cases f with
      | L p cp vp r =>
      obtain ⟨ep, hsib, hk⟩ := hsp
      simp only [addrs_node, List.cons_append, List.nodup_cons, List.mem_append, not_or,
        List.nodup_append, List.mem_cons, List.append_assoc, List.disjoint_cons_right,
        List.disjoint_cons_left, List.disjoint_append_right, List.disjoint_append_left,
        Shape.addrs_nil, Spine.spine_addrs_nil, Spine.addrs_cons, Frame.addrs, List.nil_append,
        List.append_nil, List.not_mem_nil, not_false_eq_true, List.nodup_nil,
        List.disjoint_nil_left, List.disjoint_nil_right, true_and, and_true] at hn hout
      have hxy : x ≠ y := by
        simp only [ne_eq, hn, not_false_eq_true]
      have hyx : y ≠ x := fun e => hxy e.symm
      have hxp : x ≠ p := by
        simp only [ne_eq, hn, not_false_eq_true]
      have hpx : p ≠ x := fun e => hxp e.symm
      have hyp : y ≠ p := by
        simp only [ne_eq, hn, not_false_eq_true]
      have hpy : p ≠ y := fun e => hyp e.symm
      have hsx : ¬ some x = r.ptr := fun e =>
        ptr_ne_of_not_mem (t := r) (a := x) (by simp only [hn, not_false_eq_true]) e.symm
      simp [rightRotate, getLeft, getRight, getParent, setLeft, setRight, setParent, rd, wr,
        put_apply, ex, ey, ep, Frame.fill, Frame.addr, hsx, hxy, hyx, hxp, hpx, hyp, hpy]
      refine ⟨?_, ?_⟩
      · refine of_split_perm (k := Frame.L p cp vp r :: k) (t := node y cy α vy (node x cx (nil) vx γ)) hs rfl ?_ (hroot.trans (ptr_plug_cons _ _ _ _)) ?_ ?_
        · rw [List.perm_iff_count]; intro z
          simp only [addrs_node, List.count_append, List.count_cons, Shape.addrs_nil,
            Spine.spine_addrs_nil, Spine.addrs_cons, Frame.addrs, List.count_nil, List.cons_append]
          omega
        · exact ⟨by simp [put_apply, Frame.addr, hxy, hyx, hxp, hpx, hyp, hpy], hα.frame (by repeat (first | exact fun _ _ => rfl | refine agree_put _ ?_ (by simp only [hn, not_false_eq_true]))), ⟨by simp [put_apply, Frame.addr, hxy, hyx, hxp, hpx, hyp, hpy], trivial, hγ.frame (by repeat (first | exact fun _ _ => rfl | refine agree_put _ ?_ (by simp only [hn, not_false_eq_true])))⟩⟩
        · exact ⟨by simp [put_apply, Frame.addr, hxy, hyx, hxp, hpx, hyp, hpy], hsib.frame (by repeat (first | exact fun _ _ => rfl | refine agree_put _ ?_ (by simp only [hn, not_false_eq_true]))), Spine.Rep.frame_spine hk (by repeat (first | exact fun _ _ => rfl | refine agree_put _ ?_ (by simp only [hn, not_false_eq_true])))⟩
      · intro z hz
        have hz2 := hout z hz
        simp only [put_apply, hz2, if_false]

      | R p cp l vp =>
      obtain ⟨ep, hsib, hk⟩ := hsp
      simp only [addrs_node, List.cons_append, List.nodup_cons, List.mem_append, not_or,
        List.nodup_append, List.mem_cons, List.append_assoc, List.disjoint_cons_right,
        List.disjoint_cons_left, List.disjoint_append_right, List.disjoint_append_left,
        Shape.addrs_nil, Spine.spine_addrs_nil, Spine.addrs_cons, Frame.addrs, List.nil_append,
        List.append_nil, List.not_mem_nil, not_false_eq_true, List.nodup_nil,
        List.disjoint_nil_left, List.disjoint_nil_right, true_and, and_true] at hn hout
      have hxy : x ≠ y := by
        simp only [ne_eq, hn, not_false_eq_true]
      have hyx : y ≠ x := fun e => hxy e.symm
      have hxp : x ≠ p := by
        simp only [ne_eq, hn, not_false_eq_true]
      have hpx : p ≠ x := fun e => hxp e.symm
      have hyp : y ≠ p := by
        simp only [ne_eq, hn, not_false_eq_true]
      have hpy : p ≠ y := fun e => hyp e.symm
      simp [rightRotate, getLeft, getRight, getParent, setLeft, setRight, setParent, rd, wr,
        put_apply, ex, ey, ep, Frame.fill, Frame.addr, hxy, hyx, hxp, hpx, hyp, hpy]
      refine ⟨?_, ?_⟩
      · refine of_split_perm (k := Frame.R p cp l vp :: k) (t := node y cy α vy (node x cx (nil) vx γ)) hs rfl ?_ (hroot.trans (ptr_plug_cons _ _ _ _)) ?_ ?_
        · rw [List.perm_iff_count]; intro z
          simp only [addrs_node, List.count_append, List.count_cons, Shape.addrs_nil,
            Spine.spine_addrs_nil, Spine.addrs_cons, Frame.addrs, List.count_nil, List.cons_append]
          omega
        · exact ⟨by simp [put_apply, Frame.addr, hxy, hyx, hxp, hpx, hyp, hpy], hα.frame (by repeat (first | exact fun _ _ => rfl | refine agree_put _ ?_ (by simp only [hn, not_false_eq_true]))), ⟨by simp [put_apply, Frame.addr, hxy, hyx, hxp, hpx, hyp, hpy], trivial, hγ.frame (by repeat (first | exact fun _ _ => rfl | refine agree_put _ ?_ (by simp only [hn, not_false_eq_true])))⟩⟩
        · exact ⟨by simp [put_apply, Frame.addr, hxy, hyx, hxp, hpx, hyp, hpy], hsib.frame (by repeat (first | exact fun _ _ => rfl | refine agree_put _ ?_ (by simp only [hn, not_false_eq_true]))), Spine.Rep.frame_spine hk (by repeat (first | exact fun _ _ => rfl | refine agree_put _ ?_ (by simp only [hn, not_false_eq_true])))⟩
      · intro z hz
        have hz2 := hout z hz
        simp only [put_apply, hz2, if_false]

  | node b cb βl vb βr =>
    cases k with
    | nil =>
      obtain ⟨eb, hβl, hβr⟩ := hβ
      simp only [addrs_node, List.cons_append, List.nodup_cons, List.mem_append, not_or,
        List.nodup_append, List.mem_cons, List.append_assoc, List.disjoint_cons_right,
        List.disjoint_cons_left, List.disjoint_append_right, List.disjoint_append_left,
        Shape.addrs_nil, Spine.spine_addrs_nil, Spine.addrs_cons, Frame.addrs, List.nil_append,
        List.append_nil, List.not_mem_nil, not_false_eq_true, List.nodup_nil,
        List.disjoint_nil_left, List.disjoint_nil_right, true_and, and_true] at hn hout
      have hxy : x ≠ y := by
        simp only [ne_eq, hn, not_false_eq_true]
      have hyx : y ≠ x := fun e => hxy e.symm
      have hxb : x ≠ b := by
        simp only [ne_eq, hn, not_false_eq_true]
      have hbx : b ≠ x := fun e => hxb e.symm
      have hyb : y ≠ b := by
        simp only [ne_eq, hn, not_false_eq_true]
      have hby : b ≠ y := fun e => hyb e.symm
      simp [rightRotate, getLeft, getRight, getParent, setLeft, setRight, setParent, rd, wr,
        put_apply, ex, ey, eb, Frame.fill, Frame.addr, hxy, hyx, hxb, hbx, hyb, hby]
      refine ⟨?_, ?_⟩
      · refine of_split_perm (k := []) (t := node y cy α vy (node x cx (node b cb βl vb βr) vx γ)) hs rfl ?_ (rfl) ?_ ?_
        · rw [List.perm_iff_count]; intro z
          simp only [addrs_node, List.count_append, List.count_cons, Shape.addrs_nil,
            Spine.spine_addrs_nil, Spine.addrs_cons, Frame.addrs, List.count_nil, List.cons_append]
          omega
        · exact ⟨by simp [put_apply, Frame.addr, hxy, hyx, hxb, hbx, hyb, hby], hα.frame (by repeat (first | exact fun _ _ => rfl | refine agree_put _ ?_ (by simp only [hn, not_false_eq_true]))), ⟨by simp [put_apply, Frame.addr, hxy, hyx, hxb, hbx, hyb, hby], ⟨by simp [put_apply, Frame.addr, hxy, hyx, hxb, hbx, hyb, hby], hβl.frame (by repeat (first | exact fun _ _ => rfl | refine agree_put _ ?_ (by simp only [hn, not_false_eq_true]))), hβr.frame (by repeat (first | exact fun _ _ => rfl | refine agree_put _ ?_ (by simp only [hn, not_false_eq_true])))⟩, hγ.frame (by repeat (first | exact fun _ _ => rfl | refine agree_put _ ?_ (by simp only [hn, not_false_eq_true])))⟩⟩
        · exact trivial
      · intro z hz
        have hz2 := hout z hz
        simp only [put_apply, hz2, if_false]

    | cons f k =>
      cases f with
      | L p cp vp r =>
      obtain ⟨ep, hsib, hk⟩ := hsp
      obtain ⟨eb, hβl, hβr⟩ := hβ
      simp only [addrs_node, List.cons_append, List.nodup_cons, List.mem_append, not_or,
        List.nodup_append, List.mem_cons, List.append_assoc, List.disjoint_cons_right,
        List.disjoint_cons_left, List.disjoint_append_right, List.disjoint_append_left,
        Shape.addrs_nil, Spine.spine_addrs_nil, Spine.addrs_cons, Frame.addrs, List.nil_append,
        List.append_nil, List.not_mem_nil, not_false_eq_true, List.nodup_nil,
        List.disjoint_nil_left, List.disjoint_nil_right, true_and, and_true] at hn hout
      have hxy : x ≠ y := by
        simp only [ne_eq, hn, not_false_eq_true]
      have hyx : y ≠ x := fun e => hxy e.symm
      have hxb : x ≠ b := by
        simp only [ne_eq, hn, not_false_eq_true]
      have hbx : b ≠ x := fun e => hxb e.symm
      have hxp : x ≠ p := by
        simp only [ne_eq, hn, not_false_eq_true]
      have hpx : p ≠ x := fun e => hxp e.symm
      have hyb : y ≠ b := by
        simp only [ne_eq, hn, not_false_eq_true]
      have hby : b ≠ y := fun e => hyb e.symm
      have hyp : y ≠ p := by
        simp only [ne_eq, hn, not_false_eq_true]
      have hpy : p ≠ y := fun e => hyp e.symm
      have hbp : b ≠ p := by
        simp only [ne_eq, hn, not_false_eq_true]
      have hpb : p ≠ b := fun e => hbp e.symm
      have hsx : ¬ some x = r.ptr := fun e =>
        ptr_ne_of_not_mem (t := r) (a := x) (by simp only [hn, not_false_eq_true]) e.symm
      simp [rightRotate, getLeft, getRight, getParent, setLeft, setRight, setParent, rd, wr,
        put_apply, ex, ey, eb, ep, Frame.fill, Frame.addr, hsx, hxy, hyx, hxb, hbx, hxp, hpx, hyb, hby, hyp, hpy, hbp, hpb]
      refine ⟨?_, ?_⟩
      · refine of_split_perm (k := Frame.L p cp vp r :: k) (t := node y cy α vy (node x cx (node b cb βl vb βr) vx γ)) hs rfl ?_ (hroot.trans (ptr_plug_cons _ _ _ _)) ?_ ?_
        · rw [List.perm_iff_count]; intro z
          simp only [addrs_node, List.count_append, List.count_cons, Shape.addrs_nil,
            Spine.spine_addrs_nil, Spine.addrs_cons, Frame.addrs, List.count_nil, List.cons_append]
          omega
        · exact ⟨by simp [put_apply, Frame.addr, hxy, hyx, hxb, hbx, hxp, hpx, hyb, hby, hyp, hpy, hbp, hpb], hα.frame (by repeat (first | exact fun _ _ => rfl | refine agree_put _ ?_ (by simp only [hn, not_false_eq_true]))), ⟨by simp [put_apply, Frame.addr, hxy, hyx, hxb, hbx, hxp, hpx, hyb, hby, hyp, hpy, hbp, hpb], ⟨by simp [put_apply, Frame.addr, hxy, hyx, hxb, hbx, hxp, hpx, hyb, hby, hyp, hpy, hbp, hpb], hβl.frame (by repeat (first | exact fun _ _ => rfl | refine agree_put _ ?_ (by simp only [hn, not_false_eq_true]))), hβr.frame (by repeat (first | exact fun _ _ => rfl | refine agree_put _ ?_ (by simp only [hn, not_false_eq_true])))⟩, hγ.frame (by repeat (first | exact fun _ _ => rfl | refine agree_put _ ?_ (by simp only [hn, not_false_eq_true])))⟩⟩
        · exact ⟨by simp [put_apply, Frame.addr, hxy, hyx, hxb, hbx, hxp, hpx, hyb, hby, hyp, hpy, hbp, hpb], hsib.frame (by repeat (first | exact fun _ _ => rfl | refine agree_put _ ?_ (by simp only [hn, not_false_eq_true]))), Spine.Rep.frame_spine hk (by repeat (first | exact fun _ _ => rfl | refine agree_put _ ?_ (by simp only [hn, not_false_eq_true])))⟩
      · intro z hz
        have hz2 := hout z hz
        simp only [put_apply, hz2, if_false]

      | R p cp l vp =>
      obtain ⟨ep, hsib, hk⟩ := hsp
      obtain ⟨eb, hβl, hβr⟩ := hβ
      simp only [addrs_node, List.cons_append, List.nodup_cons, List.mem_append, not_or,
        List.nodup_append, List.mem_cons, List.append_assoc, List.disjoint_cons_right,
        List.disjoint_cons_left, List.disjoint_append_right, List.disjoint_append_left,
        Shape.addrs_nil, Spine.spine_addrs_nil, Spine.addrs_cons, Frame.addrs, List.nil_append,
        List.append_nil, List.not_mem_nil, not_false_eq_true, List.nodup_nil,
        List.disjoint_nil_left, List.disjoint_nil_right, true_and, and_true] at hn hout
      have hxy : x ≠ y := by
        simp only [ne_eq, hn, not_false_eq_true]
      have hyx : y ≠ x := fun e => hxy e.symm
      have hxb : x ≠ b := by
        simp only [ne_eq, hn, not_false_eq_true]
      have hbx : b ≠ x := fun e => hxb e.symm
      have hxp : x ≠ p := by
        simp only [ne_eq, hn, not_false_eq_true]
      have hpx : p ≠ x := fun e => hxp e.symm
      have hyb : y ≠ b := by
        simp only [ne_eq, hn, not_false_eq_true]
      have hby : b ≠ y := fun e => hyb e.symm
      have hyp : y ≠ p := by
        simp only [ne_eq, hn, not_false_eq_true]
      have hpy : p ≠ y := fun e => hyp e.symm
      have hbp : b ≠ p := by
        simp only [ne_eq, hn, not_false_eq_true]
      have hpb : p ≠ b := fun e => hbp e.symm
      simp [rightRotate, getLeft, getRight, getParent, setLeft, setRight, setParent, rd, wr,
        put_apply, ex, ey, eb, ep, Frame.fill, Frame.addr, hxy, hyx, hxb, hbx, hxp, hpx, hyb, hby, hyp, hpy, hbp, hpb]
      refine ⟨?_, ?_⟩
      · refine of_split_perm (k := Frame.R p cp l vp :: k) (t := node y cy α vy (node x cx (node b cb βl vb βr) vx γ)) hs rfl ?_ (hroot.trans (ptr_plug_cons _ _ _ _)) ?_ ?_
        · rw [List.perm_iff_count]; intro z
          simp only [addrs_node, List.count_append, List.count_cons, Shape.addrs_nil,
            Spine.spine_addrs_nil, Spine.addrs_cons, Frame.addrs, List.count_nil, List.cons_append]
          omega
        · exact ⟨by simp [put_apply, Frame.addr, hxy, hyx, hxb, hbx, hxp, hpx, hyb, hby, hyp, hpy, hbp, hpb], hα.frame (by repeat (first | exact fun _ _ => rfl | refine agree_put _ ?_ (by simp only [hn, not_false_eq_true]))), ⟨by simp [put_apply, Frame.addr, hxy, hyx, hxb, hbx, hxp, hpx, hyb, hby, hyp, hpy, hbp, hpb], ⟨by simp [put_apply, Frame.addr, hxy, hyx, hxb, hbx, hxp, hpx, hyb, hby, hyp, hpy, hbp, hpb], hβl.frame (by repeat (first | exact fun _ _ => rfl | refine agree_put _ ?_ (by simp only [hn, not_false_eq_true]))), hβr.frame (by repeat (first | exact fun _ _ => rfl | refine agree_put _ ?_ (by simp only [hn, not_false_eq_true])))⟩, hγ.frame (by repeat (first | exact fun _ _ => rfl | refine agree_put _ ?_ (by simp only [hn, not_false_eq_true])))⟩⟩
        · exact ⟨by simp [put_apply, Frame.addr, hxy, hyx, hxb, hbx, hxp, hpx, hyb, hby, hyp, hpy, hbp, hpb], hsib.frame (by repeat (first | exact fun _ _ => rfl | refine agree_put _ ?_ (by simp only [hn, not_false_eq_true]))), Spine.Rep.frame_spine hk (by repeat (first | exact fun _ _ => rfl | refine agree_put _ ?_ (by simp only [hn, not_false_eq_true])))⟩
      · intro z hz
        have hz2 := hout z hz
        simp only [put_apply, hz2, if_false]

end Holds

namespace Holds
open RedBlackTree Shape Spine

variable {s : RedBlackTree} {k : Spine}

theorem getParent {a : Nat} {c : Bool} {l r : Shape} {v : Int}
    (hs : Holds s (plug k (node a c l v r))) : getParent s.heap (some a) = .ok (par k) :=
  hs.rep_sub.cellParent

theorem getLeft {a : Nat} {c : Bool} {l r : Shape} {v : Int}
    (hs : Holds s (plug k (node a c l v r))) : getLeft s.heap (some a) = .ok l.ptr :=
  hs.rep_sub.cellLeft

theorem getRight {a : Nat} {c : Bool} {l r : Shape} {v : Int}
    (hs : Holds s (plug k (node a c l v r))) : getRight s.heap (some a) = .ok r.ptr :=
  hs.rep_sub.cellRight

theorem getIsBlack {a : Nat} {c : Bool} {l r : Shape} {v : Int}
    (hs : Holds s (plug k (node a c l v r))) : getIsBlack s.heap (some a) = .ok c :=
  hs.rep_sub.cellIsBlack

theorem getData {a : Nat} {c : Bool} {l r : Shape} {v : Int}
    (hs : Holds s (plug k (node a c l v r))) : getData s.heap (some a) = .ok v :=
  hs.rep_sub.cellData

theorem root_ne {a : Nat} {c : Bool} {l r : Shape} {v : Int} {f : Frame}
    (hs : Holds s (plug (f :: k) (node a c l v r))) : ¬ some a = s.root := by
  intro e
  have := hs.root_eq_iff.1 e.symm
  simp at this

/-- The pointer of a subtree off the spine is not the address of the node at the position. -/
theorem ptr_ne_left {a p : Nat} {c cp : Bool} {l r sib : Shape} {v vp : Int}
    (hs : Holds s (plug (Frame.L p cp vp sib :: k) (node a c l v r))) : ¬ some a = sib.ptr := by
  intro e
  have hn := hs.nodup_split
  simp only [addrs_node, Spine.addrs_cons, Frame.addrs, List.cons_append, List.nodup_cons,
    List.mem_append, List.mem_cons, not_or] at hn
  exact ptr_ne_of_not_mem (t := sib) (a := a) (by simp only [hn, not_false_eq_true]) e.symm

theorem ptr_ne_right {a p : Nat} {c cp : Bool} {l r sib : Shape} {v vp : Int}
    (hs : Holds s (plug (Frame.R p cp sib vp :: k) (node a c l v r))) : ¬ some a = sib.ptr := by
  intro e
  have hn := hs.nodup_split
  simp only [addrs_node, Spine.addrs_cons, Frame.addrs, List.cons_append, List.nodup_cons,
    List.mem_append, List.mem_cons, not_or] at hn
  exact ptr_ne_of_not_mem (t := sib) (a := a) (by simp only [hn, not_false_eq_true]) e.symm

/-- When the loop condition of the rebalancing loop fails, the loop returns. -/
theorem insertLoop_exit {n : Nat} {c : Bool} {l r : Shape} {v : Int}
    (hs : Holds s (plug k (node n c l v r)))
    (hstop : insStep k (node n c l v r) = none) (fuel : Nat) :
    insertLoop (fuel + 1) s (some n) = .ok s := by
  cases k with
  | nil =>
    have e1 := hs.getParent
    have e2 : s.root = some n := hs.root
    simp [insertLoop, e1, e2]
  | cons f k =>
    cases k with
    | nil =>
      have e1 := hs.getParent
      have e2 : s.root = some f.addr := by
        rw [hs.root]; cases f <;> rfl
      simp [insertLoop, e1, e2]
    | cons g k =>
      have e1 := hs.getParent
      have e2 := hs.root_ne
      have hb : f.isBlack = true := by
        by_contra hb
        have hb : f.isBlack = false := by simpa using hb
        rcases g with ⟨ga, gc, gv, u⟩ | ⟨ga, gc, u, gv⟩ <;>
        rcases f with ⟨pa, pc, pv, pr⟩ | ⟨pa, pc, pl, pv⟩ <;>
        rcases u with _ | ⟨ua, _ | _, ul, uv, ur⟩ <;>
        simp [insStep, Frame.isBlack] at hstop hb <;> simp [hb] at hstop
      have e3 : RedBlackTree.getIsBlack s.heap (some f.addr) = .ok true := by
        cases f with
        | L pa pc pv pr =>
          simp only [Frame.isBlack] at hb; subst hb
          exact Holds.getIsBlack (k := g :: k) hs
        | R pa pc pl pv =>
          simp only [Frame.isBlack] at hb; subst hb
          exact Holds.getIsBlack (k := g :: k) hs
      have e4 : ¬ some f.addr = s.root := by
        cases f with
        | L pa pc pv pr => exact Holds.root_ne (k := k) (f := g) hs
        | R pa pc pl pv => exact Holds.root_ne (k := k) (f := g) hs
      simp [insertLoop, e1, e2, e3, e4]

end Holds

namespace Holds
open RedBlackTree Shape Spine

variable {s : RedBlackTree} {k : Spine}

/-- Red uncle: the parent is a left child, `newNode` a left child. -/
theorem insertLoop_step_LrL {n pa ga : Nat} {c gc : Bool} {l r : Shape} {v pv gv : Int} {pr : Shape} {ua : Nat} {ul ur : Shape} {uv : Int}
    (hs : Holds s (plug (Frame.L pa false pv pr :: Frame.L ga gc gv (node ua false ul uv ur) :: k) (node n c l v r)))
    (fuel : Nat) :
    ∃ s2, insertLoop (fuel + 1) s (some n) = insertLoop fuel s2 (some ga) ∧
      Holds s2 (plug k (node ga false (node pa true (node n c l v r) pv pr) gv (node ua true ul uv ur))) ∧
      s2.next = s.next ∧ s2.currentSize = s.currentSize := by
  have hP : Holds s (plug (Frame.L ga gc gv (node ua false ul uv ur) :: k) (node pa false (node n c l v r) pv pr)) := hs
  have hG : Holds s (plug k (node ga gc (node pa false (node n c l v r) pv pr) gv (node ua false ul uv ur))) := hs
  have hU : Holds s (plug (Frame.R ga gc (node pa false (node n c l v r) pv pr) gv :: k) (node ua false ul uv ur)) := hs
  have e1 := hs.getParent
  have e2 := hP.root_ne
  have e3 := hs.root_ne
  have e4 := hP.getIsBlack
  have e5 := hP.getParent
  have e6 := hG.getLeft
  have e7 := hG.getRight
  have e8 := hU.getIsBlack
  obtain ⟨h1, w1, hs1, -⟩ := hP.setIsBlack_focus true
  have hU1 : Holds { s with heap := h1 } (plug (Frame.R ga gc (node pa true (node n c l v r) pv pr) gv :: k)
      (node ua false ul uv ur)) := hs1
  obtain ⟨h2, w2, hs2, -⟩ := hU1.setIsBlack_focus true
  have hN2 : Holds { s with heap := h2 } (plug (Frame.L pa true pv pr ::
      Frame.L ga gc gv (node ua true ul uv ur) :: k) (node n c l v r)) := hs2
  have hP2 : Holds { s with heap := h2 } (plug (Frame.L ga gc gv (node ua true ul uv ur) :: k)
      (node pa true (node n c l v r) pv pr)) := hs2
  have hG2 : Holds { s with heap := h2 } (plug k
      (node ga gc (node pa true (node n c l v r) pv pr) gv (node ua true ul uv ur))) := hs2
  have e9 := hN2.getParent
  have e10 := hP2.getParent
  obtain ⟨h3, w3, hs3, -⟩ := hG2.setIsBlack_focus false
  have hN3 : Holds { s with heap := h3 } (plug (Frame.L pa true pv pr ::
      Frame.L ga false gv (node ua true ul uv ur) :: k) (node n c l v r)) := hs3
  have hP3 : Holds { s with heap := h3 } (plug (Frame.L ga false gv (node ua true ul uv ur) :: k)
      (node pa true (node n c l v r) pv pr)) := hs3
  have e11 := hN3.getParent
  have e12 := hP3.getParent
  refine ⟨{ s with heap := h3 }, ?_, hs3, rfl, rfl⟩
  simp only [par_cons, Frame.addr, ptr_node] at e1 e2 e3 e4 e5 e6 e7 e8 e9 e10 e11 e12 w1 w2 w3
  simp [insertLoop, insertLeft, e1, e2, e3, e4, e5, e6, e7, e8, e9, e10, e11, e12, w1, w2,
    w3]

/-- Red uncle: the parent is a left child, `newNode` a right child. -/
theorem insertLoop_step_LrR {n pa ga : Nat} {c gc : Bool} {l r : Shape} {v pv gv : Int} {pl : Shape} {ua : Nat} {ul ur : Shape} {uv : Int}
    (hs : Holds s (plug (Frame.R pa false pl pv :: Frame.L ga gc gv (node ua false ul uv ur) :: k) (node n c l v r)))
    (fuel : Nat) :
    ∃ s2, insertLoop (fuel + 1) s (some n) = insertLoop fuel s2 (some ga) ∧
      Holds s2 (plug k (node ga false (node pa true pl pv (node n c l v r)) gv (node ua true ul uv ur))) ∧
      s2.next = s.next ∧ s2.currentSize = s.currentSize := by
  have hP : Holds s (plug (Frame.L ga gc gv (node ua false ul uv ur) :: k) (node pa false pl pv (node n c l v r))) := hs
  have hG : Holds s (plug k (node ga gc (node pa false pl pv (node n c l v r)) gv (node ua false ul uv ur))) := hs
  have hU : Holds s (plug (Frame.R ga gc (node pa false pl pv (node n c l v r)) gv :: k) (node ua false ul uv ur)) := hs
  have e1 := hs.getParent
  have e2 := hP.root_ne
  have e3 := hs.root_ne
  have e4 := hP.getIsBlack
  have e5 := hP.getParent
  have e6 := hG.getLeft
  have e7 := hG.getRight
  have e8 := hU.getIsBlack
  obtain ⟨h1, w1, hs1, -⟩ := hP.setIsBlack_focus true
  have hU1 : Holds { s with heap := h1 } (plug (Frame.R ga gc (node pa true pl pv (node n c l v r)) gv :: k)
      (node ua false ul uv ur)) := hs1
  obtain ⟨h2, w2, hs2, -⟩ := hU1.setIsBlack_focus true
  have hN2 : Holds { s with heap := h2 } (plug (Frame.R pa true pl pv ::
      Frame.L ga gc gv (node ua true ul uv ur) :: k) (node n c l v r)) := hs2
  have hP2 : Holds { s with heap := h2 } (plug (Frame.L ga gc gv (node ua true ul uv ur) :: k)
      (node pa true pl pv (node n c l v r))) := hs2
  have hG2 : Holds { s with heap := h2 } (plug k
      (node ga gc (node pa true pl pv (node n c l v r)) gv (node ua true ul uv ur))) := hs2
  have e9 := hN2.getParent
  have e10 := hP2.getParent
  obtain ⟨h3, w3, hs3, -⟩ := hG2.setIsBlack_focus false
  have hN3 : Holds { s with heap := h3 } (plug (Frame.R pa true pl pv ::
      Frame.L ga false gv (node ua true ul uv ur) :: k) (node n c l v r)) := hs3
  have hP3 : Holds { s with heap := h3 } (plug (Frame.L ga false gv (node ua true ul uv ur) :: k)
      (node pa true pl pv (node n c l v r))) := hs3
  have e11 := hN3.getParent
  have e12 := hP3.getParent
  refine ⟨{ s with heap := h3 }, ?_, hs3, rfl, rfl⟩
  simp only [par_cons, Frame.addr, ptr_node] at e1 e2 e3 e4 e5 e6 e7 e8 e9 e10 e11 e12 w1 w2 w3
  simp [insertLoop, insertLeft, e1, e2, e3, e4, e5, e6, e7, e8, e9, e10, e11, e12, w1, w2,
    w3]

/-- Red uncle: the parent is a right child, `newNode` a left child. -/
theorem insertLoop_step_RrL {n pa ga : Nat} {c gc : Bool} {l r : Shape} {v pv gv : Int} {pr : Shape} {ua : Nat} {ul ur : Shape} {uv : Int}
    (hs : Holds s (plug (Frame.L pa false pv pr :: Frame.R ga gc (node ua false ul uv ur) gv :: k) (node n c l v r)))
    (fuel : Nat) :
    ∃ s2, insertLoop (fuel + 1) s (some n) = insertLoop fuel s2 (some ga) ∧
      Holds s2 (plug k (node ga false (node ua true ul uv ur) gv (node pa true (node n c l v r) pv pr))) ∧
      s2.next = s.next ∧ s2.currentSize = s.currentSize := by
  have hP : Holds s (plug (Frame.R ga gc (node ua false ul uv ur) gv :: k) (node pa false (node n c l v r) pv pr)) := hs
  have hG : Holds s (plug k (node ga gc (node ua false ul uv ur) gv (node pa false (node n c l v r) pv pr))) := hs
  have hU : Holds s (plug (Frame.L ga gc gv (node pa false (node n c l v r) pv pr) :: k) (node ua false ul uv ur)) := hs
  have e1 := hs.getParent
  have e2 := hP.root_ne
  have e3 := hs.root_ne
  have e4 := hP.getIsBlack
  have e5 := hP.getParent
  have e6 := hG.getLeft
  have e7 := hG.getRight
  have e8 := hU.getIsBlack
  have e13 := hP.ptr_ne_right
  obtain ⟨h1, w1, hs1, -⟩ := hP.setIsBlack_focus true
  have hU1 : Holds { s with heap := h1 } (plug (Frame.L ga gc gv (node pa true (node n c l v r) pv pr) :: k)
      (node ua false ul uv ur)) := hs1
  obtain ⟨h2, w2, hs2, -⟩ := hU1.setIsBlack_focus true
  have hN2 : Holds { s with heap := h2 } (plug (Frame.L pa true pv pr ::
      Frame.R ga gc (node ua true ul uv ur) gv :: k) (node n c l v r)) := hs2
  have hP2 : Holds { s with heap := h2 } (plug (Frame.R ga gc (node ua true ul uv ur) gv :: k)
      (node pa true (node n c l v r) pv pr)) := hs2
  have hG2 : Holds { s with heap := h2 } (plug k
      (node ga gc (node ua true ul uv ur) gv (node pa true (node n c l v r) pv pr))) := hs2
  have e9 := hN2.getParent
  have e10 := hP2.getParent
  obtain ⟨h3, w3, hs3, -⟩ := hG2.setIsBlack_focus false
  have hN3 : Holds { s with heap := h3 } (plug (Frame.L pa true pv pr ::
      Frame.R ga false (node ua true ul uv ur) gv :: k) (node n c l v r)) := hs3
  have hP3 : Holds { s with heap := h3 } (plug (Frame.R ga false (node ua true ul uv ur) gv :: k)
      (node pa true (node n c l v r) pv pr)) := hs3
  have e11 := hN3.getParent
  have e12 := hP3.getParent
  refine ⟨{ s with heap := h3 }, ?_, hs3, rfl, rfl⟩
  simp only [par_cons, Frame.addr, ptr_node] at e1 e2 e3 e4 e5 e6 e7 e8 e9 e10 e11 e12 w1 w2 w3 e13
  simp [insertLoop, insertRight, e1, e2, e3, e4, e5, e6, e7, e8, e9, e10, e11, e12, w1, w2,
    w3, e13]

/-- Red uncle: the parent is a right child, `newNode` a right child. -/
theorem insertLoop_step_RrR {n pa ga : Nat} {c gc : Bool} {l r : Shape} {v pv gv : Int} {pl : Shape} {ua : Nat} {ul ur : Shape} {uv : Int}
    (hs : Holds s (plug (Frame.R pa false pl pv :: Frame.R ga gc (node ua false ul uv ur) gv :: k) (node n c l v r)))
    (fuel : Nat) :
    ∃ s2, insertLoop (fuel + 1) s (some n) = insertLoop fuel s2 (some ga) ∧
      Holds s2 (plug k (node ga false (node ua true ul uv ur) gv (node pa true pl pv (node n c l v r)))) ∧
      s2.next = s.next ∧ s2.currentSize = s.currentSize := by
  have hP : Holds s (plug (Frame.R ga gc (node ua false ul uv ur) gv :: k) (node pa false pl pv (node n c l v r))) := hs
  have hG : Holds s (plug k (node ga gc (node ua false ul uv ur) gv (node pa false pl pv (node n c l v r)))) := hs
  have hU : Holds s (plug (Frame.L ga gc gv (node pa false pl pv (node n c l v r)) :: k) (node ua false ul uv ur)) := hs
  have e1 := hs.getParent
  have e2 := hP.root_ne
  have e3 := hs.root_ne
  have e4 := hP.getIsBlack
  have e5 := hP.getParent
  have e6 := hG.getLeft
  have e7 := hG.getRight
  have e8 := hU.getIsBlack
  have e13 := hP.ptr_ne_right
  obtain ⟨h1, w1, hs1, -⟩ := hP.setIsBlack_focus true
  have hU1 : Holds { s with heap := h1 } (plug (Frame.L ga gc gv (node pa true pl pv (node n c l v r)) :: k)
      (node ua false ul uv ur)) := hs1
  obtain ⟨h2, w2, hs2, -⟩ := hU1.setIsBlack_focus true
  have hN2 : Holds { s with heap := h2 } (plug (Frame.R pa true pl pv ::
      Frame.R ga gc (node ua true ul uv ur) gv :: k) (node n c l v r)) := hs2
  have hP2 : Holds { s with heap := h2 } (plug (Frame.R ga gc (node ua true ul uv ur) gv :: k)
      (node pa true pl pv (node n c l v r))) := hs2
  have hG2 : Holds { s with heap := h2 } (plug k
      (node ga gc (node ua true ul uv ur) gv (node pa true pl pv (node n c l v r)))) := hs2
  have e9 := hN2.getParent
  have e10 := hP2.getParent
  obtain ⟨h3, w3, hs3, -⟩ := hG2.setIsBlack_focus false
  have hN3 : Holds { s with heap := h3 } (plug (Frame.R pa true pl pv ::
      Frame.R ga false (node ua true ul uv ur) gv :: k) (node n c l v r)) := hs3
  have hP3 : Holds { s with heap := h3 } (plug (Frame.R ga false (node ua true ul uv ur) gv :: k)
      (node pa true pl pv (node n c l v r))) := hs3
  have e11 := hN3.getParent
  have e12 := hP3.getParent
  refine ⟨{ s with heap := h3 }, ?_, hs3, rfl, rfl⟩
  simp only [par_cons, Frame.addr, ptr_node] at e1 e2 e3 e4 e5 e6 e7 e8 e9 e10 e11 e12 w1 w2 w3 e13
  simp [insertLoop, insertRight, e1, e2, e3, e4, e5, e6, e7, e8, e9, e10, e11, e12, w1, w2,
    w3, e13]

/-- Uncle absent: the parent is a left child, `newNode` a left child. -/
theorem insertLoop_step_LnL {n pa ga : Nat} {c gc : Bool} {l r : Shape} {v pv gv : Int} {pr : Shape}
    (hs : Holds s (plug (Frame.L pa false pv pr :: Frame.L ga gc gv nil :: k) (node n c l v r)))
    (fuel : Nat) :
    ∃ s2, insertLoop (fuel + 1) s (some n) = insertLoop fuel s2 (some n) ∧
      Holds s2 (plug k (node pa true (node n c l v r) pv (node ga false pr gv nil))) ∧
      s2.next = s.next ∧ s2.currentSize = s.currentSize := by
  have hP : Holds s (plug (Frame.L ga gc gv nil :: k) (node pa false (node n c l v r) pv pr)) := hs
  have hG : Holds s (plug k (node ga gc (node pa false (node n c l v r) pv pr) gv nil)) := hs
  have e1 := hs.getParent
  have e2 := hP.root_ne
  have e3 := hs.root_ne
  have e4 := hP.getIsBlack
  have e5 := hP.getParent
  have e6 := hG.getLeft
  have e7 := hG.getRight
  have e14 := hP.getRight
  have e15 := hs.ptr_ne_left
  have hA1 : Holds s (plug (Frame.L pa false pv pr :: Frame.L ga gc gv nil :: k) (node n c l v r)) := hs
  have hB1 : Holds s (plug (Frame.L ga gc gv nil :: k) (node pa false (node n c l v r) pv pr)) := hs
  have r1 := hA1.getParent
  obtain ⟨h2, w2, hs2, -⟩ := hB1.setIsBlack_focus true
  have hA2 : Holds { s with heap := h2 } (plug (Frame.L pa true pv pr :: Frame.L ga gc gv nil :: k) (node n c l v r)) := hs2
  have hB2 : Holds { s with heap := h2 } (plug (Frame.L ga gc gv nil :: k) (node pa true (node n c l v r) pv pr)) := hs2
  have hG2 : Holds { s with heap := h2 } (plug k (node ga gc (node pa true (node n c l v r) pv pr) gv nil)) := hs2
  have r2 := hA2.getParent
  have r3 := hB2.getParent
  obtain ⟨h3, w3, hs3, -⟩ := hG2.setIsBlack_focus false
  have hA3 : Holds { s with heap := h3 } (plug (Frame.L pa true pv pr :: Frame.L ga false gv nil :: k) (node n c l v r)) := hs3
  have hB3 : Holds { s with heap := h3 } (plug (Frame.L ga false gv nil :: k) (node pa true (node n c l v r) pv pr)) := hs3
  have r4 := hA3.getParent
  have r5 := hB3.getParent
  obtain ⟨s4, w4, hs4, hn4, hc4, -⟩ := hs3.rightRotate_focus
  refine ⟨s4, ?_, hs4, hn4, hc4⟩
  simp only [par_cons, Frame.addr, ptr_node, ptr_nil] at e1 e2 e3 e4 e5 e6 e7 e14 e15 r1 w2 r2 r3 w3 r4 r5 w4
  simp [insertLoop, insertLeft, e1, e2, e3, e4, e5, e6, e7, e14, e15, r1, w2, r2, r3, w3, r4, r5, w4]

/-- Uncle Black: the parent is a left child, `newNode` a left child. -/
theorem insertLoop_step_LbL {n pa ga : Nat} {c gc : Bool} {l r : Shape} {v pv gv : Int} {pr : Shape} {ua : Nat} {ul ur : Shape} {uv : Int}
    (hs : Holds s (plug (Frame.L pa false pv pr :: Frame.L ga gc gv (node ua true ul uv ur) :: k) (node n c l v r)))
    (fuel : Nat) :
    ∃ s2, insertLoop (fuel + 1) s (some n) = insertLoop fuel s2 (some n) ∧
      Holds s2 (plug k (node pa true (node n c l v r) pv (node ga false pr gv (node ua true ul uv ur)))) ∧
      s2.next = s.next ∧ s2.currentSize = s.currentSize := by
  have hP : Holds s (plug (Frame.L ga gc gv (node ua true ul uv ur) :: k) (node pa false (node n c l v r) pv pr)) := hs
  have hG : Holds s (plug k (node ga gc (node pa false (node n c l v r) pv pr) gv (node ua true ul uv ur))) := hs
  have e1 := hs.getParent
  have e2 := hP.root_ne
  have e3 := hs.root_ne
  have e4 := hP.getIsBlack
  have e5 := hP.getParent
  have e6 := hG.getLeft
  have e7 := hG.getRight
  have hU : Holds s (plug (Frame.R ga gc (node pa false (node n c l v r) pv pr) gv :: k) (node ua true ul uv ur)) := hs
  have e8 := hU.getIsBlack
  have e14 := hP.getRight
  have e15 := hs.ptr_ne_left
  have hA1 : Holds s (plug (Frame.L pa false pv pr :: Frame.L ga gc gv (node ua true ul uv ur) :: k) (node n c l v r)) := hs
  have hB1 : Holds s (plug (Frame.L ga gc gv (node ua true ul uv ur) :: k) (node pa false (node n c l v r) pv pr)) := hs
  have r1 := hA1.getParent
  obtain ⟨h2, w2, hs2, -⟩ := hB1.setIsBlack_focus true
  have hA2 : Holds { s with heap := h2 } (plug (Frame.L pa true pv pr :: Frame.L ga gc gv (node ua true ul uv ur) :: k) (node n c l v r)) := hs2
  have hB2 : Holds { s with heap := h2 } (plug (Frame.L ga gc gv (node ua true ul uv ur) :: k) (node pa true (node n c l v r) pv pr)) := hs2
  have hG2 : Holds { s with heap := h2 } (plug k (node ga gc (node pa true (node n c l v r) pv pr) gv (node ua true ul uv ur))) := hs2
  have r2 := hA2.getParent
  have r3 := hB2.getParent
  obtain ⟨h3, w3, hs3, -⟩ := hG2.setIsBlack_focus false
  have hA3 : Holds { s with heap := h3 } (plug (Frame.L pa true pv pr :: Frame.L ga false gv (node ua true ul uv ur) :: k) (node n c l v r)) := hs3
  have hB3 : Holds { s with heap := h3 } (plug (Frame.L ga false gv (node ua true ul uv ur) :: k) (node pa true (node n c l v r) pv pr)) := hs3
  have r4 := hA3.getParent
  have r5 := hB3.getParent
  obtain ⟨s4, w4, hs4, hn4, hc4, -⟩ := hs3.rightRotate_focus
  refine ⟨s4, ?_, hs4, hn4, hc4⟩
  simp only [par_cons, Frame.addr, ptr_node, ptr_nil] at e1 e2 e3 e4 e5 e6 e7 e8 e14 e15 r1 w2 r2 r3 w3 r4 r5 w4
  simp [insertLoop, insertLeft, e1, e2, e3, e4, e5, e6, e7, e8, e14, e15, r1, w2, r2, r3, w3, r4, r5, w4]

/-- Uncle absent: the parent is a left child, `newNode` a right child. -/
theorem insertLoop_step_LnR {n pa ga : Nat} {c gc : Bool} {l r : Shape} {v pv gv : Int} {pl : Shape}
    (hs : Holds s (plug (Frame.R pa false pl pv :: Frame.L ga gc gv nil :: k) (node n c l v r)))
    (fuel : Nat) :
    ∃ s2, insertLoop (fuel + 1) s (some n) = insertLoop fuel s2 (some pa) ∧
      Holds s2 (plug k (node n true (node pa false pl pv l) v (node ga false r gv nil))) ∧
      s2.next = s.next ∧ s2.currentSize = s.currentSize := by
  have hP : Holds s (plug (Frame.L ga gc gv nil :: k) (node pa false pl pv (node n c l v r))) := hs
  have hG : Holds s (plug k (node ga gc (node pa false pl pv (node n c l v r)) gv nil)) := hs
  have e1 := hs.getParent
  have e2 := hP.root_ne
  have e3 := hs.root_ne
  have e4 := hP.getIsBlack
  have e5 := hP.getParent
  have e6 := hG.getLeft
  have e7 := hG.getRight
  have e14 := hP.getRight
  obtain ⟨s1, w1, hs1, hn1, hc1, -⟩ := hP.leftRotate_focus
  have hA1 : Holds s1 (plug (Frame.L n c v r :: Frame.L ga gc gv nil :: k) (node pa false pl pv l)) := hs1
  have hB1 : Holds s1 (plug (Frame.L ga gc gv nil :: k) (node n c (node pa false pl pv l) v r)) := hs1
  have r1 := hA1.getParent
  obtain ⟨h2, w2, hs2, -⟩ := hB1.setIsBlack_focus true
  have hA2 : Holds { s1 with heap := h2 } (plug (Frame.L n true v r :: Frame.L ga gc gv nil :: k) (node pa false pl pv l)) := hs2
  have hB2 : Holds { s1 with heap := h2 } (plug (Frame.L ga gc gv nil :: k) (node n true (node pa false pl pv l) v r)) := hs2
  have hG2 : Holds { s1 with heap := h2 } (plug k (node ga gc (node n true (node pa false pl pv l) v r) gv nil)) := hs2
  have r2 := hA2.getParent
  have r3 := hB2.getParent
  obtain ⟨h3, w3, hs3, -⟩ := hG2.setIsBlack_focus false
  have hA3 : Holds { s1 with heap := h3 } (plug (Frame.L n true v r :: Frame.L ga false gv nil :: k) (node pa false pl pv l)) := hs3
  have hB3 : Holds { s1 with heap := h3 } (plug (Frame.L ga false gv nil :: k) (node n true (node pa false pl pv l) v r)) := hs3
  have r4 := hA3.getParent
  have r5 := hB3.getParent
  obtain ⟨s4, w4, hs4, hn4, hc4, -⟩ := hs3.rightRotate_focus
  refine ⟨s4, ?_, hs4, hn4.trans hn1, hc4.trans hc1⟩
  simp only [par_cons, Frame.addr, ptr_node, ptr_nil] at e1 e2 e3 e4 e5 e6 e7 e14 w1 r1 w2 r2 r3 w3 r4 r5 w4
  simp [insertLoop, insertLeft, e1, e2, e3, e4, e5, e6, e7, e14, w1, r1, w2, r2, r3, w3, r4, r5, w4]

/-- Uncle Black: the parent is a left child, `newNode` a right child. -/
theorem insertLoop_step_LbR {n pa ga : Nat} {c gc : Bool} {l r : Shape} {v pv gv : Int} {pl : Shape} {ua : Nat} {ul ur : Shape} {uv : Int}
    (hs : Holds s (plug (Frame.R pa false pl pv :: Frame.L ga gc gv (node ua true ul uv ur) :: k) (node n c l v r)))
    (fuel : Nat) :
    ∃ s2, insertLoop (fuel + 1) s (some n) = insertLoop fuel s2 (some pa) ∧
      Holds s2 (plug k (node n true (node pa false pl pv l) v (node ga false r gv (node ua true ul uv ur)))) ∧
      s2.next = s.next ∧ s2.currentSize = s.currentSize := by
  have hP : Holds s (plug (Frame.L ga gc gv (node ua true ul uv ur) :: k) (node pa false pl pv (node n c l v r))) := hs
  have hG : Holds s (plug k (node ga gc (node pa false pl pv (node n c l v r)) gv (node ua true ul uv ur))) := hs
  have e1 := hs.getParent
  have e2 := hP.root_ne
  have e3 := hs.root_ne
  have e4 := hP.getIsBlack
  have e5 := hP.getParent
  have e6 := hG.getLeft
  have e7 := hG.getRight
  have hU : Holds s (plug (Frame.R ga gc (node pa false pl pv (node n c l v r)) gv :: k) (node ua true ul uv ur)) := hs
  have e8 := hU.getIsBlack
  have e14 := hP.getRight
  obtain ⟨s1, w1, hs1, hn1, hc1, -⟩ := hP.leftRotate_focus
  have hA1 : Holds s1 (plug (Frame.L n c v r :: Frame.L ga gc gv (node ua true ul uv ur) :: k) (node pa false pl pv l)) := hs1
  have hB1 : Holds s1 (plug (Frame.L ga gc gv (node ua true ul uv ur) :: k) (node n c (node pa false pl pv l) v r)) := hs1
  have r1 := hA1.getParent
  obtain ⟨h2, w2, hs2, -⟩ := hB1.setIsBlack_focus true
  have hA2 : Holds { s1 with heap := h2 } (plug (Frame.L n true v r :: Frame.L ga gc gv (node ua true ul uv ur) :: k) (node pa false pl pv l)) := hs2
  have hB2 : Holds { s1 with heap := h2 } (plug (Frame.L ga gc gv (node ua true ul uv ur) :: k) (node n true (node pa false pl pv l) v r)) := hs2
  have hG2 : Holds { s1 with heap := h2 } (plug k (node ga gc (node n true (node pa false pl pv l) v r) gv (node ua true ul uv ur))) := hs2
  have r2 := hA2.getParent
  have r3 := hB2.getParent
  obtain ⟨h3, w3, hs3, -⟩ := hG2.setIsBlack_focus false
  have hA3 : Holds { s1 with heap := h3 } (plug (Frame.L n true v r :: Frame.L ga false gv (node ua true ul uv ur) :: k) (node pa false pl pv l)) := hs3
  have hB3 : Holds { s1 with heap := h3 } (plug (Frame.L ga false gv (node ua true ul uv ur) :: k) (node n true (node pa false pl pv l) v r)) := hs3
  have r4 := hA3.getParent
  have r5 := hB3.getParent
  obtain ⟨s4, w4, hs4, hn4, hc4, -⟩ := hs3.rightRotate_focus
  refine ⟨s4, ?_, hs4, hn4.trans hn1, hc4.trans hc1⟩
  simp only [par_cons, Frame.addr, ptr_node, ptr_nil] at e1 e2 e3 e4 e5 e6 e7 e8 e14 w1 r1 w2 r2 r3 w3 r4 r5 w4
  simp [insertLoop, insertLeft, e1, e2, e3, e4, e5, e6, e7, e8, e14, w1, r1, w2, r2, r3, w3, r4, r5, w4]

/-- Uncle absent: the parent is a right child, `newNode` a left child. -/
theorem insertLoop_step_RnL {n pa ga : Nat} {c gc : Bool} {l r : Shape} {v pv gv : Int} {pr : Shape}
    (hs : Holds s (plug (Frame.L pa false pv pr :: Frame.R ga gc nil gv :: k) (node n c l v r)))
    (fuel : Nat) :
    ∃ s2, insertLoop (fuel + 1) s (some n) = insertLoop fuel s2 (some pa) ∧
      Holds s2 (plug k (node n true (node ga false nil gv l) v (node pa false r pv pr))) ∧
      s2.next = s.next ∧ s2.currentSize = s.currentSize := by
  have hP : Holds s (plug (Frame.R ga gc nil gv :: k) (node pa false (node n c l v r) pv pr)) := hs
  have hG : Holds s (plug k (node ga gc nil gv (node pa false (node n c l v r) pv pr))) := hs
  have e1 := hs.getParent
  have e2 := hP.root_ne
  have e3 := hs.root_ne
  have e4 := hP.getIsBlack
  have e5 := hP.getParent
  have e6 := hG.getLeft
  have e7 := hG.getRight
  have e13 := hP.ptr_ne_right
  have e14 := hP.getLeft
  obtain ⟨s1, w1, hs1, hn1, hc1, -⟩ := hP.rightRotate_focus
  have hA1 : Holds s1 (plug (Frame.R n c l v :: Frame.R ga gc nil gv :: k) (node pa false r pv pr)) := hs1
  have hB1 : Holds s1 (plug (Frame.R ga gc nil gv :: k) (node n c l v (node pa false r pv pr))) := hs1
  have r1 := hA1.getParent
  obtain ⟨h2, w2, hs2, -⟩ := hB1.setIsBlack_focus true
  have hA2 : Holds { s1 with heap := h2 } (plug (Frame.R n true l v :: Frame.R ga gc nil gv :: k) (node pa false r pv pr)) := hs2
  have hB2 : Holds { s1 with heap := h2 } (plug (Frame.R ga gc nil gv :: k) (node n true l v (node pa false r pv pr))) := hs2
  have hG2 : Holds { s1 with heap := h2 } (plug k (node ga gc nil gv (node n true l v (node pa false r pv pr)))) := hs2
  have r2 := hA2.getParent
  have r3 := hB2.getParent
  obtain ⟨h3, w3, hs3, -⟩ := hG2.setIsBlack_focus false
  have hA3 : Holds { s1 with heap := h3 } (plug (Frame.R n true l v :: Frame.R ga false nil gv :: k) (node pa false r pv pr)) := hs3
  have hB3 : Holds { s1 with heap := h3 } (plug (Frame.R ga false nil gv :: k) (node n true l v (node pa false r pv pr))) := hs3
  have r4 := hA3.getParent
  have r5 := hB3.getParent
  obtain ⟨s4, w4, hs4, hn4, hc4, -⟩ := hs3.leftRotate_focus
  refine ⟨s4, ?_, hs4, hn4.trans hn1, hc4.trans hc1⟩
  simp only [par_cons, Frame.addr, ptr_node, ptr_nil] at e1 e2 e3 e4 e5 e6 e7 e13 e14 w1 r1 w2 r2 r3 w3 r4 r5 w4
  simp [insertLoop, insertRight, e1, e2, e3, e4, e5, e6, e7, e13, e14, w1, r1, w2, r2, r3, w3, r4, r5, w4]

/-- Uncle Black: the parent is a right child, `newNode` a left child. -/
theorem insertLoop_step_RbL {n pa ga : Nat} {c gc : Bool} {l r : Shape} {v pv gv : Int} {pr : Shape} {ua : Nat} {ul ur : Shape} {uv : Int}
    (hs : Holds s (plug (Frame.L pa false pv pr :: Frame.R ga gc (node ua true ul uv ur) gv :: k) (node n c l v r)))
    (fuel : Nat) :
    ∃ s2, insertLoop (fuel + 1) s (some n) = insertLoop fuel s2 (some pa) ∧
      Holds s2 (plug k (node n true (node ga false (node ua true ul uv ur) gv l) v (node pa false r pv pr))) ∧
      s2.next = s.next ∧ s2.currentSize = s.currentSize := by
  have hP : Holds s (plug (Frame.R ga gc (node ua true ul uv ur) gv :: k) (node pa false (node n c l v r) pv pr)) := hs
  have hG : Holds s (plug k (node ga gc (node ua true ul uv ur) gv (node pa false (node n c l v r) pv pr))) := hs
  have e1 := hs.getParent
  have e2 := hP.root_ne
  have e3 := hs.root_ne
  have e4 := hP.getIsBlack
  have e5 := hP.getParent
  have e6 := hG.getLeft
  have e7 := hG.getRight
  have hU : Holds s (plug (Frame.L ga gc gv (node pa false (node n c l v r) pv pr) :: k) (node ua true ul uv ur)) := hs
  have e8 := hU.getIsBlack
  have e13 := hP.ptr_ne_right
  have e14 := hP.getLeft
  obtain ⟨s1, w1, hs1, hn1, hc1, -⟩ := hP.rightRotate_focus
  have hA1 : Holds s1 (plug (Frame.R n c l v :: Frame.R ga gc (node ua true ul uv ur) gv :: k) (node pa false r pv pr)) := hs1
  have hB1 : Holds s1 (plug (Frame.R ga gc (node ua true ul uv ur) gv :: k) (node n c l v (node pa false r pv pr))) := hs1
  have r1 := hA1.getParent
  obtain ⟨h2, w2, hs2, -⟩ := hB1.setIsBlack_focus true
  have hA2 : Holds { s1 with heap := h2 } (plug (Frame.R n true l v :: Frame.R ga gc (node ua true ul uv ur) gv :: k) (node pa false r pv pr)) := hs2
  have hB2 : Holds { s1 with heap := h2 } (plug (Frame.R ga gc (node ua true ul uv ur) gv :: k) (node n true l v (node pa false r pv pr))) := hs2
  have hG2 : Holds { s1 with heap := h2 } (plug k (node ga gc (node ua true ul uv ur) gv (node n true l v (node pa false r pv pr)))) := hs2
  have r2 := hA2.getParent
  have r3 := hB2.getParent
  obtain ⟨h3, w3, hs3, -⟩ := hG2.setIsBlack_focus false
  have hA3 : Holds { s1 with heap := h3 } (plug (Frame.R n true l v :: Frame.R ga false (node ua true ul uv ur) gv :: k) (node pa false r pv pr)) := hs3
  have hB3 : Holds { s1 with heap := h3 } (plug (Frame.R ga false (node ua true ul uv ur) gv :: k) (node n true l v (node pa false r pv pr))) := hs3
  have r4 := hA3.getParent
  have r5 := hB3.getParent
  obtain ⟨s4, w4, hs4, hn4, hc4, -⟩ := hs3.leftRotate_focus
  refine ⟨s4, ?_, hs4, hn4.trans hn1, hc4.trans hc1⟩
  simp only [par_cons, Frame.addr, ptr_node, ptr_nil] at e1 e2 e3 e4 e5 e6 e7 e8 e13 e14 w1 r1 w2 r2 r3 w3 r4 r5 w4
  simp [insertLoop, insertRight, e1, e2, e3, e4, e5, e6, e7, e8, e13, e14, w1, r1, w2, r2, r3, w3, r4, r5, w4]

/-- Uncle absent: the parent is a right child, `newNode` a right child. -/
theorem insertLoop_step_RnR {n pa ga : Nat} {c gc : Bool} {l r : Shape} {v pv gv : Int} {pl : Shape}
    (hs : Holds s (plug (Frame.R pa false pl pv :: Frame.R ga gc nil gv :: k) (node n c l v r)))
    (fuel : Nat) :
    ∃ s2, insertLoop (fuel + 1) s (some n) = insertLoop fuel s2 (some n) ∧
      Holds s2 (plug k (node pa true (node ga false nil gv pl) pv (node n c l v r))) ∧
      s2.next = s.next ∧ s2.currentSize = s.currentSize := by
  have hP : Holds s (plug (Frame.R ga gc nil gv :: k) (node pa false pl pv (node n c l v r))) := hs
  have hG : Holds s (plug k (node ga gc nil gv (node pa false pl pv (node n c l v r)))) := hs
  have e1 := hs.getParent
  have e2 := hP.root_ne
  have e3 := hs.root_ne
  have e4 := hP.getIsBlack
  have e5 := hP.getParent
  have e6 := hG.getLeft
  have e7 := hG.getRight
  have e13 := hP.ptr_ne_right
  have e14 := hP.getLeft
  have e15 := hs.ptr_ne_right
  have hA1 : Holds s (plug (Frame.R pa false pl pv :: Frame.R ga gc nil gv :: k) (node n c l v r)) := hs
  have hB1 : Holds s (plug (Frame.R ga gc nil gv :: k) (node pa false pl pv (node n c l v r))) := hs
  have r1 := hA1.getParent
  obtain ⟨h2, w2, hs2, -⟩ := hB1.setIsBlack_focus true
  have hA2 : Holds { s with heap := h2 } (plug (Frame.R pa true pl pv :: Frame.R ga gc nil gv :: k) (node n c l v r)) := hs2
  have hB2 : Holds { s with heap := h2 } (plug (Frame.R ga gc nil gv :: k) (node pa true pl pv (node n c l v r))) := hs2
  have hG2 : Holds { s with heap := h2 } (plug k (node ga gc nil gv (node pa true pl pv (node n c l v r)))) := hs2
  have r2 := hA2.getParent
  have r3 := hB2.getParent
  obtain ⟨h3, w3, hs3, -⟩ := hG2.setIsBlack_focus false
  have hA3 : Holds { s with heap := h3 } (plug (Frame.R pa true pl pv :: Frame.R ga false nil gv :: k) (node n c l v r)) := hs3
  have hB3 : Holds { s with heap := h3 } (plug (Frame.R ga false nil gv :: k) (node pa true pl pv (node n c l v r))) := hs3
  have r4 := hA3.getParent
  have r5 := hB3.getParent
  obtain ⟨s4, w4, hs4, hn4, hc4, -⟩ := hs3.leftRotate_focus
  refine ⟨s4, ?_, hs4, hn4, hc4⟩
  simp only [par_cons, Frame.addr, ptr_node, ptr_nil] at e1 e2 e3 e4 e5 e6 e7 e13 e14 e15 r1 w2 r2 r3 w3 r4 r5 w4
  simp [insertLoop, insertRight, e1, e2, e3, e4, e5, e6, e7, e13, e14, e15, r1, w2, r2, r3, w3, r4, r5, w4]

/-- Uncle Black: the parent is a right child, `newNode` a right child. -/
theorem insertLoop_step_RbR {n pa ga : Nat} {c gc : Bool} {l r : Shape} {v pv gv : Int} {pl : Shape} {ua : Nat} {ul ur : Shape} {uv : Int}
    (hs : Holds s (plug (Frame.R pa false pl pv :: Frame.R ga gc (node ua true ul uv ur) gv :: k) (node n c l v r)))
    (fuel : Nat) :
    ∃ s2, insertLoop (fuel + 1) s (some n) = insertLoop fuel s2 (some n) ∧
      Holds s2 (plug k (node pa true (node ga false (node ua true ul uv ur) gv pl) pv (node n c l v r))) ∧
      s2.next = s.next ∧ s2.currentSize = s.currentSize := by
  have hP : Holds s (plug (Frame.R ga gc (node ua true ul uv ur) gv :: k) (node pa false pl pv (node n c l v r))) := hs
  have hG : Holds s (plug k (node ga gc (node ua true ul uv ur) gv (node pa false pl pv (node n c l v r)))) := hs
  have e1 := hs.getParent
  have e2 := hP.root_ne
  have e3 := hs.root_ne
  have e4 := hP.getIsBlack
  have e5 := hP.getParent
  have e6 := hG.getLeft
  have e7 := hG.getRight
  have hU : Holds s (plug (Frame.L ga gc gv (node pa false pl pv (node n c l v r)) :: k) (node ua true ul uv ur)) := hs
  have e8 := hU.getIsBlack
  have e13 := hP.ptr_ne_right
  have e14 := hP.getLeft
  have e15 := hs.ptr_ne_right
  have hA1 : Holds s (plug (Frame.R pa false pl pv :: Frame.R ga gc (node ua true ul uv ur) gv :: k) (node n c l v r)) := hs
  have hB1 : Holds s (plug (Frame.R ga gc (node ua true ul uv ur) gv :: k) (node pa false pl pv (node n c l v r))) := hs
  have r1 := hA1.getParent
  obtain ⟨h2, w2, hs2, -⟩ := hB1.setIsBlack_focus true
  have hA2 : Holds { s with heap := h2 } (plug (Frame.R pa true pl pv :: Frame.R ga gc (node ua true ul uv ur) gv :: k) (node n c l v r)) := hs2
  have hB2 : Holds { s with heap := h2 } (plug (Frame.R ga gc (node ua true ul uv ur) gv :: k) (node pa true pl pv (node n c l v r))) := hs2
  have hG2 : Holds { s with heap := h2 } (plug k (node ga gc (node ua true ul uv ur) gv (node pa true pl pv (node n c l v r)))) := hs2
  have r2 := hA2.getParent
  have r3 := hB2.getParent
  obtain ⟨h3, w3, hs3, -⟩ := hG2.setIsBlack_focus false
  have hA3 : Holds { s with heap := h3 } (plug (Frame.R pa true pl pv :: Frame.R ga false (node ua true ul uv ur) gv :: k) (node n c l v r)) := hs3
  have hB3 : Holds { s with heap := h3 } (plug (Frame.R ga false (node ua true ul uv ur) gv :: k) (node pa true pl pv (node n c l v r))) := hs3
  have r4 := hA3.getParent
  have r5 := hB3.getParent
  obtain ⟨s4, w4, hs4, hn4, hc4, -⟩ := hs3.leftRotate_focus
  refine ⟨s4, ?_, hs4, hn4, hc4⟩
  simp only [par_cons, Frame.addr, ptr_node, ptr_nil] at e1 e2 e3 e4 e5 e6 e7 e8 e13 e14 e15 r1 w2 r2 r3 w3 r4 r5 w4
  simp [insertLoop, insertRight, e1, e2, e3, e4, e5, e6, e7, e8, e13, e14, e15, r1, w2, r2, r3, w3, r4, r5, w4]

end Holds

namespace Holds
open RedBlackTree Shape Spine

variable {s : RedBlackTree} {k : Spine}

/-- One pass through the body of the rebalancing loop follows `insStep`. -/
theorem insertLoop_step {n : Nat} {c : Bool} {l r : Shape} {v : Int}
    (hs : Holds s (plug k (node n c l v r))) {k2 : Spine} {t2 : Shape}
    (hstep : insStep k (node n c l v r) = some (k2, t2)) (fuel : Nat) :
    ∃ s2 n2 c2 l2 v2 r2, t2 = node n2 c2 l2 v2 r2 ∧
      insertLoop (fuel + 1) s (some n) = insertLoop fuel s2 (some n2) ∧
      Holds s2 (plug k2 t2) ∧ s2.next = s.next ∧ s2.currentSize = s.currentSize := by
  rcases k with _ | ⟨f, _ | ⟨g, k⟩⟩
  · simp [insStep] at hstep
  · simp [insStep] at hstep
  · rcases g with ⟨ga, gc, gv, u⟩ | ⟨ga, gc, u, gv⟩ <;>
    rcases f with ⟨pa, _ | _, pv, pr⟩ | ⟨pa, _ | _, pl, pv⟩ <;>
    rcases u with _ | ⟨ua, _ | _, ul, uv, ur⟩ <;>
    simp only [insStep, Frame.isBlack, if_true, if_false, Option.some.injEq, Prod.mk.injEq,
      reduceCtorEq, Bool.false_eq_true] at hstep <;>
    obtain ⟨rfl, rfl⟩ := hstep
    all_goals first
      | (obtain ⟨s2, h1, h2, h3, h4⟩ := hs.insertLoop_step_LnL fuel
         exact ⟨s2, _, _, _, _, _, rfl, h1, h2, h3, h4⟩)
      | (obtain ⟨s2, h1, h2, h3, h4⟩ := hs.insertLoop_step_LnR fuel
         exact ⟨s2, _, _, _, _, _, rfl, h1, h2, h3, h4⟩)
      | (obtain ⟨s2, h1, h2, h3, h4⟩ := hs.insertLoop_step_LrL fuel
         exact ⟨s2, _, _, _, _, _, rfl, h1, h2, h3, h4⟩)
      | (obtain ⟨s2, h1, h2, h3, h4⟩ := hs.insertLoop_step_LrR fuel
         exact ⟨s2, _, _, _, _, _, rfl, h1, h2, h3, h4⟩)
      | (obtain ⟨s2, h1, h2, h3, h4⟩ := hs.insertLoop_step_LbL fuel
         exact ⟨s2, _, _, _, _, _, rfl, h1, h2, h3, h4⟩)
      | (obtain ⟨s2, h1, h2, h3, h4⟩ := hs.insertLoop_step_LbR fuel
         exact ⟨s2, _, _, _, _, _, rfl, h1, h2, h3, h4⟩)
      | (obtain ⟨s2, h1, h2, h3, h4⟩ := hs.insertLoop_step_RnL fuel
         exact ⟨s2, _, _, _, _, _, rfl, h1, h2, h3, h4⟩)
      | (obtain ⟨s2, h1, h2, h3, h4⟩ := hs.insertLoop_step_RnR fuel
         exact ⟨s2, _, _, _, _, _, rfl, h1, h2, h3, h4⟩)
      | (obtain ⟨s2, h1, h2, h3, h4⟩ := hs.insertLoop_step_RrL fuel
         exact ⟨s2, _, _, _, _, _, rfl, h1, h2, h3, h4⟩)
      | (obtain ⟨s2, h1, h2, h3, h4⟩ := hs.insertLoop_step_RrR fuel
         exact ⟨s2, _, _, _, _, _, rfl, h1, h2, h3, h4⟩)
      | (obtain ⟨s2, h1, h2, h3, h4⟩ := hs.insertLoop_step_RbL fuel
         exact ⟨s2, _, _, _, _, _, rfl, h1, h2, h3, h4⟩)
      | (obtain ⟨s2, h1, h2, h3, h4⟩ := hs.insertLoop_step_RbR fuel
         exact ⟨s2, _, _, _, _, _, rfl, h1, h2, h3, h4⟩)

end Holds

namespace Spine
open Shape

theorem insStep_length {k k2 : Spine} {t t2 : Shape} (h : insStep k t = some (k2, t2)) :
    k2.length < k.length := by
  rcases k with _ | ⟨f, _ | ⟨g, k⟩⟩
  · simp [insStep] at h
  · simp [insStep] at h
  · rcases g with ⟨ga, gc, gv, u⟩ | ⟨ga, gc, u, gv⟩ <;>
    rcases f with ⟨pa, _ | _, pv, pr⟩ | ⟨pa, _ | _, pl, pv⟩ <;>
    rcases u with _ | ⟨ua, _ | _, ul, uv, ur⟩ <;>
    rcases t with _ | ⟨n, c, l, v, r⟩ <;>
    simp only [insStep, Frame.isBlack, if_true, if_false, Option.some.injEq, Prod.mk.injEq,
      reduceCtorEq, Bool.false_eq_true] at h <;>
    obtain ⟨rfl, rfl⟩ := h <;> simp only [List.length_cons] <;> omega

end Spine

namespace Holds
open RedBlackTree Shape Spine

/-- The rebalancing loop of `insert` returns, and the tree it leaves is the one
`insLoop` computes. -/
theorem insertLoop_sim (fuel : Nat) : ∀ (fuel2 : Nat) {s : RedBlackTree} {k : Spine} {n : Nat}
    {c : Bool} {l r : Shape} {v : Int}, Holds s (plug k (node n c l v r)) →
    k.length < fuel → k.length < fuel2 →
    ∃ s2, insertLoop fuel s (some n) = .ok s2 ∧ Holds s2 (insLoop fuel2 k (node n c l v r)) ∧
      s2.next = s.next ∧ s2.currentSize = s.currentSize := by
  induction fuel with
  | zero => intro fuel2 s k n c l r v _ h; omega
  | succ fuel ih =>
    intro fuel2 s k n c l r v hs hf hf2
    cases fuel2 with
    | zero => omega
    | succ fuel2 =>
      cases hstep : insStep k (node n c l v r) with
      | none =>
        refine ⟨s, hs.insertLoop_exit hstep fuel, ?_, rfl, rfl⟩
        simpa [insLoop, hstep] using hs
      | some kt =>
        obtain ⟨k2, t2⟩ := kt
        obtain ⟨s2, n2, c2, l2, v2, r2, rfl, e, hs2, hn, hc⟩ := hs.insertLoop_step hstep fuel
        have hlen := insStep_length hstep
        obtain ⟨s3, e3, hs3, hn3, hc3⟩ := ih fuel2 hs2 (by omega) (by omega)
        refine ⟨s3, e.trans e3, ?_, hn3.trans hn, hc3.trans hc⟩
        simpa [insLoop, hstep] using hs3

end Holds

namespace Spine
open Shape RedBlackTree

theorem plug_descend (value : Int) (t : Shape) (k : Spine) :
    plug (descend value t k) nil = plug k t := by
  induction t generalizing k with
  | nil => rfl
  | node a c l v r ihl ihr =>
    simp only [descend]
    split
    · rw [ihl]; rfl
    · rw [ihr]; rfl

theorem length_descend (value : Int) (t : Shape) (k : Spine) :
    k.length ≤ (descend value t k).length ∧
      (descend value t k).length ≤ k.length + t.height ∧
      (t ≠ nil → k.length < (descend value t k).length) := by
  induction t generalizing k with
  | nil => simp [descend, height]
  | node a c l v r ihl ihr =>
    simp only [descend, height]
    split
    · have := ihl (Frame.L a c v r :: k)
      simp only [List.length_cons] at this
      refine ⟨by omega, by omega, fun _ => by omega⟩
    · have := ihr (Frame.R a c l v :: k)
      simp only [List.length_cons] at this
      refine ⟨by omega, by omega, fun _ => by omega⟩

/-- The loop of `btInsert` ends at the parent of the null position `descend` finds. -/
theorem btInsertLoop_rep {h : Heap} {t : Shape} {q : Option Nat} (hr : Shape.Rep h t q)
    (value : Int) (fuel : Nat) (hf : t.height < fuel) (k : Spine) (tp : Option Nat) (il : Bool)
    (hpre : t = nil → tp = par k ∧ il = headIsLeft k) :
    btInsertLoop fuel h value t.ptr tp il =
      .ok (par (descend value t k), headIsLeft (descend value t k)) := by
  induction t generalizing fuel q k tp il with
  | nil =>
    cases fuel with
    | zero => omega
    | succ n =>
      obtain ⟨rfl, rfl⟩ := hpre rfl
      simp [btInsertLoop, descend]
  | node a c l v r ihl ihr =>
    cases fuel with
    | zero => omega
    | succ n =>
      simp only [height] at hf
      have hl : l.height < n := by omega
      have hrr : r.height < n := by omega
      simp only [btInsertLoop, ptr_node, hr.cellData, hr.cellLeft, hr.cellRight, ok_bind, ne_eq,
        not_false_eq_true, if_true, reduceCtorEq, descend]
      split
      · exact ihl hr.2.1 n hl _ _ _ (fun _ => ⟨rfl, rfl⟩)
      · exact ihr hr.2.2 n hrr _ _ _ (fun _ => ⟨rfl, rfl⟩)

end Spine

namespace Holds
open RedBlackTree Shape Spine

variable {s : RedBlackTree} {k : Spine}

/-- Allocating a node leaves the tree as it is. -/
theorem new_holds {t : Shape} (hs : Holds s t) (value : Int) :
    Holds (new s value).1 t := by
  refine ⟨hs.root, hs.rep.frame ?_, hs.nodup, fun a ha => Nat.lt_succ_of_lt (hs.bound a ha)⟩
  intro a ha
  have := hs.bound a ha
  simp only [new]
  exact put_other _ _ (by omega)

/-- Hanging a freshly allocated node below a node without left child. -/
theorem attach_left {pa nx : Nat} {pc : Bool} {pv value : Int} {pr : Shape}
    (hs : Holds s (plug (Frame.L pa pc pv pr :: k) nil))
    (hx : s.heap nx = some (NodeT.mk1 value))
    (hfresh : nx ∉ (nil : Shape).addrs ++ Spine.addrs (Frame.L pa pc pv pr :: k))
    (hlt : nx < s.next) :
    ∃ h1 h2, setLeft s.heap (some pa) (some nx) = .ok h1 ∧
      setParent h1 (some nx) (some pa) = .ok h2 ∧
      Holds { s with heap := h2 }
        (plug (Frame.L pa pc pv pr :: k) (node nx false nil value nil)) := by
  have hsp := hs.rep_spine
  have hn := hs.nodup_split
  obtain ⟨ep, hsib, hk⟩ := hsp
  simp only [Shape.addrs_nil, Spine.addrs_cons, Frame.addrs, List.nil_append, List.cons_append,
    List.nodup_cons, List.mem_append, List.mem_cons, not_or, List.nodup_append] at hn hfresh
  have hne : nx ≠ pa := hfresh.1
  have hne2 : pa ≠ nx := fun e => hne e.symm
  have hx1 : put s.heap pa
      (some { data := pv, parent := par k, left := some nx, right := pr.ptr, isBlack := pc }) nx =
      some (NodeT.mk1 value) := by
    rw [put_other _ _ hne]; exact hx
  refine ⟨_, _, by simp only [setLeft]; exact wr_cell ep _,
    by simp only [setParent]; exact wr_cell hx1 _, ?_⟩
  refine of_split (k := Frame.L pa pc pv pr :: k) (t := node nx false nil value nil) ?_ ?_ ?_ ?_ ?_
  · exact hs.root.trans (ptr_plug_cons _ _ _ _)
  · exact ⟨by simp [put_apply, NodeT.mk1, Frame.addr], trivial, trivial⟩
  · refine ⟨by simp [put_apply, hne2], hsib.frame ?_, Spine.Rep.frame_spine hk ?_⟩
    · exact agree_put _ (agree_put _ (fun _ _ => rfl) (by simp only [hn, not_false_eq_true]))
        (by simp only [hfresh, not_false_eq_true])
    · exact agree_put _ (agree_put _ (fun _ _ => rfl) (by simp only [hn, not_false_eq_true]))
        (by simp only [hfresh, not_false_eq_true])
  · have := hs.nodup_split
    simp only [addrs_node, Shape.addrs_nil, List.append_nil, List.cons_append, List.nil_append,
      List.nodup_cons] at this ⊢
    exact ⟨by simpa [Frame.addrs] using hfresh, this⟩
  · intro a ha
    simp only [addrs_node, Shape.addrs_nil, List.append_nil, List.cons_append, List.nil_append,
      List.mem_cons] at ha
    rcases ha with rfl | ha
    · exact hlt
    · exact hs.bound_split a (by simpa using ha)

/-- Hanging a freshly allocated node below a node without right child. -/
theorem attach_right {pa nx : Nat} {pc : Bool} {pv value : Int} {pl : Shape}
    (hs : Holds s (plug (Frame.R pa pc pl pv :: k) nil))
    (hx : s.heap nx = some (NodeT.mk1 value))
    (hfresh : nx ∉ (nil : Shape).addrs ++ Spine.addrs (Frame.R pa pc pl pv :: k))
    (hlt : nx < s.next) :
    ∃ h1 h2, setRight s.heap (some pa) (some nx) = .ok h1 ∧
      setParent h1 (some nx) (some pa) = .ok h2 ∧
      Holds { s with heap := h2 }
        (plug (Frame.R pa pc pl pv :: k) (node nx false nil value nil)) := by
  have hsp := hs.rep_spine
  have hn := hs.nodup_split
  obtain ⟨ep, hsib, hk⟩ := hsp
  simp only [Shape.addrs_nil, Spine.addrs_cons, Frame.addrs, List.nil_append, List.cons_append,
    List.nodup_cons, List.mem_append, List.mem_cons, not_or, List.nodup_append] at hn hfresh
  have hne : nx ≠ pa := hfresh.1
  have hne2 : pa ≠ nx := fun e => hne e.symm
  have hx1 : put s.heap pa
      (some { data := pv, parent := par k, left := pl.ptr, right := some nx, isBlack := pc }) nx =
      some (NodeT.mk1 value) := by
    rw [put_other _ _ hne]; exact hx
  refine ⟨_, _, by simp only [setRight]; exact wr_cell ep _,
    by simp only [setParent]; exact wr_cell hx1 _, ?_⟩
  refine of_split (k := Frame.R pa pc pl pv :: k) (t := node nx false nil value nil) ?_ ?_ ?_ ?_ ?_
  · exact hs.root.trans (ptr_plug_cons _ _ _ _)
  · exact ⟨by simp [put_apply, NodeT.mk1, Frame.addr], trivial, trivial⟩
  · refine ⟨by simp [put_apply, hne2], hsib.frame ?_, Spine.Rep.frame_spine hk ?_⟩
    · exact agree_put _ (agree_put _ (fun _ _ => rfl) (by simp only [hn, not_false_eq_true]))
        (by simp only [hfresh, not_false_eq_true])
    · exact agree_put _ (agree_put _ (fun _ _ => rfl) (by simp only [hn, not_false_eq_true]))
        (by simp only [hfresh, not_false_eq_true])
  · have := hs.nodup_split
    simp only [addrs_node, Shape.addrs_nil, List.append_nil, List.cons_append, List.nil_append,
      List.nodup_cons] at this ⊢
    exact ⟨by simpa [Frame.addrs] using hfresh, this⟩
  · intro a ha
    simp only [addrs_node, Shape.addrs_nil, List.append_nil, List.cons_append, List.nil_append,
      List.mem_cons] at ha
    rcases ha with rfl | ha
    · exact hlt
    · exact hs.bound_split a (by simpa using ha)

end Holds

namespace Holds
open RedBlackTree Shape Spine

/-- The helper `btInsert` hangs a Red node holding the value at the null position
`descend` finds, and returns its address. -/
theorem btInsert_sim {s : RedBlackTree} {t : Shape} (hs : Holds s t) (value : Int) :
    ∃ s2, btInsert s value = .ok (s2, some s.next) ∧
      Holds s2 (plug (descend value t []) (node s.next false nil value nil)) ∧
      s2.next = s.next + 1 ∧ s2.currentSize = s.currentSize := by
  have hs1 := hs.new_holds value
  cases t with
  | nil =>
    have hroot : s.root = none := hs.root
    refine ⟨{ (new s value).1 with root := some s.next }, by simp [btInsert, new, hroot], ?_,
      rfl, rfl⟩
    refine ⟨rfl, ⟨by simp [new, NodeT.mk1], trivial, trivial⟩, by simp [descend], ?_⟩
    intro a ha
    simp only [descend, plug_nil, addrs_node, Shape.addrs_nil, List.append_nil,
      List.mem_singleton] at ha
    subst ha
    simp [new]
  | node a c l x r =>
    have hroot : s.root = some a := hs.root
    have hloop := btInsertLoop_rep hs1.rep value (s.next + 1) hs.height_lt [] (some a) true
      (fun e => by simp at e)
    have hlen := (length_descend value (node a c l x r) []).2.2 (by simp)
    have hpd := plug_descend value (node a c l x r) []
    have hx : (new s value).1.heap s.next = some (NodeT.mk1 value) := by simp [new]
    rcases hk : descend value (node a c l x r) [] with _ | ⟨f, k⟩
    · rw [hk] at hlen; simp at hlen
    · rw [hk] at hpd hloop
      have hs0 : Holds s (plug (f :: k) nil) := by rw [hpd]; exact hs
      have hs2 : Holds (new s value).1 (plug (f :: k) nil) := by rw [hpd]; exact hs1
      have hfresh : s.next ∉ (nil : Shape).addrs ++ Spine.addrs (f :: k) := by
        intro hmem
        have := hs0.bound_split _ hmem
        omega
      cases f with
      | L pa pc pv pr =>
        obtain ⟨h1, h2, w1, w2, hs3⟩ := hs2.attach_left hx hfresh (by simp [new])
        refine ⟨_, ?_, hs3, rfl, rfl⟩
        simp only [ptr_node, par_cons, Frame.addr, headIsLeft] at hloop
        simp only [new] at w1 w2 hloop
        simp [btInsert, new, hroot, hloop, w1, w2]
      | R pa pc pl pv =>
        obtain ⟨h1, h2, w1, w2, hs3⟩ := hs2.attach_right hx hfresh (by simp [new])
        refine ⟨_, ?_, hs3, rfl, rfl⟩
        simp only [ptr_node, par_cons, Frame.addr, headIsLeft] at hloop
        simp only [new] at w1 w2 hloop
        simp [btInsert, new, hroot, hloop, w1, w2]

end Holds

namespace Spine
open Shape

theorem plug_node (k : Spine) (a : Nat) (c : Bool) (l : Shape) (v : Int) (r : Shape) :
    ∃ a2 c2 l2 v2 r2, plug k (node a c l v r) = node a2 c2 l2 v2 r2 := by
  induction k generalizing a c l v r with
  | nil => exact ⟨_, _, _, _, _, rfl⟩
  | cons f k ih => cases f <;> exact ih _ _ _ _ _

theorem insStep_node {k k2 : Spine} {t2 : Shape} {n : Nat} {c : Bool} {l r : Shape} {v : Int}
    (h : insStep k (node n c l v r) = some (k2, t2)) :
    ∃ n2 c2 l2 v2 r2, t2 = node n2 c2 l2 v2 r2 := by
  rcases k with _ | ⟨f, _ | ⟨g, k⟩⟩
  · simp [insStep] at h
  · simp [insStep] at h
  · rcases g with ⟨ga, gc, gv, u⟩ | ⟨ga, gc, u, gv⟩ <;>
    rcases f with ⟨pa, _ | _, pv, pr⟩ | ⟨pa, _ | _, pl, pv⟩ <;>
    rcases u with _ | ⟨ua, _ | _, ul, uv, ur⟩ <;>
    simp only [insStep, Frame.isBlack, if_true, if_false, Option.some.injEq, Prod.mk.injEq,
      reduceCtorEq, Bool.false_eq_true] at h <;>
    obtain ⟨rfl, rfl⟩ := h <;> exact ⟨_, _, _, _, _, rfl⟩

theorem insLoop_node (fuel : Nat) (k : Spine) (n : Nat) (c : Bool) (l : Shape) (v : Int)
    (r : Shape) : ∃ a2 c2 l2 v2 r2, insLoop fuel k (node n c l v r) = node a2 c2 l2 v2 r2 := by
  induction fuel generalizing k n c l v r with
  | zero => exact plug_node k n c l v r
  | succ fuel ih =>
    simp only [insLoop]
    cases hstep : insStep k (node n c l v r) with
    | none => exact plug_node k n c l v r
    | some kt =>
      obtain ⟨k2, t2⟩ := kt
      obtain ⟨n2, c2, l2, v2, r2, rfl⟩ := insStep_node hstep
      exact ih k2 n2 c2 l2 v2 r2

end Spine

namespace Holds
open RedBlackTree Shape Spine

theorem with_size {s : RedBlackTree} {t : Shape} (hs : Holds s t) (z : Int) :
    Holds { s with currentSize := z } t :=
  ⟨hs.root, hs.rep, hs.nodup, hs.bound⟩

theorem search_eq {s : RedBlackTree} {t : Shape} (hs : Holds s t) (value : Int) :
    search s value = .ok (t.find value) := by
  have := searchLoop_rep hs.rep value (s.next + 1) hs.height_lt
  rw [← hs.root] at this
  exact this

/-- A call `insert(value)` for a value the descent of `search` finds: nothing happens. -/
theorem insert_found {s : RedBlackTree} {t : Shape} (hs : Holds s t) {value : Int}
    (hf : t.find value = true) : insert s value = .ok (false, s) := by
  simp [RedBlackTree.insert, hs.search_eq, hf]

/-- A call `insert(value)` for a value the descent of `search` does not find: the
call returns true and leaves the tree `insertAt` describes. -/
theorem insert_new {s : RedBlackTree} {t : Shape} (hs : Holds s t) {value : Int}
    (hf : t.find value = false) :
    ∃ s2, insert s value = .ok (true, s2) ∧ Holds s2 (t.insertAt value s.next) ∧
      s2.next = s.next + 1 ∧ s2.currentSize = s.currentSize + 1 := by
  obtain ⟨s1, e1, hs1, hn1, hc1⟩ := hs.btInsert_sim value
  have hlen := (length_descend value t []).2.1
  have hh := hs.height_lt
  obtain ⟨s2, e2, hs2, hn2, hc2⟩ := insertLoop_sim (s1.next + 1)
    ((descend value t []).length + 1) (hs1.with_size (s1.currentSize + 1))
    (by simp only [List.length_nil] at hlen; omega) (by omega)
  obtain ⟨a, c, l, v, r, hnode⟩ := insLoop_node ((descend value t []).length + 1)
    (descend value t []) s.next false nil value nil
  rw [hnode] at hs2
  have hroot : s2.root = some a := hs2.root
  obtain ⟨h3, w3, hs3, -⟩ := setIsBlack_focus (k := []) hs2 true
  refine ⟨{ s2 with heap := h3 }, ?_, ?_, hn2.trans hn1, ?_⟩
  · simp only [hroot.symm] at w3
    simp [RedBlackTree.insert, hs.search_eq, hf, e1, e2, w3]
  · simpa [insertAt, hnode, setRootBlack] using hs3
  · simp [hc2, hc1]

end Holds

namespace Spine
open Shape

theorem noRedRed_plug (k : Spine) (t : Shape) :
    (plug k t).NoRedRed ↔ t.NoRedRed ∧ NoRedRed k t.isBlackRoot := by
  induction k generalizing t with
  | nil => simp [NoRedRed]
  | cons f k ih =>
    cases f with
    | L a c v r =>
      simp only [plug_cons, ih, Frame.fill, Shape.NoRedRed, NoRedRed, isBlackRoot]; tauto
    | R a c l v =>
      simp only [plug_cons, ih, Frame.fill, Shape.NoRedRed, NoRedRed, isBlackRoot]; tauto

theorem balanced_plug (k : Spine) (t : Shape) :
    (plug k t).Balanced ↔ t.Balanced ∧ Balanced k t.bh := by
  induction k generalizing t with
  | nil => simp [Balanced]
  | cons f k ih =>
    cases f with
    | L a c v r =>
      simp only [plug_cons, ih, Frame.fill, Shape.Balanced, Balanced, bh]; tauto
    | R a c l v =>
      simp only [plug_cons, ih, Frame.fill, Shape.Balanced, Balanced, bh]; tauto

end Spine

namespace Shape

@[simp] theorem isBlackRoot_nil : isBlackRoot nil = true := rfl
@[simp] theorem isBlackRoot_node (a : Nat) (c : Bool) (l : Shape) (v : Int) (r : Shape) :
    isBlackRoot (node a c l v r) = c := rfl

end Shape

namespace Spine
open Shape

set_option maxHeartbeats 1000000 in
/-- One pass of the rebalancing loop keeps the loop invariant: everything is in
order, except that the node at the position may be a Red child of a Red parent. -/
theorem insStep_inv {k k2 : Spine} {t t2 : Shape} (h : insStep k t = some (k2, t2))
    (h0 : t.isBlackRoot = false) (h1 : t.NoRedRed) (h2 : NoRedRed k true) (h3 : t.Balanced) (h4 : Balanced k t.bh) :
    t2.isBlackRoot = false ∧ t2.NoRedRed ∧ NoRedRed k2 true ∧ t2.Balanced ∧
      Balanced k2 t2.bh := by
  rcases k with _ | ⟨f, _ | ⟨g, k⟩⟩
  · simp [insStep] at h
  · simp [insStep] at h
  · rcases g with ⟨ga, gc, gv, u⟩ | ⟨ga, gc, u, gv⟩ <;>
    rcases f with ⟨pa, _ | _, pv, pr⟩ | ⟨pa, _ | _, pl, pv⟩ <;>
    rcases u with _ | ⟨ua, _ | _, ul, uv, ur⟩ <;>
    rcases t with _ | ⟨n, c, l, v, r⟩ <;>
    simp only [insStep, Frame.isBlack, if_true, if_false, Option.some.injEq, Prod.mk.injEq,
      reduceCtorEq, Bool.false_eq_true] at h <;>
    obtain ⟨rfl, rfl⟩ := h <;>
    simp only [NoRedRed, Balanced, Shape.NoRedRed, Shape.Balanced, bh, isBlackRoot_nil,
      isBlackRoot_node, Bool.false_eq_true, if_false, if_true, true_and, and_true,
      forall_const, false_implies, add_zero, imp_false, Bool.not_eq_false, implies_true,
      reduceCtorEq, and_self] at h0 h1 h2 h3 h4 ⊢ <;>
    (try subst h0) <;>
    (try obtain rfl : gc = true := by tauto) <;>
    simp only [Bool.false_eq_true, if_false, if_true, true_and, and_true, forall_const,
      false_implies, add_zero, imp_false, Bool.not_eq_false, implies_true,
      reduceCtorEq, and_self] at h1 h2 h3 h4 ⊢ <;>
    casesm* _ ∧ _ <;>
    (repeat' apply And.intro) <;>
    first | tauto | omega

theorem insStep_none {f g : Frame} {k : Spine} {n : Nat} {c : Bool} {l r : Shape} {v : Int}
    (h : insStep (f :: g :: k) (node n c l v r) = none) : f.isBlack = true := by
  by_contra hb
  have hb : f.isBlack = false := by simpa using hb
  rcases g with ⟨ga, gc, gv, u⟩ | ⟨ga, gc, u, gv⟩ <;>
  rcases f with ⟨pa, pc, pv, pr⟩ | ⟨pa, pc, pl, pv⟩ <;>
  rcases u with _ | ⟨ua, _ | _, ul, uv, ur⟩ <;>
  simp [insStep, Frame.isBlack] at h hb <;> simp [hb] at h

theorem noRedRed_head_black {f : Frame} {k : Spine} (hf : f.isBlack = true) (hb : Bool)
    (h : NoRedRed (f :: k) true) : NoRedRed (f :: k) hb := by
  cases f with
  | L a c v r => simp only [Frame.isBlack] at hf; subst hf; simpa [NoRedRed] using h
  | R a c l v => simp only [Frame.isBlack] at hf; subst hf; simpa [NoRedRed] using h

end Spine

namespace Shape

theorem setRootBlack_noRedRed {t : Shape} (h : t.NoRedRed) : t.setRootBlack.NoRedRed := by
  cases t with
  | nil => trivial
  | node a c l v r => exact ⟨by simp, h.2⟩

theorem setRootBlack_balanced {t : Shape} (h : t.Balanced) : t.setRootBlack.Balanced := by
  cases t with
  | nil => trivial
  | node a c l v r => exact h

theorem isBlackRoot_setRootBlack (t : Shape) : t.setRootBlack.isBlackRoot = true := by
  cases t <;> rfl

theorem setRootBlack_values (t : Shape) : t.setRootBlack.values = t.values := by
  cases t <;> rfl

theorem setRootBlack_addrs (t : Shape) : t.setRootBlack.addrs = t.addrs := by
  cases t <;> rfl

theorem setRootBlack_height (t : Shape) : t.setRootBlack.height = t.height := by
  cases t <;> rfl

theorem setRootBlack_count (t : Shape) : t.setRootBlack.count = t.count := by
  cases t <;> rfl

end Shape

namespace Spine
open Shape

/-- When the rebalancing loop stops and the root is made Black, no Red node has a Red
child and the black-heights are uniform. -/
theorem insLoop_inv (fuel : Nat) : ∀ (k : Spine) (n : Nat) (l r : Shape) (v : Int),
    k.length < fuel → (node n false l v r).NoRedRed → NoRedRed k true →
    (node n false l v r).Balanced → Balanced k (node n false l v r).bh →
    (insLoop fuel k (node n false l v r)).setRootBlack.NoRedRed ∧
      (insLoop fuel k (node n false l v r)).setRootBlack.Balanced := by
  induction fuel with
  | zero => intro k n l r v h; omega
  | succ fuel ih =>
    intro k n l r v hf h1 h2 h3 h4
    simp only [insLoop]
    cases hstep : insStep k (node n false l v r) with
    | none =>
      simp only []
      refine ⟨?_, setRootBlack_balanced ((balanced_plug k _).2 ⟨h3, h4⟩)⟩
      rcases k with _ | ⟨f, _ | ⟨g, k⟩⟩
      · exact setRootBlack_noRedRed h1
      · cases f with
        | L a c v2 r2 =>
          simp only [NoRedRed] at h2
          exact ⟨by simp, h1, h2.2.1⟩
        | R a c l2 v2 =>
          simp only [NoRedRed] at h2
          exact ⟨by simp, h2.2.1, h1⟩
      · have hb := insStep_none hstep
        exact setRootBlack_noRedRed ((noRedRed_plug _ _).2 ⟨h1, noRedRed_head_black hb _ h2⟩)
    | some kt =>
      obtain ⟨k2, t2⟩ := kt
      obtain ⟨h0', h1', h2', h3', h4'⟩ := insStep_inv hstep rfl h1 h2 h3 h4
      obtain ⟨n2, c2, l2, v2, r2, rfl⟩ := insStep_node hstep
      simp only [isBlackRoot_node] at h0'
      subst h0'
      have hlen := insStep_length hstep
      exact ih k2 n2 l2 r2 v2 (by omega) h1' h2' h3' h4'

end Spine

namespace Shape

theorem bst_iff_sorted (t : Shape) : t.BST ↔ t.values.Pairwise (· < ·) := by
  induction t with
  | nil => simp [BST]
  | node a c l v r ihl ihr =>
    simp only [BST, values_node, List.pairwise_append, List.pairwise_cons, List.mem_cons,
      forall_eq_or_imp, ihl, ihr]
    constructor
    · rintro ⟨h1, h2, h3, h4⟩
      exact ⟨h3, ⟨h2, h4⟩, fun x hx => ⟨h1 x hx, fun y hy => lt_trans (h1 x hx) (h2 y hy)⟩⟩
    · rintro ⟨h3, ⟨h2, h4⟩, h5⟩
      exact ⟨fun x hx => (h5 x hx).1, h2, h3, h4⟩

/-- On a binary search tree the descent of `search` finds exactly the stored values. -/
theorem find_iff_mem {t : Shape} (h : t.BST) (value : Int) :
    t.find value = true ↔ value ∈ t.values := by
  induction t with
  | nil => simp [find]
  | node a c l v r ihl ihr =>
    obtain ⟨h1, h2, h3, h4⟩ := h
    simp only [find, values_node, List.mem_append, List.mem_cons]
    by_cases e : value = v
    · simp [e]
    · by_cases g : value > v
      · simp only [e, g, if_false, if_true, ihr h4, false_or]
        constructor
        · exact fun h => Or.inr h
        · rintro (h | h)
          · exact absurd (h1 _ h) (by omega)
          · exact h
      · simp only [e, g, if_false, ihl h3, false_or]
        constructor
        · exact fun h => Or.inl h
        · rintro (h | h)
          · exact h
          · exact absurd (h2 _ h) (by omega)

end Shape

namespace Spine
open Shape

theorem values_insStep {k k2 : Spine} {t t2 : Shape} (h : insStep k t = some (k2, t2)) :
    (plug k2 t2).values = (plug k t).values := by
  rcases k with _ | ⟨f, _ | ⟨g, k⟩⟩
  · simp [insStep] at h
  · simp [insStep] at h
  · rcases g with ⟨ga, gc, gv, u⟩ | ⟨ga, gc, u, gv⟩ <;>
    rcases f with ⟨pa, _ | _, pv, pr⟩ | ⟨pa, _ | _, pl, pv⟩ <;>
    rcases u with _ | ⟨ua, _ | _, ul, uv, ur⟩ <;>
    rcases t with _ | ⟨n, c, l, v, r⟩ <;>
    simp only [insStep, Frame.isBlack, if_true, if_false, Option.some.injEq, Prod.mk.injEq,
      reduceCtorEq, Bool.false_eq_true] at h <;>
    obtain ⟨rfl, rfl⟩ := h <;>
    simp [values_plug, before, after, Frame.fill]

theorem values_insLoop (fuel : Nat) (k : Spine) (t : Shape) :
    (insLoop fuel k t).values = (plug k t).values := by
  induction fuel generalizing k t with
  | zero => rfl
  | succ fuel ih =>
    simp only [insLoop]
    cases hstep : insStep k t with
    | none => rfl
    | some kt =>
      obtain ⟨k2, t2⟩ := kt
      simp only []
      rw [ih, values_insStep hstep]

theorem values_descend (value : Int) (t : Shape) :
    t.values = before (descend value t []) ++ after (descend value t []) := by
  have := values_plug (descend value t []) nil
  rw [plug_descend] at this
  simpa using this

theorem descend_bounds (value : Int) (t : Shape) (k : Spine) (hbst : t.BST)
    (hnot : value ∉ t.values) (hb : ∀ y ∈ before k, y < value)
    (ha : ∀ y ∈ after k, value < y) :
    (∀ y ∈ before (descend value t k), y < value) ∧
      (∀ y ∈ after (descend value t k), value < y) := by
  induction t generalizing k with
  | nil => exact ⟨hb, ha⟩
  | node a c l v r ihl ihr =>
    obtain ⟨h1, h2, h3, h4⟩ := hbst
    simp only [values_node, List.mem_append, List.mem_cons, not_or] at hnot
    simp only [descend]
    split
    · rename_i hlt
      refine ihl _ h3 hnot.1 (by simpa [before] using hb) ?_
      intro y hy
      simp only [after, List.cons_append, List.mem_cons, List.mem_append] at hy
      rcases hy with rfl | hy | hy
      · exact hlt
      · exact lt_trans hlt (h2 y hy)
      · exact ha y hy
    · rename_i hge
      have hlt : v < value := by
        have := hnot.2.1
        omega
      refine ihr _ h4 hnot.2.2 ?_ (by simpa [after] using ha)
      intro y hy
      simp only [before, List.mem_append, List.mem_singleton] at hy
      rcases hy with hy | hy | rfl
      · exact hb y hy
      · exact lt_trans (h1 y hy) hlt
      · exact hlt

end Spine

namespace Shape
open Spine

theorem orderedInsert_split (value : Int) (l1 l2 : List Int) (h1 : ∀ y ∈ l1, y < value)
    (h2 : ∀ y ∈ l2, value < y) :
    List.orderedInsert (· ≤ ·) value (l1 ++ l2) = l1 ++ value :: l2 := by
  induction l1 with
  | nil =>
    cases l2 with
    | nil => rfl
    | cons y l2 =>
      have := h2 y (by simp)
      simp [List.orderedInsert, le_of_lt this]
  | cons x l1 ih =>
    have hx := h1 x (by simp)
    have : ¬ value ≤ x := by omega
    have e := ih (fun y hy => h1 y (by simp [hy]))
    simp only [List.cons_append, List.orderedInsert, this, if_false]
    exact congrArg (x :: ·) e

/-- The values after `insert(value)`, whatever the tree. -/
theorem values_insertAt (t : Shape) (value : Int) (n : Nat) :
    (t.insertAt value n).values =
      before (descend value t []) ++ value :: after (descend value t []) := by
  simp [insertAt, setRootBlack_values, values_insLoop, values_plug]

/-- On a binary search tree that does not hold the value, `insert(value)` puts the
value at its sorted position. -/
theorem values_insertAt_bst {t : Shape} (hbst : t.BST) {value : Int}
    (hnot : value ∉ t.values) (n : Nat) :
    (t.insertAt value n).values = List.orderedInsert (· ≤ ·) value t.values := by
  obtain ⟨hb, ha⟩ := descend_bounds value t [] hbst hnot (by simp [before]) (by simp [after])
  rw [values_insertAt]
  conv_rhs => rw [values_descend value t]
  exact (orderedInsert_split value _ _ hb ha).symm

theorem bst_insertAt {t : Shape} (hbst : t.BST) {value : Int}
    (hnot : value ∉ t.values) (n : Nat) : (t.insertAt value n).BST := by
  obtain ⟨hb, ha⟩ := descend_bounds value t [] hbst hnot (by simp [before]) (by simp [after])
  have hs := (bst_iff_sorted t).1 hbst
  rw [values_descend value t, List.pairwise_append] at hs
  rw [bst_iff_sorted, values_insertAt, List.pairwise_append, List.pairwise_cons]
  refine ⟨hs.1, ⟨ha, hs.2.1⟩, ?_⟩
  intro x hx y hy
  simp only [List.mem_cons] at hy
  rcases hy with rfl | hy
  · exact hb x hx
  · exact hs.2.2 x hx y hy

theorem count_insertAt (t : Shape) (value : Int) (n : Nat) :
    (t.insertAt value n).count = t.count + 1 := by
  rw [count_eq_length_values, values_insertAt, count_eq_length_values t,
    values_descend value t]
  simp only [List.length_append, List.length_cons]
  omega

end Shape

namespace Shape
open Spine

/-- After `insert(value)` on a tree without Red-Red pair and with uniform
black-heights, both still hold and the root is Black. -/
theorem insertAt_colours {t : Shape} (h1 : t.NoRedRed) (h2 : t.Balanced) (value : Int)
    (n : Nat) : (t.insertAt value n).isBlackRoot = true ∧ (t.insertAt value n).NoRedRed ∧
      (t.insertAt value n).Balanced := by
  have hp := plug_descend value t []
  have h3 : (plug (descend value t []) nil).NoRedRed := by rw [hp]; exact h1
  have h4 : (plug (descend value t []) nil).Balanced := by rw [hp]; exact h2
  have h5 := ((noRedRed_plug _ _).1 h3).2
  have h6 := ((balanced_plug _ _).1 h4).2
  obtain ⟨h7, h8⟩ := insLoop_inv ((descend value t []).length + 1) (descend value t [])
    n nil nil value (by omega) (by simp [Shape.NoRedRed]) h5 (by simp [Shape.Balanced])
    (by simpa [bh] using h6)
  exact ⟨isBlackRoot_setRootBlack _, h7, h8⟩

theorem insertAt_redBlack {t : Shape} (h : t.RedBlack) {value : Int}
    (hnot : value ∉ t.values) (n : Nat) : (t.insertAt value n).RedBlack := by
  obtain ⟨h1, -, h3, h4⟩ := h
  obtain ⟨h5, h6, h7⟩ := insertAt_colours h3 h4 value n
  exact ⟨bst_insertAt h1 hnot n, h5, h6, h7⟩

theorem mem_insertAt (t : Shape) (value : Int) (n : Nat) (x : Int) :
    x ∈ (t.insertAt value n).values ↔ x = value ∨ x ∈ t.values := by
  rw [values_insertAt]
  conv_rhs => rw [values_descend value t]
  simp only [List.mem_append, List.mem_cons]
  tauto

end Shape

namespace Holds
open RedBlackTree Shape Spine

theorem empty_holds : Holds empty nil :=
  ⟨rfl, trivial, by simp, by simp⟩

/-- Inserting values that are pairwise distinct and not in the tree, one after the
other, into a red-black tree: every call succeeds and the result is a red-black
tree holding the old and the new values. -/
theorem insertAll_redBlack (vs : List Int) : ∀ {s : RedBlackTree} {t : Shape}, Holds s t →
    t.RedBlack → vs.Nodup → (∀ v ∈ vs, v ∉ t.values) →
    ∃ s2 t2, insertAll s vs = .ok s2 ∧ Holds s2 t2 ∧ t2.RedBlack ∧
      s2.currentSize = s.currentSize + vs.length ∧ t2.count = t.count + vs.length ∧
      ∀ x, x ∈ t2.values ↔ x ∈ vs ∨ x ∈ t.values := by
  induction vs with
  | nil =>
    intro s t hs ht _ _
    exact ⟨s, t, rfl, hs, ht, by simp, by simp, by simp⟩
  | cons v vs ih =>
    intro s t hs ht hnd hnot
    have hv : v ∉ t.values := hnot v (by simp)
    have hf : t.find v = false := by
      have := (find_iff_mem ht.1 v).not.2 hv
      simpa using this
    obtain ⟨s1, e1, hs1, -, hc1⟩ := hs.insert_new hf
    have ht1 := insertAt_redBlack ht hv s.next
    rw [List.nodup_cons] at hnd
    obtain ⟨s2, t2, e2, hs2, ht2, hc2, hn2, hm2⟩ := ih hs1 ht1 hnd.2 (by
      intro w hw
      rw [mem_insertAt]
      rintro (rfl | h)
      · exact hnd.1 hw
      · exact hnot w (by simp [hw]) h)
    refine ⟨s2, t2, by simp [insertAll, e1, e2], hs2, ht2, ?_, ?_, ?_⟩
    · rw [hc2, hc1]; simp only [List.length_cons]; push_cast; ring
    · rw [hn2, count_insertAt]; simp only [List.length_cons]; ring
    · intro x
      rw [hm2, mem_insertAt]
      simp only [List.mem_cons]
      tauto

end Holds

namespace Shape

theorem sublist_right (a : Nat) (c : Bool) (l : Shape) (v : Int) (r : Shape) (K : List Nat) :
    (r.addrs ++ K).Sublist ((node a c l v r).addrs ++ K) := by
  simp only [addrs_node, List.cons_append, List.append_assoc]
  exact (List.sublist_append_right _ _).trans (List.sublist_cons_self _ _)

theorem sublist_left (a : Nat) (c : Bool) (l : Shape) (v : Int) (r : Shape) (K : List Nat) :
    (l.addrs ++ K).Sublist ((node a c l v r).addrs ++ K) := by
  simp only [addrs_node, List.cons_append, List.append_assoc]
  refine List.Sublist.trans ?_ (List.sublist_cons_self _ _)
  exact List.Sublist.append (List.Sublist.refl _) (List.sublist_append_right _ _)

end Shape

namespace Holds
open RedBlackTree Shape Spine

variable {s : RedBlackTree} {k : Spine}

set_option maxHeartbeats 1000000 in
/-- The unlinking statements of `remove` at a node without left child. -/
theorem unlink_focus_right {a : Nat} {c : Bool} {v : Int} {C : Shape}
    (hs : Holds s (plug k (node a c nil v C))) :
    ∃ s2, unlink s (some a) = .ok (s2, Shape.ptr C) ∧
      Holds s2 (plug k C) ∧
      s2.next = s.next ∧ s2.currentSize = s.currentSize ∧
      SameOutside (plug k C).addrs s2.heap s.heap := by
  have hsub := hs.rep_sub
  have hsp := hs.rep_spine
  have hn := hs.nodup_split
  have hroot := hs.root
  have hnd2 : (Shape.addrs C ++ Spine.addrs k).Nodup :=
    hs.nodup_split.sublist (sublist_right _ _ _ _ _ _)
  have hbd2 : ∀ z ∈ Shape.addrs C ++ Spine.addrs k, z < s.next :=
    fun z hz => hs.bound_split z ((sublist_right _ _ _ _ _ _).subset hz)
  have hout : ∀ z, z ∉ (plug k C).addrs →
      z ∉ Shape.addrs C ++ Spine.addrs k :=
    fun z hz hz2 => hz ((addrs_plug_perm k _).mem_iff.2 hz2)
  generalize (plug k C).addrs = S at hout ⊢
  obtain ⟨ea, -, hC⟩ := hsub
  cases C with
  | nil =>
    cases k with
    | nil =>
      simp only [addrs_node, List.cons_append, List.nodup_cons, List.mem_append, not_or,
        List.nodup_append, List.mem_cons, List.append_assoc, List.disjoint_cons_right,
        List.disjoint_cons_left, List.disjoint_append_right, List.disjoint_append_left,
        Shape.addrs_nil, Spine.spine_addrs_nil, Spine.addrs_cons, Frame.addrs, List.nil_append,
        List.append_nil, List.not_mem_nil, not_false_eq_true, List.nodup_nil,
        List.disjoint_nil_left, List.disjoint_nil_right, true_and, and_true] at hn hout

      simp [unlink, RedBlackTree.getLeft, RedBlackTree.getRight, RedBlackTree.getParent, setLeft,
        setRight, setParent, rd, wr,
        put_apply, ea, Frame.fill, Frame.addr]
      refine ⟨?_, ?_⟩
      · exact of_split (k := []) (t := nil) (rfl) trivial trivial hnd2 hbd2
      · intro z hz
        have hz2 := hout z hz
        simp only [put_apply, hz2, if_false]

    | cons f k =>
      cases f with
      | L p cp vp sib =>
      obtain ⟨ep, hsib, hk⟩ := hsp
      simp only [addrs_node, List.cons_append, List.nodup_cons, List.mem_append, not_or,
        List.nodup_append, List.mem_cons, List.append_assoc, List.disjoint_cons_right,
        List.disjoint_cons_left, List.disjoint_append_right, List.disjoint_append_left,
        Shape.addrs_nil, Spine.spine_addrs_nil, Spine.addrs_cons, Frame.addrs, List.nil_append,
        List.append_nil, List.not_mem_nil, not_false_eq_true, List.nodup_nil,
        List.disjoint_nil_left, List.disjoint_nil_right, true_and, and_true] at hn hout
      have hap : a ≠ p := by
        simp only [ne_eq, hn, not_false_eq_true]
      have hpa : p ≠ a := fun e => hap e.symm
      simp [unlink, RedBlackTree.getLeft, RedBlackTree.getRight, RedBlackTree.getParent, setLeft,
        setRight, setParent, rd, wr,
        put_apply, ea, ep, Frame.fill, Frame.addr, hap, hpa]
      refine ⟨?_, ?_⟩
      · exact of_split (k := Frame.L p cp vp sib :: k) (t := nil) (hroot.trans (ptr_plug_cons _ _ _ _)) trivial ⟨by simp [put_apply, Frame.addr, hap, hpa], hsib.frame (by repeat (first | exact fun _ _ => rfl | refine agree_put _ ?_ (by simp only [hn, not_false_eq_true]))), Spine.Rep.frame_spine hk (by repeat (first | exact fun _ _ => rfl | refine agree_put _ ?_ (by simp only [hn, not_false_eq_true])))⟩ hnd2 hbd2
      · intro z hz
        have hz2 := hout z hz
        simp only [put_apply, hz2, if_false]

      | R p cp sib vp =>
      obtain ⟨ep, hsib, hk⟩ := hsp
      simp only [addrs_node, List.cons_append, List.nodup_cons, List.mem_append, not_or,
        List.nodup_append, List.mem_cons, List.append_assoc, List.disjoint_cons_right,
        List.disjoint_cons_left, List.disjoint_append_right, List.disjoint_append_left,
        Shape.addrs_nil, Spine.spine_addrs_nil, Spine.addrs_cons, Frame.addrs, List.nil_append,
        List.append_nil, List.not_mem_nil, not_false_eq_true, List.nodup_nil,
        List.disjoint_nil_left, List.disjoint_nil_right, true_and, and_true] at hn hout
      have hap : a ≠ p := by
        simp only [ne_eq, hn, not_false_eq_true]
      have hpa : p ≠ a := fun e => hap e.symm
      have hsx : ¬ some a = sib.ptr := fun e =>
        ptr_ne_of_not_mem (t := sib) (a := a) (by simp only [hn, not_false_eq_true]) e.symm
      simp [unlink, RedBlackTree.getLeft, RedBlackTree.getRight, RedBlackTree.getParent, setLeft,
        setRight, setParent, rd, wr,
        put_apply, ea, ep, Frame.fill, Frame.addr, hsx, hap, hpa]
      refine ⟨?_, ?_⟩
      · exact of_split (k := Frame.R p cp sib vp :: k) (t := nil) (hroot.trans (ptr_plug_cons _ _ _ _)) trivial ⟨by simp [put_apply, Frame.addr, hap, hpa], hsib.frame (by repeat (first | exact fun _ _ => rfl | refine agree_put _ ?_ (by simp only [hn, not_false_eq_true]))), Spine.Rep.frame_spine hk (by repeat (first | exact fun _ _ => rfl | refine agree_put _ ?_ (by simp only [hn, not_false_eq_true])))⟩ hnd2 hbd2
      · intro z hz
        have hz2 := hout z hz
        simp only [put_apply, hz2, if_false]

  | node b cb βl vb βr =>
    cases k with
    | nil =>
      obtain ⟨eb, hβl, hβr⟩ := hC
      simp only [addrs_node, List.cons_append, List.nodup_cons, List.mem_append, not_or,
        List.nodup_append, List.mem_cons, List.append_assoc, List.disjoint_cons_right,
        List.disjoint_cons_left, List.disjoint_append_right, List.disjoint_append_left,
        Shape.addrs_nil, Spine.spine_addrs_nil, Spine.addrs_cons, Frame.addrs, List.nil_append,
        List.append_nil, List.not_mem_nil, not_false_eq_true, List.nodup_nil,
        List.disjoint_nil_left, List.disjoint_nil_right, true_and, and_true] at hn hout
      have hab : a ≠ b := by
        simp only [ne_eq, hn, not_false_eq_true]
      have hba : b ≠ a := fun e => hab e.symm
      simp [unlink, RedBlackTree.getLeft, RedBlackTree.getRight, RedBlackTree.getParent, setLeft,
        setRight, setParent, rd, wr,
        put_apply, ea, eb, Frame.fill, Frame.addr, hab, hba]
      refine ⟨?_, ?_⟩
      · exact of_split (k := []) (t := node b cb βl vb βr) (rfl) ⟨by simp [put_apply, Frame.addr, hab, hba], hβl.frame (by repeat (first | exact fun _ _ => rfl | refine agree_put _ ?_ (by simp only [hn, not_false_eq_true]))), hβr.frame (by repeat (first | exact fun _ _ => rfl | refine agree_put _ ?_ (by simp only [hn, not_false_eq_true])))⟩ trivial hnd2 hbd2
      · intro z hz
        have hz2 := hout z hz
        simp only [put_apply, hz2, if_false]

    | cons f k =>
      cases f with
      | L p cp vp sib =>
      obtain ⟨ep, hsib, hk⟩ := hsp
      obtain ⟨eb, hβl, hβr⟩ := hC
      simp only [addrs_node, List.cons_append, List.nodup_cons, List.mem_append, not_or,
        List.nodup_append, List.mem_cons, List.append_assoc, List.disjoint_cons_right,
        List.disjoint_cons_left, List.disjoint_append_right, List.disjoint_append_left,
        Shape.addrs_nil, Spine.spine_addrs_nil, Spine.addrs_cons, Frame.addrs, List.nil_append,
        List.append_nil, List.not_mem_nil, not_false_eq_true, List.nodup_nil,
        List.disjoint_nil_left, List.disjoint_nil_right, true_and, and_true] at hn hout
      have hab : a ≠ b := by
        simp only [ne_eq, hn, not_false_eq_true]
      have hba : b ≠ a := fun e => hab e.symm
      have hap : a ≠ p := by
        simp only [ne_eq, hn, not_false_eq_true]
      have hpa : p ≠ a := fun e => hap e.symm
      have hbp : b ≠ p := by
        simp only [ne_eq, hn, not_false_eq_true]
      have hpb : p ≠ b := fun e => hbp e.symm
      simp [unlink, RedBlackTree.getLeft, RedBlackTree.getRight, RedBlackTree.getParent, setLeft,
        setRight, setParent, rd, wr,
        put_apply, ea, eb, ep, Frame.fill, Frame.addr, hab, hba, hap, hpa, hbp, hpb]
      refine ⟨?_, ?_⟩
      · exact of_split (k := Frame.L p cp vp sib :: k) (t := node b cb βl vb βr) (hroot.trans (ptr_plug_cons _ _ _ _)) ⟨by simp [put_apply, Frame.addr, hab, hba, hap, hpa, hbp, hpb], hβl.frame (by repeat (first | exact fun _ _ => rfl | refine agree_put _ ?_ (by simp only [hn, not_false_eq_true]))), hβr.frame (by repeat (first | exact fun _ _ => rfl | refine agree_put _ ?_ (by simp only [hn, not_false_eq_true])))⟩ ⟨by simp [put_apply, Frame.addr, hab, hba, hap, hpa, hbp, hpb], hsib.frame (by repeat (first | exact fun _ _ => rfl | refine agree_put _ ?_ (by simp only [hn, not_false_eq_true]))), Spine.Rep.frame_spine hk (by repeat (first | exact fun _ _ => rfl | refine agree_put _ ?_ (by simp only [hn, not_false_eq_true])))⟩ hnd2 hbd2
      · intro z hz
        have hz2 := hout z hz
        simp only [put_apply, hz2, if_false]

      | R p cp sib vp =>
      obtain ⟨ep, hsib, hk⟩ := hsp
      obtain ⟨eb, hβl, hβr⟩ := hC
      simp only [addrs_node, List.cons_append, List.nodup_cons, List.mem_append, not_or,
        List.nodup_append, List.mem_cons, List.append_assoc, List.disjoint_cons_right,
        List.disjoint_cons_left, List.disjoint_append_right, List.disjoint_append_left,
        Shape.addrs_nil, Spine.spine_addrs_nil, Spine.addrs_cons, Frame.addrs, List.nil_append,
        List.append_nil, List.not_mem_nil, not_false_eq_true, List.nodup_nil,
        List.disjoint_nil_left, List.disjoint_nil_right, true_and, and_true] at hn hout
      have hab : a ≠ b := by
        simp only [ne_eq, hn, not_false_eq_true]
      have hba : b ≠ a := fun e => hab e.symm
      have hap : a ≠ p := by
        simp only [ne_eq, hn, not_false_eq_true]
      have hpa : p ≠ a := fun e => hap e.symm
      have hbp : b ≠ p := by
        simp only [ne_eq, hn, not_false_eq_true]
      have hpb : p ≠ b := fun e => hbp e.symm
      have hsx : ¬ some a = sib.ptr := fun e =>
        ptr_ne_of_not_mem (t := sib) (a := a) (by simp only [hn, not_false_eq_true]) e.symm
      simp [unlink, RedBlackTree.getLeft, RedBlackTree.getRight, RedBlackTree.getParent, setLeft,
        setRight, setParent, rd, wr,
        put_apply, ea, eb, ep, Frame.fill, Frame.addr, hsx, hab, hba, hap, hpa, hbp, hpb]
      refine ⟨?_, ?_⟩
      · exact of_split (k := Frame.R p cp sib vp :: k) (t := node b cb βl vb βr) (hroot.trans (ptr_plug_cons _ _ _ _)) ⟨by simp [put_apply, Frame.addr, hab, hba, hap, hpa, hbp, hpb], hβl.frame (by repeat (first | exact fun _ _ => rfl | refine agree_put _ ?_ (by simp only [hn, not_false_eq_true]))), hβr.frame (by repeat (first | exact fun _ _ => rfl | refine agree_put _ ?_ (by simp only [hn, not_false_eq_true])))⟩ ⟨by simp [put_apply, Frame.addr, hab, hba, hap, hpa, hbp, hpb], hsib.frame (by repeat (first | exact fun _ _ => rfl | refine agree_put _ ?_ (by simp only [hn, not_false_eq_true]))), Spine.Rep.frame_spine hk (by repeat (first | exact fun _ _ => rfl | refine agree_put _ ?_ (by simp only [hn, not_false_eq_true])))⟩ hnd2 hbd2
      · intro z hz
        have hz2 := hout z hz
        simp only [put_apply, hz2, if_false]

set_option maxHeartbeats 1000000 in
/-- The unlinking statements of `remove` at a node with a left child and no right child. -/
theorem unlink_focus_left {a : Nat} {c : Bool} {v : Int} {b : Nat} {cb : Bool} {βl βr : Shape} {vb : Int}
    (hs : Holds s (plug k (node a c (node b cb βl vb βr) v nil))) :
    ∃ s2, unlink s (some a) = .ok (s2, Shape.ptr (node b cb βl vb βr)) ∧
      Holds s2 (plug k (node b cb βl vb βr)) ∧
      s2.next = s.next ∧ s2.currentSize = s.currentSize ∧
      SameOutside (plug k (node b cb βl vb βr)).addrs s2.heap s.heap := by
  have hsub := hs.rep_sub
  have hsp := hs.rep_spine
  have hn := hs.nodup_split
  have hroot := hs.root
  have hnd2 : (Shape.addrs (node b cb βl vb βr) ++ Spine.addrs k).Nodup :=
    hs.nodup_split.sublist (sublist_left _ _ _ _ _ _)
  have hbd2 : ∀ z ∈ Shape.addrs (node b cb βl vb βr) ++ Spine.addrs k, z < s.next :=
    fun z hz => hs.bound_split z ((sublist_left _ _ _ _ _ _).subset hz)
  have hout : ∀ z, z ∉ (plug k (node b cb βl vb βr)).addrs →
      z ∉ Shape.addrs (node b cb βl vb βr) ++ Spine.addrs k :=
    fun z hz hz2 => hz ((addrs_plug_perm k _).mem_iff.2 hz2)
  generalize (plug k (node b cb βl vb βr)).addrs = S at hout ⊢
  obtain ⟨ea, hC, -⟩ := hsub
  cases k with
  | nil =>
      obtain ⟨eb, hβl, hβr⟩ := hC
      simp only [addrs_node, List.cons_append, List.nodup_cons, List.mem_append, not_or,
        List.nodup_append, List.mem_cons, List.append_assoc, List.disjoint_cons_right,
        List.disjoint_cons_left, List.disjoint_append_right, List.disjoint_append_left,
        Shape.addrs_nil, Spine.spine_addrs_nil, Spine.addrs_cons, Frame.addrs, List.nil_append,
        List.append_nil, List.not_mem_nil, not_false_eq_true, List.nodup_nil,
        List.disjoint_nil_left, List.disjoint_nil_right, true_and, and_true] at hn hout
      have hab : a ≠ b := by
        simp only [ne_eq, hn, not_false_eq_true]
      have hba : b ≠ a := fun e => hab e.symm
      simp [unlink, RedBlackTree.getLeft, RedBlackTree.getRight, RedBlackTree.getParent, setLeft,
        setRight, setParent, rd, wr,
        put_apply, ea, eb, Frame.fill, Frame.addr, hab, hba]
      refine ⟨?_, ?_⟩
      · exact of_split (k := []) (t := node b cb βl vb βr) (rfl) ⟨by simp [put_apply, Frame.addr, hab, hba], hβl.frame (by repeat (first | exact fun _ _ => rfl | refine agree_put _ ?_ (by simp only [hn, not_false_eq_true]))), hβr.frame (by repeat (first | exact fun _ _ => rfl | refine agree_put _ ?_ (by simp only [hn, not_false_eq_true])))⟩ trivial hnd2 hbd2
      · intro z hz
        have hz2 := hout z hz
        simp only [put_apply, hz2, if_false]

  | cons f k =>
    cases f with
    | L p cp vp sib =>
      obtain ⟨ep, hsib, hk⟩ := hsp
      obtain ⟨eb, hβl, hβr⟩ := hC
      simp only [addrs_node, List.cons_append, List.nodup_cons, List.mem_append, not_or,
        List.nodup_append, List.mem_cons, List.append_assoc, List.disjoint_cons_right,
        List.disjoint_cons_left, List.disjoint_append_right, List.disjoint_append_left,
        Shape.addrs_nil, Spine.spine_addrs_nil, Spine.addrs_cons, Frame.addrs, List.nil_append,
        List.append_nil, List.not_mem_nil, not_false_eq_true, List.nodup_nil,
        List.disjoint_nil_left, List.disjoint_nil_right, true_and, and_true] at hn hout
      have hab : a ≠ b := by
        simp only [ne_eq, hn, not_false_eq_true]
      have hba : b ≠ a := fun e => hab e.symm
      have hap : a ≠ p := by
        simp only [ne_eq, hn, not_false_eq_true]
      have hpa : p ≠ a := fun e => hap e.symm
      have hbp : b ≠ p := by
        simp only [ne_eq, hn, not_false_eq_true]
      have hpb : p ≠ b := fun e => hbp e.symm
      simp [unlink, RedBlackTree.getLeft, RedBlackTree.getRight, RedBlackTree.getParent, setLeft,
        setRight, setParent, rd, wr,
        put_apply, ea, eb, ep, Frame.fill, Frame.addr, hab, hba, hap, hpa, hbp, hpb]
      refine ⟨?_, ?_⟩
      · exact of_split (k := Frame.L p cp vp sib :: k) (t := node b cb βl vb βr) (hroot.trans (ptr_plug_cons _ _ _ _)) ⟨by simp [put_apply, Frame.addr, hab, hba, hap, hpa, hbp, hpb], hβl.frame (by repeat (first | exact fun _ _ => rfl | refine agree_put _ ?_ (by simp only [hn, not_false_eq_true]))), hβr.frame (by repeat (first | exact fun _ _ => rfl | refine agree_put _ ?_ (by simp only [hn, not_false_eq_true])))⟩ ⟨by simp [put_apply, Frame.addr, hab, hba, hap, hpa, hbp, hpb], hsib.frame (by repeat (first | exact fun _ _ => rfl | refine agree_put _ ?_ (by simp only [hn, not_false_eq_true]))), Spine.Rep.frame_spine hk (by repeat (first | exact fun _ _ => rfl | refine agree_put _ ?_ (by simp only [hn, not_false_eq_true])))⟩ hnd2 hbd2
      · intro z hz
        have hz2 := hout z hz
        simp only [put_apply, hz2, if_false]

    | R p cp sib vp =>
      obtain ⟨ep, hsib, hk⟩ := hsp
      obtain ⟨eb, hβl, hβr⟩ := hC
      simp only [addrs_node, List.cons_append, List.nodup_cons, List.mem_append, not_or,
        List.nodup_append, List.mem_cons, List.append_assoc, List.disjoint_cons_right,
        List.disjoint_cons_left, List.disjoint_append_right, List.disjoint_append_left,
        Shape.addrs_nil, Spine.spine_addrs_nil, Spine.addrs_cons, Frame.addrs, List.nil_append,
        List.append_nil, List.not_mem_nil, not_false_eq_true, List.nodup_nil,
        List.disjoint_nil_left, List.disjoint_nil_right, true_and, and_true] at hn hout
      have hab : a ≠ b := by
        simp only [ne_eq, hn, not_false_eq_true]
      have hba : b ≠ a := fun e => hab e.symm
      have hap : a ≠ p := by
        simp only [ne_eq, hn, not_false_eq_true]
      have hpa : p ≠ a := fun e => hap e.symm
      have hbp : b ≠ p := by
        simp only [ne_eq, hn, not_false_eq_true]
      have hpb : p ≠ b := fun e => hbp e.symm
      have hsx : ¬ some a = sib.ptr := fun e =>
        ptr_ne_of_not_mem (t := sib) (a := a) (by simp only [hn, not_false_eq_true]) e.symm
      simp [unlink, RedBlackTree.getLeft, RedBlackTree.getRight, RedBlackTree.getParent, setLeft,
        setRight, setParent, rd, wr,
        put_apply, ea, eb, ep, Frame.fill, Frame.addr, hsx, hab, hba, hap, hpa, hbp, hpb]
      refine ⟨?_, ?_⟩
      · exact of_split (k := Frame.R p cp sib vp :: k) (t := node b cb βl vb βr) (hroot.trans (ptr_plug_cons _ _ _ _)) ⟨by simp [put_apply, Frame.addr, hab, hba, hap, hpa, hbp, hpb], hβl.frame (by repeat (first | exact fun _ _ => rfl | refine agree_put _ ?_ (by simp only [hn, not_false_eq_true]))), hβr.frame (by repeat (first | exact fun _ _ => rfl | refine agree_put _ ?_ (by simp only [hn, not_false_eq_true])))⟩ ⟨by simp [put_apply, Frame.addr, hab, hba, hap, hpa, hbp, hpb], hsib.frame (by repeat (first | exact fun _ _ => rfl | refine agree_put _ ?_ (by simp only [hn, not_false_eq_true]))), Spine.Rep.frame_spine hk (by repeat (first | exact fun _ _ => rfl | refine agree_put _ ?_ (by simp only [hn, not_false_eq_true])))⟩ hnd2 hbd2
      · intro z hz
        have hz2 := hout z hz
        simp only [put_apply, hz2, if_false]

end Holds

namespace Spine
open Shape RedBlackTree

theorem locate_of_find {value : Int} {t : Shape} (h : t.find value = true) (k : Spine) :
    ∃ k2 a c l r, locate value t k = some (k2, node a c l value r) ∧
      plug k2 (node a c l value r) = plug k t := by
  induction t generalizing k with
  | nil => simp [find] at h
  | node a c l v r ihl ihr =>
    simp only [find] at h
    simp only [locate]
    by_cases e : value = v
    · subst e
      exact ⟨k, a, c, l, r, by simp, rfl⟩
    · by_cases g : value > v
      · simp only [e, g, if_false, if_true] at h ⊢
        obtain ⟨k2, a2, c2, l2, r2, h1, h2⟩ := ihr h (Frame.R a c l v :: k)
        exact ⟨k2, a2, c2, l2, r2, h1, h2⟩
      · simp only [e, g, if_false] at h ⊢
        obtain ⟨k2, a2, c2, l2, r2, h1, h2⟩ := ihl h (Frame.L a c v r :: k)
        exact ⟨k2, a2, c2, l2, r2, h1, h2⟩

/-- The loop of `findNode` ends at the node `locate` finds. -/
theorem findNode_rep {h : Heap} {t : Shape} {q : Option Nat} (hr : Shape.Rep h t q)
    (value : Int) (fuel : Nat) (hf : t.height < fuel) (k : Spine) {k2 : Spine} {t2 : Shape}
    (hl : locate value t k = some (k2, t2)) :
    findNode fuel h value t.ptr = .ok t2.ptr := by
  induction t generalizing fuel q k with
  | nil => simp [locate] at hl
  | node a c l v r ihl ihr =>
    cases fuel with
    | zero => omega
    | succ n =>
      simp only [height] at hf
      have hl1 : l.height < n := by omega
      have hr1 : r.height < n := by omega
      simp only [locate] at hl
      simp only [findNode, ptr_node, hr.cellData, hr.cellLeft, hr.cellRight, ok_bind, ne_eq,
        not_false_eq_true, if_true, reduceCtorEq]
      by_cases e : value = v
      · simp only [e, if_true, Option.some.injEq, Prod.mk.injEq] at hl ⊢
        obtain ⟨-, rfl⟩ := hl
        rfl
      · by_cases g : value > v
        · simp only [e, g, if_false, if_true] at hl ⊢
          exact ihr hr.2.2 n hr1 _ hl
        · simp only [e, g, if_false] at hl ⊢
          exact ihl hr.2.1 n hl1 _ hl

theorem leftmost_spec (t : Shape) (k : Spine) :
    plug (leftmost t k).1 (leftmost t k).2 = plug k t ∧
      (leftmost t k).1 = (leftmost t []).1 ++ k ∧ (leftmost t k).2 = (leftmost t []).2 ∧
      (t ≠ nil → ∃ a c v r, (leftmost t k).2 = node a c nil v r) := by
  induction t generalizing k with
  | nil => simp [leftmost]
  | node a c l v r ihl _ =>
    cases l with
    | nil => exact ⟨rfl, by simp [leftmost], rfl, fun _ => ⟨a, c, v, r, rfl⟩⟩
    | node b cb bl bv br =>
      simp only [leftmost]
      obtain ⟨h1, h2, h3, h4⟩ := ihl (Frame.L a c v r :: k)
      obtain ⟨-, h5, h6, -⟩ := ihl [Frame.L a c v r]
      refine ⟨h1, ?_, ?_, fun _ => h4 (by simp)⟩
      · rw [h2, h5]; simp
      · rw [h3, h6]

/-- The loop of `getSuccessor` ends at the node `leftmost` finds. -/
theorem getSuccessorLoop_rep {h : Heap} {t : Shape} {q : Option Nat} (hr : Shape.Rep h t q)
    (fuel : Nat) (hf : t.height ≤ fuel) (hne : t ≠ nil) (sp : Option Nat) :
    ∃ sp2, getSuccessorLoop fuel h t.ptr sp = .ok ((leftmost t []).2.ptr, sp2) := by
  induction t generalizing fuel q sp with
  | nil => exact absurd rfl hne
  | node a c l v r ihl _ =>
    cases fuel with
    | zero => simp [height] at hf
    | succ n =>
      simp only [height] at hf
      cases l with
      | nil =>
        exact ⟨sp, by simp [getSuccessorLoop, hr.cellLeft, leftmost]⟩
      | node b cb bl bv br =>
        obtain ⟨sp2, e⟩ := ihl hr.2.1 n (by omega) (by simp) (some a)
        refine ⟨sp2, ?_⟩
        have h3 := (leftmost_spec (node b cb bl bv br) [Frame.L a c v r]).2.2.1
        simp only [getSuccessorLoop, ptr_node, hr.cellLeft, ok_bind, ne_eq, reduceCtorEq,
          not_false_eq_true, if_true, leftmost, h3]
        simpa using e

end Spine

namespace RedBlackTree

theorem getData_cell {h : Heap} {a : Nat} {n : NodeT} (e : h a = some n) :
    getData h (some a) = .ok n.data := by
  simp [getData, rd_cell e]

theorem getIsBlack_cell {h : Heap} {a : Nat} {n : NodeT} (e : h a = some n) :
    getIsBlack h (some a) = .ok n.isBlack := by
  simp [getIsBlack, rd_cell e]

end RedBlackTree

namespace Holds
open RedBlackTree Shape Spine

variable {s : RedBlackTree} {k : Spine}

/-- Overwriting the value of the node at a position. -/
theorem setData_focus {a : Nat} {c : Bool} {l r : Shape} {v : Int}
    (hs : Holds s (plug k (node a c l v r))) (w : Int) :
    ∃ h2, setData s.heap (some a) w = .ok h2 ∧
      Holds { s with heap := h2 } (plug k (node a c l w r)) ∧
      ∀ x, x ∉ (plug k (node a c l v r)).addrs → h2 x = s.heap x := by
  have hsub := hs.rep_sub
  have hsp := hs.rep_spine
  have hn := hs.nodup_split
  obtain ⟨e, hl, hr⟩ := hsub
  refine ⟨_, by simp only [setData]; exact wr_cell e _, ?_, ?_⟩
  · simp only [addrs_node, List.cons_append, List.nodup_cons, List.mem_append, not_or,
      List.nodup_append] at hn
    refine of_split (k := k) (t := node a c l w r) ?_ ⟨by simp, ?_, ?_⟩ ?_ ?_ ?_
    · exact hs.root.trans (ptr_plug_congr k rfl)
    · exact hl.frame (agree_put _ (fun _ _ => rfl) hn.1.1.1)
    · exact hr.frame (agree_put _ (fun _ _ => rfl) hn.1.1.2)
    · exact Spine.Rep.frame_spine hsp (agree_put _ (fun _ _ => rfl) hn.1.2)
    · exact hs.nodup_split
    · exact hs.bound_split
  · intro x hx
    have : x ≠ a := by
      rintro rfl
      exact hx ((addrs_plug_perm k _).mem_iff.2 (by simp))
    simp [put, this]

/-- The helper `fix` on a Red node: the loop is not entered, the node becomes Black. -/
theorem fix_red {b : Nat} {l r : Shape} {v : Int}
    (hs : Holds s (plug k (node b false l v r))) :
    ∃ s2, fix s (some b) = .ok s2 ∧ Holds s2 (plug k (node b true l v r)) ∧
      s2.next = s.next ∧ s2.currentSize = s.currentSize ∧
      ∀ x, x ∉ (plug k (node b false l v r)).addrs → s2.heap x = s.heap x := by
  obtain ⟨h2, w, hs2, ho⟩ := hs.setIsBlack_focus true
  refine ⟨{ s with heap := h2 }, ?_, hs2, rfl, rfl, ho⟩
  have e := hs.getIsBlack
  by_cases hr : some b = s.root
  · simp [fix, fixLoop, e, hr, w]
    simp [← hr, w]
  · simp [fix, fixLoop, e, hr, w]

/-- Freeing a cell that is not part of the tree. -/
theorem free_holds {t : Shape} (hs : Holds s t) {a : Nat} (ha : a ∉ t.addrs) :
    Holds { s with heap := put s.heap a none } t := by
  refine ⟨hs.root, hs.rep.frame ?_, hs.nodup, hs.bound⟩
  intro b hb
  exact put_other _ _ (fun e => ha (e ▸ hb))

theorem not_mem_plug_right {a : Nat} {c : Bool} {l r : Shape} {v : Int}
    (hs : Holds s (plug k (node a c l v r))) : a ∉ (plug k r).addrs := by
  intro h
  have h2 := (addrs_plug_perm k r).mem_iff.1 h
  have hn := hs.nodup_split
  simp only [addrs_node, List.cons_append, List.nodup_cons, List.mem_append, not_or] at hn h2
  tauto

theorem not_mem_plug_left {a : Nat} {c : Bool} {l r : Shape} {v : Int}
    (hs : Holds s (plug k (node a c l v r))) : a ∉ (plug k l).addrs := by
  intro h
  have h2 := (addrs_plug_perm k l).mem_iff.1 h
  have hn := hs.nodup_split
  simp only [addrs_node, List.cons_append, List.nodup_cons, List.mem_append, not_or] at hn h2
  tauto

end Holds

namespace Shape
open Spine

theorem spliceChild_addrs (rb : Bool) (C : Shape) : (spliceChild rb C).addrs = C.addrs := by
  cases rb <;> simp [spliceChild, setRootBlack_addrs]

theorem spliceChild_values (rb : Bool) (C : Shape) : (spliceChild rb C).values = C.values := by
  cases rb <;> simp [spliceChild, setRootBlack_values]

/-- With uniform black-heights, the only child of a node is Red. -/
theorem only_child_red_right {a : Nat} {c : Bool} {v : Int} {r : Shape}
    (h : (node a c nil v r).Balanced) (hne : r ≠ nil) : r.isBlackRoot = false := by
  cases r with
  | nil => exact absurd rfl hne
  | node b cb rl rv rr =>
    cases cb with
    | false => rfl
    | true => simp [Shape.Balanced, bh] at h

theorem only_child_red_left {a : Nat} {c : Bool} {v : Int} {l : Shape}
    (h : (node a c l v nil).Balanced) (hne : l ≠ nil) : l.isBlackRoot = false := by
  cases l with
  | nil => exact absurd rfl hne
  | node b cb ll lv lr =>
    cases cb with
    | false => rfl
    | true => simp [Shape.Balanced, bh] at h

end Shape

namespace Spine
open Shape

theorem mem_addrs_plug (k : Spine) (t : Shape) (x : Nat) :
    x ∈ (plug k t).addrs ↔ x ∈ t.addrs ∨ x ∈ addrs k := by
  rw [(addrs_plug_perm k t).mem_iff, List.mem_append]

theorem height_le_plug (k : Spine) (t : Shape) : t.height ≤ (plug k t).height := by
  induction k generalizing t with
  | nil => exact Nat.le_refl _
  | cons f k ih =>
    refine Nat.le_trans ?_ (ih (f.fill t))
    cases f <;> simp only [Frame.fill, height] <;> omega

end Spine

namespace Holds
open RedBlackTree Shape Spine

variable {s : RedBlackTree} {k : Spine}

/-- The call of `fix` in `remove`, when the child of a Black unlinked node is Red. -/
theorem fix_child {C : Shape} (hs : Holds s (plug k C)) (rb : Bool)
    (hred : rb = true → C ≠ nil → C.isBlackRoot = false) :
    ∃ s2, (if rb = true ∧ C.ptr ≠ none then fix s C.ptr else pure s) = .ok s2 ∧
      Holds s2 (plug k (spliceChild rb C)) ∧ s2.next = s.next ∧
      s2.currentSize = s.currentSize ∧
      ∀ x, x ∉ (plug k C).addrs → s2.heap x = s.heap x := by
  cases rb with
  | false => exact ⟨s, by simp, by simpa [spliceChild] using hs, rfl, rfl, fun _ _ => rfl⟩
  | true =>
    cases C with
    | nil => exact ⟨s, by simp, by simpa [spliceChild, setRootBlack] using hs, rfl, rfl,
        fun _ _ => rfl⟩
    | node b cb l v r =>
      have hcb : cb = false := by simpa using hred rfl (by simp)
      subst hcb
      obtain ⟨s2, e, hs2, hn, hc, ho⟩ := hs.fix_red
      exact ⟨s2, by simpa using e, by simpa [spliceChild, setRootBlack] using hs2, hn, hc, ho⟩

/-- The end of `remove`: the call of `fix` if any, `delete toRemove`, `currentSize--`. -/
theorem remove_tail {C : Shape} (hs : Holds s (plug k C)) {x : Nat} (rb : Bool)
    (hx : x ∉ (plug k C).addrs) (hred : rb = true → C ≠ nil → C.isBlackRoot = false) :
    ∃ s2 s3, (if rb = true ∧ C.ptr ≠ none then fix s C.ptr else pure s) = .ok s2 ∧
      s3 = { s2 with heap := put s2.heap x none, currentSize := s2.currentSize - 1 } ∧
      Holds s3 (plug k (spliceChild rb C)) ∧ s3.next = s.next ∧
      s3.currentSize = s.currentSize - 1 := by
  obtain ⟨s2, w2, hs2, hn2, hc2, -⟩ := hs.fix_child rb hred
  have hx2 : x ∉ (plug k (spliceChild rb C)).addrs := by
    rw [mem_addrs_plug, spliceChild_addrs, ← mem_addrs_plug]; exact hx
  exact ⟨s2, _, w2, rfl, (hs2.free_holds hx2).with_size _, hn2, by simp [hc2]⟩

end Holds

namespace Spine

theorem addrs_append (k1 k2 : Spine) : addrs (k1 ++ k2) = addrs k1 ++ addrs k2 := by
  induction k1 with
  | nil => rfl
  | cons f k ih => simp [ih]

end Spine

namespace Holds
open RedBlackTree Shape Spine

set_option maxHeartbeats 1000000 in
/-- A call `remove(value)` for a value the descent of `search` finds, on a tree with
uniform black-heights: the call returns true, leaves the tree `removeAt` describes,
and frees the cell of the unlinked node. -/
theorem remove_found_freed {s : RedBlackTree} {t : Shape} (hs : Holds s t) {value : Int}
    (hf : t.find value = true) (hbal : t.Balanced) :
    ∃ s2, remove s value = .ok (true, s2) ∧ Holds s2 (t.removeAt value) ∧
      s2.next = s.next ∧ s2.currentSize = s.currentSize - 1 ∧
      ∀ k2 n x, t.unlinked value = some (k2, n) → n.ptr = some x → s2.heap x = none := by
  obtain ⟨k, a, c, l, r, hloc, hplug⟩ := locate_of_find hf []
  have hs0 : Holds s (plug k (node a c l value r)) := by rw [hplug]; exact hs
  have hfn : findNode (s.next + 1) s.heap value s.root = .ok (some a) := by
    rw [hs.root]; exact findNode_rep hs.rep value _ hs.height_lt [] hloc
  have hbalp : (plug k (node a c l value r)).Balanced := by rw [hplug]; exact hbal
  have hbal0 : (node a c l value r).Balanced := ((balanced_plug _ _).1 hbalp).1
  have e1 := hs.search_eq value
  have e2 := hs0.getLeft
  have e3 := hs0.getRight
  have hcell := hs0.rep_sub.1
  cases l with
  | nil =>
    obtain ⟨s1, w1, hs1, hn1, hc1, ho1⟩ := hs0.unlink_focus_right
    have hnot := hs0.not_mem_plug_right
    have hcell1 : s1.heap a = _ := (ho1 a hnot).trans hcell
    have e4 := getIsBlack_cell hcell1
    obtain ⟨s2, s3, w2, rfl, hs3, hn3, hc3⟩ := hs1.remove_tail c hnot
      (fun _ hne => only_child_red_right hbal0 hne)
    refine ⟨_, ?_, ?_, hn3.trans hn1, by rw [hc3, hc1], ?_⟩
    · simp only [ptr_nil] at e2
      have heta : (⟨s1.heap, s1.next, s1.root, s1.currentSize⟩ : RedBlackTree) = s1 := rfl
      simp [remove, e1, hf, hfn, e2, e3, w1, e4, heta]
      split at w2 <;> split <;> simp_all
    · simpa [removeAt, hloc] using hs3
    · intro k2 n x hu hx
      simp only [unlinked, hloc, Option.some.injEq, Prod.mk.injEq] at hu
      obtain ⟨-, rfl⟩ := hu
      simp only [ptr_node, Option.some.injEq] at hx
      subst hx
      exact put_same _ _ _
  | node b cb bl bv br =>
    cases r with
    | nil =>
      obtain ⟨s1, w1, hs1, hn1, hc1, ho1⟩ := hs0.unlink_focus_left
      have hnot := hs0.not_mem_plug_left
      have hcell1 : s1.heap a = _ := (ho1 a hnot).trans hcell
      have e4 := getIsBlack_cell hcell1
      obtain ⟨s2, s3, w2, rfl, hs3, hn3, hc3⟩ := hs1.remove_tail c hnot
        (fun _ hne => only_child_red_left hbal0 hne)
      refine ⟨_, ?_, ?_, hn3.trans hn1, by rw [hc3, hc1], ?_⟩
      · simp only [ptr_nil, ptr_node] at e2 e3 w1 w2
        have heta : (⟨s1.heap, s1.next, s1.root, s1.currentSize⟩ : RedBlackTree) = s1 := rfl
        simp [remove, e1, hf, hfn, e2, e3, w1, e4, heta]
        split at w2 <;> split <;> simp_all
      · simpa [removeAt, hloc] using hs3
      · intro k2 n x hu hx
        simp only [unlinked, hloc, Option.some.injEq, Prod.mk.injEq] at hu
        obtain ⟨-, rfl⟩ := hu
        simp only [ptr_node, Option.some.injEq] at hx
        subst hx
        exact put_same _ _ _
    | node d cd dl dv dr =>
      have hr : Shape.Rep s.heap (node d cd dl dv dr) (some a) := hs0.rep_sub.2.2
      have hh : (node d cd dl dv dr).height ≤ s.next := by
        have h1 := height_le_plug k (node a c (node b cb bl bv br) value (node d cd dl dv dr))
        rw [hplug] at h1
        have h2 := hs.height_lt
        simp only [plug_nil] at h1
        have h3 : (node d cd dl dv dr).height + 1 ≤
            (node a c (node b cb bl bv br) value (node d cd dl dv dr)).height := by
          simp only [height]; omega
        omega
      obtain ⟨sp2, eS⟩ := getSuccessorLoop_rep hr s.next hh (by simp) (some a)
      obtain ⟨hp1, -, -, hex⟩ := leftmost_spec (node d cd dl dv dr) []
      obtain ⟨sa, sc, sv, sr, hS⟩ := hex (by simp)
      rcases hlm : leftmost (node d cd dl dv dr) [] with ⟨ki, S⟩
      rw [hlm] at hp1 hS eS
      simp only [plug_nil] at hp1 hS eS
      subst hS
      have hsS : Holds s (plug (ki ++ Frame.R a c (node b cb bl bv br) value :: k)
          (node sa sc nil sv sr)) := by
        rw [plug_append]; simp only [plug_cons, Frame.fill]; rw [hp1]; exact hs0
      obtain ⟨s1, w1, hs1, hn1, hc1, ho1⟩ := hsS.unlink_focus_right
      have hne : ¬ some sa = some a := by
        have hn := hsS.nodup_split
        rw [List.nodup_append] at hn
        intro e
        simp only [Option.some.injEq] at e
        refine hn.2.2 (List.mem_cons_self sa _) ?_
        rw [addrs_append, e]
        simp [Frame.addrs]
      have hnotS := hsS.not_mem_plug_right
      have hcell1 : s1.heap sa = _ := (ho1 sa hnotS).trans hsS.rep_sub.1
      have e5 := getData_cell hcell1
      have hs1b : Holds s1 (plug k (node a c (node b cb bl bv br) value (plug ki sr))) := by
        have := hs1; rw [plug_append] at this; exact this
      have hnotS1 : sa ∉ (plug k (node a c (node b cb bl bv br) value (plug ki sr))).addrs := by
        have := hnotS; rw [plug_append] at this; exact this
      obtain ⟨h2, w3, hs2, ho2⟩ := hs1b.setData_focus sv
      have hcell2 : h2 sa = _ := (ho2 sa hnotS1).trans hcell1
      have e6 := getIsBlack_cell hcell2
      have hs2b : Holds { s1 with heap := h2 }
          (plug (ki ++ Frame.R a c (node b cb bl bv br) sv :: k) sr) := by
        rw [plug_append]; exact hs2
      have hnotS2 : sa ∉ (plug (ki ++ Frame.R a c (node b cb bl bv br) sv :: k) sr).addrs := by
        have := hnotS
        simp only [mem_addrs_plug, addrs_append, Spine.addrs_cons, Frame.addrs] at this ⊢
        exact this
      have hbalS : (node sa sc nil sv sr).Balanced := by
        have := hbalp
        rw [← hp1] at this
        have h4 : (plug (ki ++ Frame.R a c (node b cb bl bv br) value :: k)
            (node sa sc nil sv sr)).Balanced := by
          rw [plug_append]; exact this
        exact ((balanced_plug _ _).1 h4).1
      obtain ⟨s3, s4, w4, rfl, hs4, hn4, hc4⟩ := hs2b.remove_tail sc hnotS2
        (fun _ hne => only_child_red_right hbalS hne)
      refine ⟨_, ?_, ?_, hn4.trans hn1, by rw [hc4]; simp [hc1], ?_⟩
      · simp only [ptr_nil, ptr_node] at e2 e3 eS
        simp [remove, e1, hf, hfn, e2, e3, getSuccessor, eS, w1, hne, e5, w3, e6]
        split at w4
        · split <;> simp_all
        · simp only [pure_eq_ok, Except.ok.injEq] at w4
          subst w4
          split <;> simp_all
      · have := hs4
        rw [plug_append] at this
        simpa [removeAt, hloc, hlm, Frame.fill] using this
      · intro k2 n x hu hx
        simp only [unlinked, hloc, hlm, Option.some.injEq, Prod.mk.injEq] at hu
        obtain ⟨-, rfl⟩ := hu
        simp only [ptr_node, Option.some.injEq] at hx
        subst hx
        exact put_same _ _ _

/-- A call `remove(value)` for a value the descent of `search` finds, on a tree with
uniform black-heights: the call returns true and leaves the tree `removeAt`
describes. -/
theorem remove_found {s : RedBlackTree} {t : Shape} (hs : Holds s t) {value : Int}
    (hf : t.find value = true) (hbal : t.Balanced) :
    ∃ s2, remove s value = .ok (true, s2) ∧ Holds s2 (t.removeAt value) ∧
      s2.next = s.next ∧ s2.currentSize = s.currentSize - 1 := by
  obtain ⟨s2, e, h, hn, hc, -⟩ := hs.remove_found_freed hf hbal
  exact ⟨s2, e, h, hn, hc⟩

end Holds

namespace Spine
open Shape

theorem before_leftmost (t : Shape) (k : Spine) : before (leftmost t k).1 = before k := by
  induction t generalizing k with
  | nil => rfl
  | node a c l v r ihl _ =>
    cases l with
    | nil => rfl
    | node b cb bl bv br =>
      simp only [leftmost]
      rw [ihl]
      rfl

end Spine

namespace Shape
open Spine

/-- The values after `remove(value)`: one occurrence of the value is taken out. -/
theorem values_removeAt {t : Shape} {value : Int} (hf : t.find value = true) :
    ∃ X Y, t.values = X ++ value :: Y ∧ (t.removeAt value).values = X ++ Y := by
  obtain ⟨k, a, c, l, r, hloc, hplug⟩ := locate_of_find hf []
  have hv : t.values = before k ++ (node a c l value r).values ++ after k := by
    rw [← values_plug, hplug]; rfl
  cases l with
  | nil =>
    refine ⟨before k, r.values ++ after k, by simpa using hv, ?_⟩
    simp [removeAt, hloc, values_plug, spliceChild_values]
  | node b cb bl bv br =>
    cases r with
    | nil =>
      refine ⟨before k ++ (node b cb bl bv br).values, after k, by simpa using hv, ?_⟩
      simp [removeAt, hloc, values_plug, spliceChild_values]
    | node d cd dl dv dr =>
      obtain ⟨hp1, -, -, hex⟩ := leftmost_spec (node d cd dl dv dr) []
      obtain ⟨sa, sc, sv, sr, hS⟩ := hex (by simp)
      have hb := before_leftmost (node d cd dl dv dr) []
      rcases hlm : leftmost (node d cd dl dv dr) [] with ⟨ki, S⟩
      rw [hlm] at hp1 hS hb
      simp only [plug_nil] at hp1 hS hb
      subst hS
      have hd : (node d cd dl dv dr).values = sv :: (sr.values ++ after ki) := by
        rw [← hp1, values_plug, hb]; simp [before]
      refine ⟨before k ++ (node b cb bl bv br).values, sv :: (sr.values ++ after ki) ++ after k,
        ?_, ?_⟩
      · rw [hv, values_node, hd]; simp
      · simp [removeAt, hloc, hlm, values_plug, spliceChild_values, hb, before]

theorem erase_split (value : Int) (X Y : List Int) (h : value ∉ X) :
    (X ++ value :: Y).erase value = X ++ Y := by
  induction X with
  | nil => simp
  | cons x X ih =>
    simp only [List.mem_cons, not_or] at h
    have hne : x ≠ value := fun e => h.1 e.symm
    simp [List.erase_cons, hne, ih h.2]

/-- On a binary search tree, `remove(value)` of a stored value takes exactly that
value out and leaves a binary search tree. -/
theorem removeAt_bst {t : Shape} (hbst : t.BST) {value : Int} (hm : value ∈ t.values) :
    (t.removeAt value).values = t.values.erase value ∧ (t.removeAt value).BST ∧
      value ∉ (t.removeAt value).values ∧ (t.removeAt value).count + 1 = t.count := by
  have hf := (find_iff_mem hbst value).2 hm
  obtain ⟨X, Y, h1, h2⟩ := values_removeAt hf
  have hs := (bst_iff_sorted t).1 hbst
  rw [h1, List.pairwise_append, List.pairwise_cons] at hs
  have hX : value ∉ X := fun h => by
    have := hs.2.2 value h value (by simp)
    omega
  have hY : value ∉ Y := fun h => by
    have := hs.2.1.1 value h
    omega
  refine ⟨by rw [h2, h1, erase_split value X Y hX], ?_, ?_, ?_⟩
  · rw [bst_iff_sorted, h2, List.pairwise_append]
    exact ⟨hs.1, hs.2.1.2, fun x hx y hy => hs.2.2 x hx y (by simp [hy])⟩
  · rw [h2]; simp [hX, hY]
  · rw [count_eq_length_values, count_eq_length_values t, h1, h2]
    simp only [List.length_append, List.length_cons]
    omega

end Shape

namespace Shape

theorem height_le_bh {t : Shape} (h1 : t.NoRedRed) (h2 : t.Balanced) :
    t.height ≤ 2 * t.bh + (if t.isBlackRoot then 0 else 1) := by
  induction t with
  | nil => simp [height, bh]
  | node a c l v r ihl ihr =>
    obtain ⟨hc, hl, hr⟩ := h1
    obtain ⟨hb, bl, br⟩ := h2
    have il := ihl hl bl
    have ir := ihr hr br
    cases c with
    | true =>
      simp only [height, bh, isBlackRoot_node, if_true]
      split at il <;> split at ir <;> omega
    | false =>
      obtain ⟨e1, e2⟩ := hc rfl
      simp only [e1, e2, if_true] at il ir
      simp only [height, bh, isBlackRoot_node]
      simp only [Bool.false_eq_true, if_false]
      omega

theorem pow_bh_le {t : Shape} (h2 : t.Balanced) : 2 ^ t.bh ≤ t.count + 1 := by
  induction t with
  | nil => simp [bh, count]
  | node a c l v r ihl ihr =>
    obtain ⟨hb, bl, br⟩ := h2
    have il := ihl bl
    have ir := ihr br
    rw [hb] at il
    cases c with
    | true =>
      simp only [bh, count, if_true, hb, pow_succ]
      omega
    | false =>
      simp only [bh, count, hb, Bool.false_eq_true, if_false, add_zero]
      omega

/-- The height bound of red-black trees: `h ≤ 2 * log2 (n + 1)`, over the integers. -/
theorem redBlack_height {t : Shape} (h : t.RedBlack) : 2 ^ t.height ≤ (t.count + 1) ^ 2 := by
  obtain ⟨-, hroot, h1, h2⟩ := h
  have hh := height_le_bh h1 h2
  simp only [hroot, if_true, add_zero] at hh
  calc 2 ^ t.height ≤ 2 ^ (2 * t.bh) := Nat.pow_le_pow_right (by decide) hh
    _ = (2 ^ t.bh) ^ 2 := by rw [Nat.mul_comm, pow_mul]
    _ ≤ (t.count + 1) ^ 2 := Nat.pow_le_pow_left (pow_bh_le h2) 2

end Shape

namespace Holds
open RedBlackTree Shape Spine

theorem dump_eq {s : RedBlackTree} {t : Shape} (hs : Holds s t) : dump s = .ok t.values := by
  have := dumpHelper_rep hs.rep (s.next + 1) hs.height_lt []
  rw [← hs.root] at this
  simpa [dump] using this

theorem searchRange_eq {s : RedBlackTree} {t : Shape} (hs : Holds s t) (lo hi : Int) :
    searchRange s lo hi = .ok (t.values.filter (fun x => decide (lo ≤ x ∧ x ≤ hi))) := by
  have := searchVectorHelper_rep hs.rep lo hi (s.next + 1) hs.height_lt []
  rw [← hs.root] at this
  simpa [searchRange] using this

/-- The shape held by a tree object is determined by the object. -/
theorem shape_unique {s : RedBlackTree} {t u : Shape} (ht : Holds s t) (hu : Holds s u) : t = u :=
  ht.rep.unique hu.rep (ht.root.symm.trans hu.root)

/-- Inserting any values, one after the other, into a red-black tree: every call
returns, and the result is a red-black tree holding the old and the new values. -/
theorem insertAll_any (vs : List Int) : ∀ {s : RedBlackTree} {t : Shape}, Holds s t →
    t.RedBlack → ∃ s2 t2, insertAll s vs = .ok s2 ∧ Holds s2 t2 ∧ t2.RedBlack ∧
      ∀ x, x ∈ t2.values ↔ x ∈ vs ∨ x ∈ t.values := by
  induction vs with
  | nil =>
    intro s t hs ht
    exact ⟨s, t, rfl, hs, ht, by simp⟩
  | cons v vs ih =>
    intro s t hs ht
    by_cases hv : v ∈ t.values
    · have hf := (find_iff_mem ht.1 v).2 hv
      obtain ⟨s2, t2, e2, hs2, ht2, hm2⟩ := ih hs ht
      refine ⟨s2, t2, by simp [insertAll, hs.insert_found hf, e2], hs2, ht2, ?_⟩
      intro x
      rw [hm2]
      simp only [List.mem_cons]
      constructor
      · rintro (h | h)
        · exact Or.inl (Or.inr h)
        · exact Or.inr h
      · rintro ((rfl | h) | h)
        · exact Or.inr hv
        · exact Or.inl h
        · exact Or.inr h
    · have hf : t.find v = false := by
        have := (find_iff_mem ht.1 v).not.2 hv
        simpa using this
      obtain ⟨s1, e1, hs1, -, -⟩ := hs.insert_new hf
      have ht1 := insertAt_redBlack ht hv s.next
      obtain ⟨s2, t2, e2, hs2, ht2, hm2⟩ := ih hs1 ht1
      refine ⟨s2, t2, by simp [insertAll, e1, e2], hs2, ht2, ?_⟩
      intro x
      rw [hm2, mem_insertAt]
      simp only [List.mem_cons]
      tauto

theorem nil_redBlack : Shape.nil.RedBlack :=
  ⟨trivial, rfl, trivial, trivial⟩

theorem sample_holds : Holds sampleTree sampleShape :=
  ⟨rfl, ⟨rfl, ⟨rfl, trivial, trivial⟩, ⟨rfl, trivial, trivial⟩⟩, by decide, by decide⟩

theorem sample_redBlack : sampleShape.RedBlack := by
  refine ⟨?_, rfl, ?_, ?_⟩
  · simp [sampleShape, Shape.BST]
  · simp [sampleShape, Shape.NoRedRed]
  · simp [sampleShape, Shape.Balanced, bh]

end Holds


/-! ## Copying -/

namespace Shape
open RedBlackTree

@[simp] theorem copyAt_nil (n : Nat) : copyAt nil n = nil := rfl

@[simp] theorem copyAt_node (a : Nat) (c : Bool) (l r : Shape) (v : Int) (n : Nat) :
    copyAt (node a c l v r) n = node n false (copyAt l (n + 1)) v (copyAt r (n + 1 + l.count)) :=
  rfl

theorem count_copyAt (t : Shape) : ∀ n, (t.copyAt n).count = t.count := by
  induction t with
  | nil => intro n; rfl
  | node a c l v r ihl ihr => intro n; simp [count, ihl, ihr]

theorem values_copyAt (t : Shape) : ∀ n, (t.copyAt n).values = t.values := by
  induction t with
  | nil => intro n; rfl
  | node a c l v r ihl ihr => intro n; simp [ihl, ihr]

theorem find_copyAt (t : Shape) (x : Int) : ∀ n, (t.copyAt n).find x = t.find x := by
  induction t with
  | nil => intro n; rfl
  | node a c l v r ihl ihr => intro n; simp [find, ihl, ihr]

theorem sameForm_copyAt (t : Shape) : ∀ n, SameForm t (t.copyAt n) := by
  induction t with
  | nil => intro n; trivial
  | node a c l v r ihl ihr => intro n; exact ⟨rfl, ihl _, ihr _⟩

theorem allRed_copyAt (t : Shape) : ∀ n, AllRed (t.copyAt n) := by
  induction t with
  | nil => intro n; trivial
  | node a c l v r ihl ihr => intro n; exact ⟨rfl, ihl _, ihr _⟩

theorem mem_addrs_copyAt (t : Shape) : ∀ n z, z ∈ (t.copyAt n).addrs ↔ n ≤ z ∧ z < n + t.count := by
  induction t with
  | nil => intro n z; simp [count]
  | node a c l v r ihl ihr =>
    intro n z
    simp only [copyAt_node, addrs_node, List.mem_cons, List.mem_append, ihl, ihr, count]
    omega

theorem nodup_copyAt (t : Shape) : ∀ n, (t.copyAt n).addrs.Nodup := by
  induction t with
  | nil => intro n; simp
  | node a c l v r ihl ihr =>
    intro n
    simp only [copyAt_node, addrs_node, List.nodup_cons, List.mem_append, List.nodup_append,
      mem_addrs_copyAt, List.Disjoint]
    refine ⟨by omega, ihl _, ihr _, ?_⟩
    intro z h1 h2
    omega

theorem ptr_copyAt_eq_none (t : Shape) (n : Nat) : (t.copyAt n).ptr = none ↔ t.ptr = none := by
  cases t <;> simp

theorem sameForm_values : ∀ {t u : Shape}, SameForm t u → t.values = u.values
  | nil, nil, _ => rfl
  | node _ _ l v r, node _ _ l2 v2 r2, h => by
    obtain ⟨rfl, hl, hr⟩ := h
    simp [sameForm_values hl, sameForm_values hr]
  | nil, node _ _ _ _ _, h => h.elim
  | node _ _ _ _ _, nil, h => h.elim

/-- The statement `if (p != nullptr) p->parent = q` for the root pointer of a held
shape. -/
theorem Rep.adopt {h : Heap} {t : Shape} {p0 : Option Nat} (hr : Rep h t p0)
    (hnd : t.addrs.Nodup) (q : Option Nat) :
    ∃ h2, (if t.ptr ≠ none then setParent h t.ptr q else pure h) = .ok h2 ∧ Rep h2 t q ∧
      ∀ z, z ∉ t.addrs → h2 z = h z := by
  cases t with
  | nil => exact ⟨h, by simp, trivial, fun _ _ => rfl⟩
  | node a c l v r =>
    obtain ⟨hc, hl, hrr⟩ := hr
    simp only [addrs_node, List.nodup_cons, List.mem_append, not_or] at hnd
    refine ⟨put h a (some ⟨v, q, l.ptr, r.ptr, c⟩), by simp [setParent, wr_cell hc],
      ⟨put_same _ _ _, ?_, ?_⟩, ?_⟩
    · exact hl.frame (fun z hz => put_other _ _ (by rintro rfl; exact hnd.1.1 hz))
    · exact hrr.frame (fun z hz => put_other _ _ (by rintro rfl; exact hnd.1.2 hz))
    · intro z hz
      simp only [addrs_node, List.mem_cons, not_or] at hz
      exact put_other _ _ hz.1

end Shape
namespace Shape
open RedBlackTree

/-- A conditional statement followed by the rest of the block. -/
theorem ite_bind_ok {α β : Type} (c : Prop) [Decidable c] (x : Except Err α) (h h2 : α)
    (f : α → Except Err β) (e : (if c then x else .ok h) = .ok h2) :
    (if c then x >>= f else f h) = f h2 := by
  split at e <;> simp_all

/-- The walk of `copyHelper` over a held shape builds its copy in fresh cells, returns
the pointer to it, and leaves every other cell as it was. -/
theorem copyHelper_rep : ∀ (fuel : Nat) (t : Shape) (h : Heap) (next : Nat) (par : Option Nat),
    Rep h t par → (∀ a ∈ t.addrs, a < next) → t.height < fuel →
    ∃ h2, copyHelper fuel h next t.ptr = .ok (h2, next + t.count, (t.copyAt next).ptr) ∧
      Rep h2 (t.copyAt next) none ∧ ∀ z, (z < next ∨ next + t.count ≤ z) → h2 z = h z
  | 0, _, _, _, _, _, _, hf => by omega
  | fuel + 1, nil, h, next, par, _, _, _ =>
    ⟨h, by simp [copyHelper, count], trivial, fun _ _ => rfl⟩
  | fuel + 1, node a c l v r, h, next, par, hr, hb, hf => by
    obtain ⟨hc, hl, hrr⟩ := hr
    simp only [height] at hf
    have ha : a < next := hb a (by simp)
    have hbl : ∀ z ∈ l.addrs, z < next := fun z hz => hb z (by simp [hz])
    have hbr : ∀ z ∈ r.addrs, z < next := fun z hz => hb z (by simp [hz])
    -- the new cell
    have ag1 : ∀ z, z < next → put h next (some (NodeT.mk1 v)) z = h z :=
      fun z hz => put_other _ _ (by omega)
    have hl1 : Rep (put h next (some (NodeT.mk1 v))) l (some a) :=
      hl.frame (fun z hz => ag1 z (hbl z hz))
    -- the left subtree
    obtain ⟨h2, e2, r2, ag2⟩ := copyHelper_rep fuel l _ (next + 1) (some a) hl1
      (fun z hz => by have := hbl z hz; omega) (by omega)
    have c2 : h2 next = some (NodeT.mk1 v) := by
      rw [ag2 next (Or.inl (by omega))]; exact put_same _ _ _
    have nl : next ∉ (l.copyAt (next + 1)).addrs := by
      rw [mem_addrs_copyAt]; omega
    have r3 : Rep (put h2 next (some ⟨v, none, (l.copyAt (next + 1)).ptr, none, false⟩))
        (l.copyAt (next + 1)) none :=
      r2.frame (fun z hz => put_other _ _ (by rintro rfl; exact nl hz))
    obtain ⟨h4, e4, r4, ag4⟩ := r3.adopt (nodup_copyAt l (next + 1)) (some next)
    have c4 : h4 next = some ⟨v, none, (l.copyAt (next + 1)).ptr, none, false⟩ := by
      rw [ag4 next nl]; exact put_same _ _ _
    have ag04 : ∀ z, z < next → h4 z = h z := by
      intro z hz
      rw [ag4 z (by rw [mem_addrs_copyAt]; omega), put_other _ _ (by omega),
        ag2 z (Or.inl (by omega)), ag1 z hz]
    have c4a : h4 a = h a := ag04 a ha
    -- the right subtree
    have hr4 : Rep h4 r (some a) := hrr.frame (fun z hz => ag04 z (hbr z hz))
    obtain ⟨h5, e5, r5, ag5⟩ := copyHelper_rep fuel r h4 (next + 1 + l.count) (some a) hr4
      (fun z hz => by have := hbr z hz; omega) (by omega)
    have c5 : h5 next = some ⟨v, none, (l.copyAt (next + 1)).ptr, none, false⟩ := by
      rw [ag5 next (Or.inl (by omega))]; exact c4
    have nr : next ∉ (r.copyAt (next + 1 + l.count)).addrs := by
      rw [mem_addrs_copyAt]; omega
    have r6 : Rep (put h5 next (some ⟨v, none, (l.copyAt (next + 1)).ptr,
        (r.copyAt (next + 1 + l.count)).ptr, false⟩)) (r.copyAt (next + 1 + l.count)) none :=
      r5.frame (fun z hz => put_other _ _ (by rintro rfl; exact nr hz))
    obtain ⟨h7, e7, r7, ag7⟩ := r6.adopt (nodup_copyAt r (next + 1 + l.count)) (some next)
    have c7 : h7 next = some ⟨v, none, (l.copyAt (next + 1)).ptr,
        (r.copyAt (next + 1 + l.count)).ptr, false⟩ := by
      rw [ag7 next nr]; exact put_same _ _ _
    have rl7 : Rep h7 (l.copyAt (next + 1)) (some next) := by
      refine r4.frame (fun z hz => ?_)
      rw [mem_addrs_copyAt] at hz
      rw [ag7 z (by rw [mem_addrs_copyAt]; omega), put_other _ _ (by omega),
        ag5 z (Or.inl (by omega))]
    refine ⟨h7, ?_, ⟨c7, rl7, r7⟩, ?_⟩
    · have g1 : getData h (some a) = .ok v := getData_cell hc
      have g2 : getLeft (put h next (some (NodeT.mk1 v))) (some a) = .ok l.ptr := by
        simp [RedBlackTree.getLeft, rd, ag1 a ha, hc]
      have g3 : getRight h4 (some a) = .ok r.ptr := by
        simp [RedBlackTree.getRight, rd, c4a, hc]
      have w1 : setLeft h2 (some next) (l.copyAt (next + 1)).ptr =
          .ok (put h2 next (some ⟨v, none, (l.copyAt (next + 1)).ptr, none, false⟩)) := by
        simp [setLeft, wr_cell c2, NodeT.mk1]
      have g4 : getLeft (put h2 next (some ⟨v, none, (l.copyAt (next + 1)).ptr, none, false⟩))
          (some next) = .ok (l.copyAt (next + 1)).ptr := by
        simp [RedBlackTree.getLeft, rd]
      have w2 : setRight h5 (some next) (r.copyAt (next + 1 + l.count)).ptr =
          .ok (put h5 next (some ⟨v, none, (l.copyAt (next + 1)).ptr,
            (r.copyAt (next + 1 + l.count)).ptr, false⟩)) := by
        simp [setRight, wr_cell c5]
      have g5 : getRight (put h5 next (some ⟨v, none, (l.copyAt (next + 1)).ptr,
            (r.copyAt (next + 1 + l.count)).ptr, false⟩)) (some next) =
          .ok (r.copyAt (next + 1 + l.count)).ptr := by
        simp [RedBlackTree.getRight, rd]
      simp only [pure_eq_ok] at e4 e7
      simp only [copyHelper, ptr_node, reduceCtorEq, ↓reduceIte, g1, ok_bind, g2, e2, w1, g4,
        pure_eq_ok, copyAt_node, count]
      rw [ite_bind_ok _ _ _ _ _ e4]
      simp only [g3, e5, w2, g5, ok_bind]
      rw [ite_bind_ok _ _ _ _ _ e7]
      simp only [add_assoc, add_comm 1]
    · intro z hz
      simp only [count] at hz
      rw [ag7 z (by rw [mem_addrs_copyAt]; omega), put_other _ _ (by omega),
        ag5 z (by omega), ag4 z (by rw [mem_addrs_copyAt]; omega), put_other _ _ (by omega),
        ag2 z (by omega), put_other _ _ (by omega)]

end Shape
namespace Shape
open RedBlackTree

/-- The walk of `clearTree` over a held shape frees exactly its cells. -/
theorem clearTree_rep : ∀ (fuel : Nat) (t : Shape) (h : Heap) (par : Option Nat),
    Rep h t par → t.addrs.Nodup → t.height < fuel →
    ∃ h2, clearTree fuel h t.ptr = .ok h2 ∧ (∀ z ∈ t.addrs, h2 z = none) ∧
      ∀ z, z ∉ t.addrs → h2 z = h z
  | 0, _, _, _, _, _, hf => by omega
  | fuel + 1, nil, h, par, _, _, _ =>
    ⟨h, by simp [clearTree], by simp, fun _ _ => rfl⟩
  | fuel + 1, node a c l v r, h, par, hr, hnd, hf => by
    obtain ⟨hc, hl, hrr⟩ := hr
    simp only [height] at hf
    simp only [addrs_node, List.nodup_cons, List.mem_append, not_or, List.nodup_append,
      List.Disjoint] at hnd
    obtain ⟨⟨nal, nar⟩, ndl, ndr, dis⟩ := hnd
    obtain ⟨h1, e1, z1, ag1⟩ := clearTree_rep fuel l h (some a) hl ndl (by omega)
    have c1 : h1 a = h a := ag1 a nal
    have hr1 : Rep h1 r (some a) := hrr.frame (fun z hz => ag1 z (fun hl => dis hl hz))
    obtain ⟨h2, e2, z2, ag2⟩ := clearTree_rep fuel r h1 (some a) hr1 ndr (by omega)
    refine ⟨put h2 a none, ?_, ?_, ?_⟩
    · have g1 : getLeft h (some a) = .ok l.ptr := by simp [RedBlackTree.getLeft, rd, hc]
      have g2 : getRight h1 (some a) = .ok r.ptr := by simp [RedBlackTree.getRight, rd, c1, hc]
      simp [clearTree, g1, e1, g2, e2]
    · intro z hz
      simp only [addrs_node, List.mem_cons, List.mem_append] at hz
      by_cases hza : z = a
      · subst hza; exact put_same _ _ _
      · rw [put_other _ _ hza]
        by_cases hzr : z ∈ r.addrs
        · exact z2 z hzr
        · rw [ag2 z hzr]
          rcases hz with hz | hz | hz
          · exact absurd hz hza
          · exact z1 z hz
          · exact absurd hz hzr
    · intro z hz
      simp only [addrs_node, List.mem_cons, List.mem_append, not_or] at hz
      rw [put_other _ _ hz.1, ag2 z hz.2.2, ag1 z hz.2.1]

end Shape

namespace Holds
open RedBlackTree Shape

/-- The helper `deepCopy` for a source tree `r` of the same store whose cells are
apart from those of the destination: the destination becomes a copy of the source
in fresh cells, every node Red, and the cells of the source are untouched. -/
theorem deepCopy_sim {d r : RedBlackTree} {td ts : Shape} (hd : Holds d td) (hr : Holds r ts)
    (hh : r.heap = d.heap) (hn : r.next = d.next) (hdis : ∀ a ∈ ts.addrs, a ∉ td.addrs) :
    ∃ d2, deepCopy d r.root r.currentSize = .ok d2 ∧ Holds d2 (ts.copyAt d.next) ∧
      d2.currentSize = r.currentSize ∧ d2.next = d.next + ts.count ∧
      (∀ a ∈ ts.addrs, d2.heap a = r.heap a) ∧
      (∀ a, a ∉ td.addrs → a < d.next → d2.heap a = d.heap a) := by
  cases ts with
  | nil =>
    refine ⟨{ d with root := none, currentSize := r.currentSize }, ?_,
      ⟨rfl, trivial, by simp, by simp⟩, rfl, by simp [count], by simp, fun _ _ _ => rfl⟩
    simp [deepCopy, hr.root]
  | node a c l v rr =>
    obtain ⟨h1, e1, z1, ag1⟩ := clearTree_rep (d.next + 1) td d.heap none hd.rep hd.nodup
      hd.height_lt
    have hr1 : Rep h1 (node a c l v rr) none :=
      hr.rep.frame (fun z hz => by rw [ag1 z (hdis z hz), hh])
    have hb : ∀ z ∈ (node a c l v rr).addrs, z < d.next := fun z hz => hn ▸ hr.bound z hz
    have hf : (node a c l v rr).height < d.next + 1 := hn ▸ hr.height_lt
    obtain ⟨h2, e2, r2, ag2⟩ := copyHelper_rep (d.next + 1) (node a c l v rr) h1 d.next none
      hr1 hb hf
    refine ⟨⟨h2, d.next + (node a c l v rr).count, ((node a c l v rr).copyAt d.next).ptr,
      r.currentSize⟩, ?_, ⟨rfl, r2, nodup_copyAt _ _, ?_⟩, rfl, rfl, ?_, ?_⟩
    · rw [← hd.root] at e1
      rw [← hr.root] at e2
      have hne : r.root ≠ none := by rw [hr.root]; simp
      simp [deepCopy, hne, e1, e2]
    · intro z hz
      rw [mem_addrs_copyAt] at hz
      exact hz.2
    · intro z hz
      show h2 z = r.heap z
      rw [ag2 z (Or.inl (hb z hz)), ag1 z (hdis z hz), hh]
    · intro z hz hlt
      show h2 z = d.heap z
      rw [ag2 z (Or.inl hlt), ag1 z hz]

end Holds

/-! ## The invariants after `remove` -/

namespace Spine
open Shape

theorem isBlackRoot_plug_cons (f : Frame) (k : Spine) (t u : Shape) :
    (plug (f :: k) t).isBlackRoot = (plug (f :: k) u).isBlackRoot := by
  induction k generalizing f t u with
  | nil => cases f <;> rfl
  | cons g k ih => simp only [plug_cons] at ih ⊢; exact ih g _ _

/-- The root stays Black when a subtree is replaced by one whose root is Black if the
old one was. -/
theorem isBlackRoot_replace (k : Spine) {R X : Shape}
    (hb : R.isBlackRoot = true → X.isBlackRoot = true)
    (h : (plug k R).isBlackRoot = true) : (plug k X).isBlackRoot = true := by
  cases k with
  | nil => exact hb h
  | cons f k => rw [isBlackRoot_plug_cons f k X R]; exact h

theorem noRedRed_mono : ∀ (k : Spine) {b b2 : Bool}, (b = true → b2 = true) →
    NoRedRed k b → NoRedRed k b2
  | [], _, _, _, _ => trivial
  | Frame.L _ c _ r :: k, b, b2, hb, h => by
    simp only [NoRedRed] at h ⊢
    exact ⟨fun hc => ⟨hb (h.1 hc).1, (h.1 hc).2⟩, h.2.1, h.2.2⟩
  | Frame.R _ c l _ :: k, b, b2, hb, h => by
    simp only [NoRedRed] at h ⊢
    exact ⟨fun hc => ⟨(h.1 hc).1, hb (h.1 hc).2⟩, h.2.1, h.2.2⟩

/-- No Red node gets a Red child when a subtree is replaced by one whose root is
Black if the old one was. -/
theorem noRedRed_replace (k : Spine) {R X : Shape}
    (hb : R.isBlackRoot = true → X.isBlackRoot = true) (hX : X.NoRedRed)
    (h : (plug k R).NoRedRed) : (plug k X).NoRedRed :=
  (noRedRed_plug k X).2 ⟨hX, noRedRed_mono k hb ((noRedRed_plug k R).1 h).2⟩

theorem bh_replace : ∀ (k : Spine) {R X : Shape}, X.bh = R.bh → (plug k X).bh = (plug k R).bh
  | [], _, _, h => h
  | Frame.L a c v r :: k, R, X, h => by
    simp only [plug_cons, Frame.fill]
    exact bh_replace k (by simp [bh, h])
  | Frame.R a c l v :: k, R, X, h => by
    simp only [plug_cons, Frame.fill]
    exact bh_replace k (by simp [bh])

/-- Black-heights stay uniform when a subtree is replaced by one of the same
black-height. -/
theorem balanced_replace (k : Spine) {R X : Shape} (hbh : X.bh = R.bh) (hX : X.Balanced)
    (h : (plug k R).Balanced) : (plug k X).Balanced :=
  (balanced_plug k X).2 ⟨hX, hbh ▸ ((balanced_plug k R).1 h).2⟩

end Spine

namespace Shape
open Spine

/-- The subtree that replaces an unlinked node with at most one child: no Red-Red
pair in it, a Black root if the node was Black, uniform black-heights, and the
black-height of the node unless the node was a Black leaf. -/
theorem spliceChild_right {a : Nat} {c : Bool} {v : Int} {C : Shape}
    (hn : (node a c nil v C).NoRedRed) (hb : (node a c nil v C).Balanced) :
    (spliceChild c C).NoRedRed ∧
      ((node a c nil v C).isBlackRoot = true → (spliceChild c C).isBlackRoot = true) ∧
      (spliceChild c C).Balanced ∧
      ((c = false ∨ C ≠ nil) → (spliceChild c C).bh = (node a c nil v C).bh) := by
  simp only [NoRedRed, Balanced, bh, isBlackRoot_node] at hn hb ⊢
  cases c with
  | false =>
    simp only [spliceChild, Bool.false_eq_true, ↓reduceIte]
    exact ⟨hn.2.2, fun h => by simp at h, hb.2.2, fun _ => by omega⟩
  | true =>
    simp only [spliceChild, ↓reduceIte]
    refine ⟨setRootBlack_noRedRed hn.2.2, fun _ => isBlackRoot_setRootBlack _,
      setRootBlack_balanced hb.2.2, ?_⟩
    intro h
    cases C with
    | nil => simp at h
    | node b cb bl bv br =>
      simp only [bh, setRootBlack] at hb ⊢
      have := hb.1
      cases cb <;> simp at this ⊢
      omega

theorem spliceChild_left {a : Nat} {c : Bool} {v : Int} {C : Shape}
    (hn : (node a c C v nil).NoRedRed) (hb : (node a c C v nil).Balanced) :
    (spliceChild c C).NoRedRed ∧
      ((node a c C v nil).isBlackRoot = true → (spliceChild c C).isBlackRoot = true) ∧
      (spliceChild c C).Balanced ∧
      ((c = false ∨ C ≠ nil) → (spliceChild c C).bh = (node a c C v nil).bh) := by
  simp only [NoRedRed, Balanced, bh, isBlackRoot_node] at hn hb ⊢
  cases c with
  | false =>
    simp only [spliceChild, Bool.false_eq_true, ↓reduceIte]
    exact ⟨hn.2.1, fun h => by simp at h, hb.2.1, fun _ => by omega⟩
  | true =>
    simp only [spliceChild, ↓reduceIte]
    refine ⟨setRootBlack_noRedRed hn.2.1, fun _ => isBlackRoot_setRootBlack _,
      setRootBlack_balanced hb.2.1, ?_⟩
    intro h
    cases C with
    | nil => simp at h
    | node b cb bl bv br =>
      simp only [bh, setRootBlack] at hb ⊢
      have := hb.1
      cases cb <;> simp at this ⊢

end Shape
namespace Shape
open Spine

/-- The tree `removeAt` describes, for a tree with a Black root, no Red-Red pair and
uniform black-heights: the unlinked node has at most one child; the root stays Black
and no Red-Red pair arises; black-heights stay uniform unless the unlinked node is a
Black leaf other than the root. -/
theorem removeAt_colours {t : Shape} {value : Int} (hroot : t.isBlackRoot = true)
    (hn : t.NoRedRed) (hb : t.Balanced) (hf : t.find value = true) :
    ∃ k a c l x r, t.unlinked value = some (k, node a c l x r) ∧
      plug k (node a c l x r) = t ∧ (l = nil ∨ r = nil) ∧
      (t.removeAt value).isBlackRoot = true ∧ (t.removeAt value).NoRedRed ∧
      ((c = false ∨ l ≠ nil ∨ r ≠ nil ∨ k = []) → (t.removeAt value).Balanced) := by
  obtain ⟨k, a, c, l, r, hloc, hplug⟩ := locate_of_find hf []
  simp only [plug_nil] at hplug
  subst hplug
  have hn0 := ((noRedRed_plug _ _).1 hn).1
  have hb0 := ((balanced_plug _ _).1 hb).1
  cases l with
  | nil =>
    obtain ⟨x1, x2, x3, x4⟩ := spliceChild_right hn0 hb0
    refine ⟨k, a, c, nil, value, r, by simp [unlinked, hloc], rfl, Or.inl rfl, ?_, ?_, ?_⟩
    · simpa [removeAt, hloc] using isBlackRoot_replace k x2 hroot
    · simpa [removeAt, hloc] using noRedRed_replace k x2 x1 hn
    · intro hc
      simp only [removeAt, hloc]
      rcases hc with hc | hc | hc | hc
      · exact balanced_replace k (x4 (Or.inl hc)) x3 hb
      · exact absurd rfl hc
      · exact balanced_replace k (x4 (Or.inr hc)) x3 hb
      · subst hc; exact x3
  | node b cb bl bv br =>
    cases r with
    | nil =>
      obtain ⟨x1, x2, x3, x4⟩ := spliceChild_left hn0 hb0
      refine ⟨k, a, c, node b cb bl bv br, value, nil, by simp [unlinked, hloc], rfl,
        Or.inr rfl, ?_, ?_, ?_⟩
      · simpa [removeAt, hloc] using isBlackRoot_replace k x2 hroot
      · simpa [removeAt, hloc] using noRedRed_replace k x2 x1 hn
      · intro hc
        simp only [removeAt, hloc]
        rcases hc with hc | hc | hc | hc
        · exact balanced_replace k (x4 (Or.inl hc)) x3 hb
        · exact balanced_replace k (x4 (Or.inr hc)) x3 hb
        · exact absurd rfl hc
        · subst hc; exact x3
    | node d cd dl dv dr =>
      obtain ⟨hp1, -, -, hex⟩ := leftmost_spec (node d cd dl dv dr) []
      obtain ⟨sa, sc, sv, sr, hS⟩ := hex (by simp)
      rcases hlm : leftmost (node d cd dl dv dr) [] with ⟨ki, S⟩
      rw [hlm] at hp1 hS
      simp only [plug_nil] at hp1 hS
      subst hS
      -- the right subtree, around the successor
      have hnr : (plug ki (node sa sc nil sv sr)).NoRedRed := by rw [hp1]; exact hn0.2.2
      have hbr : (plug ki (node sa sc nil sv sr)).Balanced := by rw [hp1]; exact hb0.2.2
      obtain ⟨x1, x2, x3, x4⟩ := spliceChild_right ((noRedRed_plug _ _).1 hnr).1
        ((balanced_plug _ _).1 hbr).1
      have hroot2 : (plug ki (node sa sc nil sv sr)).isBlackRoot = true →
          (plug ki (spliceChild sc sr)).isBlackRoot = true := isBlackRoot_replace ki x2
      have hn2 : (plug ki (spliceChild sc sr)).NoRedRed := noRedRed_replace ki x2 x1 hnr
      have hbx : (node a c (node b cb bl bv br) value (node d cd dl dv dr)).isBlackRoot = true →
          (node a c (node b cb bl bv br) sv (plug ki (spliceChild sc sr))).isBlackRoot = true :=
        fun h => h
      refine ⟨ki ++ Frame.R a c (node b cb bl bv br) value :: k, sa, sc, nil, sv, sr,
        by simp [unlinked, hloc, hlm], ?_, Or.inl rfl, ?_, ?_, ?_⟩
      · rw [plug_append]; simp only [plug_cons, Frame.fill]; rw [hp1]
      · simp only [removeAt, hloc, hlm]
        exact isBlackRoot_replace k hbx hroot
      · simp only [removeAt, hloc, hlm]
        refine noRedRed_replace k hbx ?_ hn
        simp only [NoRedRed] at hn0 ⊢
        rw [hp1] at hroot2
        exact ⟨fun hc => ⟨(hn0.1 hc).1, hroot2 (hn0.1 hc).2⟩, hn0.2.1, hn2⟩
      · intro hc
        have hc2 : sc = false ∨ sr ≠ nil := by
          rcases hc with hc | hc | hc | hc
          · exact Or.inl hc
          · exact absurd rfl hc
          · exact Or.inr hc
          · simp at hc
        have hbh : (plug ki (spliceChild sc sr)).bh = (node d cd dl dv dr).bh := by
          rw [← hp1]; exact bh_replace ki (x4 hc2)
        have hb2 : (plug ki (spliceChild sc sr)).Balanced := balanced_replace ki (x4 hc2) x3 hbr
        simp only [removeAt, hloc, hlm]
        refine balanced_replace k ?_ ?_ hb
        · simp only [bh]
        · simp only [Balanced] at hb0 ⊢
          exact ⟨by rw [hbh]; exact hb0.1, hb0.2.1, hb2⟩

end Shape


/-! ## Rotations: what they keep -/

namespace Shape
open RedBlackTree

theorem Rep.cells_mem {h : Heap} : ∀ {t : Shape} {par : Option Nat}, Rep h t par →
    ∀ x ∈ t.cells, ∃ n, h x.1 = some n ∧ n.isBlack = x.2.1 ∧ n.data = x.2.2
  | nil, _, _, x, hx => by simp [cells] at hx
  | node a c l v r, _, hr, x, hx => by
    simp only [cells, List.mem_cons, List.mem_append] at hx
    rcases hx with rfl | hx | hx
    · exact ⟨_, hr.1, rfl, rfl⟩
    · exact Rep.cells_mem hr.2.1 x hx
    · exact Rep.cells_mem hr.2.2 x hx

theorem mem_addrs_cells : ∀ {t : Shape} {a : Nat}, a ∈ t.addrs → ∃ c v, (a, c, v) ∈ t.cells
  | nil, _, h => by simp at h
  | node b c l v r, a, h => by
    simp only [addrs_node, List.mem_cons, List.mem_append] at h
    simp only [cells, List.mem_cons, List.mem_append, Prod.mk.injEq]
    rcases h with rfl | h | h
    · exact ⟨c, v, Or.inl ⟨rfl, rfl, rfl⟩⟩
    · obtain ⟨c2, v2, h2⟩ := mem_addrs_cells h
      exact ⟨c2, v2, Or.inr (Or.inl h2)⟩
    · obtain ⟨c2, v2, h2⟩ := mem_addrs_cells h
      exact ⟨c2, v2, Or.inr (Or.inr h2)⟩

/-- Two stores that hold the same shape agree on its cells. -/
theorem Rep.cell_eq {h h2 : Heap} : ∀ {t : Shape} {par : Option Nat}, Rep h t par →
    Rep h2 t par → ∀ a ∈ t.addrs, h a = h2 a
  | nil, _, _, _, a, ha => by simp at ha
  | node b c l v r, _, hr, hr2, a, ha => by
    simp only [addrs_node, List.mem_cons, List.mem_append] at ha
    rcases ha with rfl | ha | ha
    · rw [hr.1, hr2.1]
    · exact Rep.cell_eq hr.2.1 hr2.2.1 a ha
    · exact Rep.cell_eq hr.2.2 hr2.2.2 a ha

end Shape

namespace Spine
open Shape

theorem cells_plug_congr : ∀ (k : Spine) {t u : Shape}, (∀ x, x ∈ t.cells ↔ x ∈ u.cells) →
    ∀ x, x ∈ (plug k t).cells ↔ x ∈ (plug k u).cells
  | [], _, _, h => h
  | Frame.L a c v r :: k, t, u, h => by
    simp only [plug_cons, Frame.fill]
    refine cells_plug_congr k (fun x => ?_)
    simp only [cells, List.mem_cons, List.mem_append, h x]
  | Frame.R a c l v :: k, t, u, h => by
    simp only [plug_cons, Frame.fill]
    refine cells_plug_congr k (fun x => ?_)
    simp only [cells, List.mem_cons, List.mem_append, h x]

end Spine

namespace Holds
open RedBlackTree Shape Spine

/-- Every cell keeps its colour and value between two stores that hold shapes with the
same cells and agree elsewhere. -/
theorem colours_kept {s s2 : RedBlackTree} {t t2 : Shape} (hs : Holds s t) (hs2 : Holds s2 t2)
    (hc : ∀ x, x ∈ t.cells ↔ x ∈ t2.cells) (hout : SameOutside t.addrs s2.heap s.heap) :
    ∀ a n, s.heap a = some n →
      ∃ n2, s2.heap a = some n2 ∧ n2.isBlack = n.isBlack ∧ n2.data = n.data := by
  intro a n hn
  by_cases ha : a ∈ t.addrs
  · obtain ⟨c, v, hx⟩ := mem_addrs_cells ha
    obtain ⟨n1, e1, c1, d1⟩ := hs.rep.cells_mem _ hx
    obtain ⟨n2, e2, c2, d2⟩ := hs2.rep.cells_mem _ ((hc _).1 hx)
    simp only at e1 c1 d1 e2 c2 d2
    rw [hn] at e1
    cases e1
    exact ⟨n2, e2, c2.trans c1.symm, d2.trans d1.symm⟩
  · exact ⟨n, (hout a ha).trans hn, rfl, rfl⟩

/-- Two tree objects that hold the same shape and agree elsewhere are equal. -/
theorem state_eq {s s3 : RedBlackTree} {t : Shape} (hs : Holds s t) (hs3 : Holds s3 t)
    (hout : ∀ z, z ∉ t.addrs → s3.heap z = s.heap z) (hn : s3.next = s.next)
    (hc : s3.currentSize = s.currentSize) : s3 = s := by
  have hh : s3.heap = s.heap := by
    funext z
    by_cases hz : z ∈ t.addrs
    · exact Rep.cell_eq hs3.rep hs.rep z hz
    · exact hout z hz
  have hr : s3.root = s.root := hs3.root.trans hs.root.symm
  cases s; cases s3
  simp only at hh hr hn hc
  subst hh hr hn hc
  rfl

end Holds


/-! ## Parent references, and positions of `remove` -/

namespace Shape
open RedBlackTree

theorem Rep.rootCell {h : Heap} {t : Shape} {par : Option Nat} (hr : Rep h t par) (a : Nat)
    (ha : t.ptr = some a) : ∃ n, h a = some n ∧ n.parent = par := by
  cases t with
  | nil => simp at ha
  | node b c l v r =>
    simp only [ptr_node, Option.some.injEq] at ha
    subst ha
    exact ⟨_, hr.1, rfl⟩

theorem Rep.links {h : Heap} : ∀ {t : Shape} {par : Option Nat}, Rep h t par →
    ∀ a ∈ t.addrs, ∃ n, h a = some n ∧
      (∀ b, n.left = some b → ∃ m, h b = some m ∧ m.parent = some a) ∧
      (∀ b, n.right = some b → ∃ m, h b = some m ∧ m.parent = some a)
  | nil, _, _, a, ha => by simp at ha
  | node x c l v r, _, hr, a, ha => by
    simp only [addrs_node, List.mem_cons, List.mem_append] at ha
    rcases ha with rfl | ha | ha
    · exact ⟨_, hr.1, fun b hb => hr.2.1.rootCell b hb, fun b hb => hr.2.2.rootCell b hb⟩
    · exact Rep.links hr.2.1 a ha
    · exact Rep.links hr.2.2 a ha

end Shape

namespace Holds
open RedBlackTree Shape

/-- A held tree has consistent parent references. -/
theorem parents {s : RedBlackTree} {t : Shape} (hs : Holds s t) :
    ParentsConsistent s t.addrs :=
  ⟨fun a ha => hs.rep.rootCell a (hs.root ▸ ha), hs.rep.links⟩

/-- A call `remove(value)` for a value the descent of `search` does not find. -/
theorem remove_missing {s : RedBlackTree} {t : Shape} (hs : Holds s t) {value : Int}
    (hf : t.find value = false) : remove s value = .ok (false, s) := by
  simp [remove, hs.search_eq, hf]

end Holds

namespace Spine
open Shape

theorem plug_locate {value : Int} : ∀ {t : Shape} {k k2 : Spine} {n : Shape},
    locate value t k = some (k2, n) →
    plug k2 n = plug k t ∧ ∃ a c l r, n = node a c l value r
  | nil, _, _, _, h => by simp [locate] at h
  | node a c l v r, k, k2, n, h => by
    simp only [locate] at h
    split at h
    · simp only [Option.some.injEq, Prod.mk.injEq] at h
      obtain ⟨rfl, rfl⟩ := h
      subst v
      exact ⟨rfl, a, c, l, r, rfl⟩
    · split at h
      · obtain ⟨h1, h2⟩ := plug_locate h
        exact ⟨h1, h2⟩
      · obtain ⟨h1, h2⟩ := plug_locate h
        exact ⟨h1, h2⟩

theorem leftmost_allLeft : ∀ (t : Shape), ∀ f ∈ (leftmost t []).1, ∃ a c v r, f = Frame.L a c v r
  | nil => by simp [leftmost]
  | node a c nil v r => by simp [leftmost]
  | node a c (node b cb bl bv br) v r => by
    intro f hf
    have h1 := (leftmost_spec (node b cb bl bv br) [Frame.L a c v r]).2.1
    simp only [leftmost] at hf
    rw [h1, List.mem_append, List.mem_singleton] at hf
    rcases hf with hf | hf
    · exact leftmost_allLeft (node b cb bl bv br) f hf
    · exact ⟨a, c, v, r, hf⟩

/-- In a binary search tree, the left-most node of the right subtree of a node holds
the smallest value greater than the value of the node. -/
theorem successor_least {k ki : Spine} {a sa : Nat} {c sc : Bool} {l sr : Shape} {v sv : Int}
    (hbst : (plug k (node a c l v (plug ki (node sa sc nil sv sr)))).BST)
    (hki : before ki = []) :
    v < sv ∧ sv ∈ (plug k (node a c l v (plug ki (node sa sc nil sv sr)))).values ∧
      ∀ x ∈ (plug k (node a c l v (plug ki (node sa sc nil sv sr)))).values, v < x → sv ≤ x := by
  rw [bst_iff_sorted] at hbst
  simp only [values_plug, values_node, values_nil, hki, List.nil_append, List.append_assoc,
    List.cons_append] at hbst ⊢
  simp only [List.pairwise_append, List.pairwise_cons, List.mem_cons, List.mem_append] at hbst
  obtain ⟨-, ⟨-, ⟨hv, hsv, -⟩, hl⟩, hk⟩ := hbst
  refine ⟨hv sv (Or.inl rfl), by simp, ?_⟩
  intro x hx hlt
  simp only [List.mem_append, List.mem_cons] at hx
  rcases hx with hx | hx | rfl | rfl | hx | hx | hx
  · have := hk x hx v (Or.inr (Or.inl rfl)); omega
  · have := hl x hx v (Or.inl rfl); omega
  · omega
  · omega
  · have := hsv x (Or.inl hx); omega
  · have := hsv x (Or.inr (Or.inl hx)); omega
  · have := hsv x (Or.inr (Or.inr hx)); omega

end Spine
/-! ## The claims -/

open RedBlackTree Shape

/-- C1: for every sequence of `insert` calls with pairwise distinct values starting
from the empty tree, after each insert (that is, after the first `n` calls, for
every `n`) the object holds a tree that satisfies the binary-search-tree property,
has a Black root, has no Red node with a Red child, has uniform black-height, and
has `n` nodes, and `size()` is `n`. -/
theorem insert_sequence_invariants (vs : List Int) (hnd : vs.Nodup) (n : Nat)
    (hn : n ≤ vs.length) :
    ∃ s t, insertAll empty (vs.take n) = .ok s ∧ Holds s t ∧ t.BST ∧
      t.isBlackRoot = true ∧ t.NoRedRed ∧ t.Balanced ∧ t.count = n ∧ size s = (n : Int) := by
  obtain ⟨s, t, e, hs, ⟨h1, h2, h3, h4⟩, hc, hk, -⟩ :=
    Holds.insertAll_redBlack (vs.take n) Holds.empty_holds Holds.nil_redBlack
      (hnd.sublist (List.take_sublist n vs)) (by simp)
  have hl : (vs.take n).length = n := by simp [hn]
  refine ⟨s, t, e, hs, h1, h2, h3, h4, ?_, ?_⟩
  · rw [hk, hl]; simp [count]
  · rw [size, hc, hl]; simp [empty]

/-- C1, at the sequence 10, 20, 30, 15, 25, 5 after all six inserts. -/
theorem insert_sequence_invariants_witness :
    ∃ s t, insertAll empty (List.take 6 [10, 20, 30, 15, 25, 5]) = .ok s ∧ Holds s t ∧ t.BST ∧
      t.isBlackRoot = true ∧ t.NoRedRed ∧ t.Balanced ∧ t.count = 6 ∧ size s = ((6 : Nat) : Int) :=
  insert_sequence_invariants [10, 20, 30, 15, 25, 5] (by decide) 6 (by decide)

/-- C2, evaluated at its failing input: after inserting 1, 2, 3, 4 into the empty
tree, `remove(1)` unlinks the Black leaf 1 without running the fix-up, and the tree
left behind does not have uniform black-height (the root 2 has no left child, and
its right child 3 is Black). -/
theorem remove_black_leaf_unbalanced :
    ∃ s, (insertAll empty [1, 2, 3, 4] >>= fun s => remove s 1) = .ok (true, s) ∧
      Holds s (node 1 true nil 2 (node 2 true nil 3 (node 3 false nil 4 nil))) ∧
      ∀ t, Holds s t → ¬ t.Balanced := by
  have hs : ∃ s, (insertAll empty [1, 2, 3, 4] >>= fun s => remove s 1) = .ok (true, s) ∧
      Holds s (node 1 true nil 2 (node 2 true nil 3 (node 3 false nil 4 nil))) :=
    ⟨_, rfl, ⟨rfl, ⟨rfl, trivial, rfl, trivial, rfl, trivial, trivial⟩, by decide, by decide⟩⟩
  obtain ⟨s, e, h⟩ := hs
  refine ⟨s, e, h, ?_⟩
  intro t ht
  rw [ht.shape_unique h]
  simp [Shape.Balanced, bh]

/-- C3: for every tree that satisfies the five invariants and every stored value
`v`, `remove(v)` returns true, `size()` afterwards is `size()` before minus one,
`search(v)` afterwards is false, and `dump()` afterwards is `dump()` before with the
one occurrence of `v` deleted; the tree left is a binary search tree with as many
nodes as `size()` says. -/
theorem remove_stored (s : RedBlackTree) (t : Shape) (hs : Holds s t) (ht : t.RedBlack)
    (hsize : s.currentSize = t.count) (v : Int) (hv : v ∈ t.values) :
    ∃ s2 t2, remove s v = .ok (true, s2) ∧ size s2 = size s - 1 ∧
      search s2 v = .ok false ∧ dump s = .ok t.values ∧
      dump s2 = .ok (t.values.erase v) ∧ Holds s2 t2 ∧ t2.BST ∧
      s2.currentSize = t2.count := by
  have hf := (find_iff_mem ht.1 v).2 hv
  obtain ⟨s2, e, hs2, -, hc⟩ := hs.remove_found hf ht.2.2.2
  obtain ⟨h1, h2, h3, h4⟩ := removeAt_bst ht.1 hv
  refine ⟨s2, t.removeAt v, e, hc, ?_, hs.dump_eq, ?_, hs2, h2, ?_⟩
  · rw [hs2.search_eq]
    have := (find_iff_mem h2 v).not.2 h3
    simpa using this
  · rw [hs2.dump_eq, h1]
  · rw [hc, hsize]; omega

/-- C3, at the tree 20 (Black) with Red children 10 and 30, removing 20. -/
theorem remove_stored_witness :
    ∃ s2 t2, remove sampleTree 20 = .ok (true, s2) ∧ size s2 = size sampleTree - 1 ∧
      search s2 20 = .ok false ∧ dump sampleTree = .ok sampleShape.values ∧
      dump s2 = .ok (sampleShape.values.erase 20) ∧ Holds s2 t2 ∧ t2.BST ∧
      s2.currentSize = t2.count :=
  remove_stored sampleTree sampleShape Holds.sample_holds Holds.sample_redBlack rfl 20
    (by decide)

/-- C4: for every tree that satisfies the invariants and every value `v` not stored
in it, `insert(v)` returns true, `size()` afterwards is `size()` before plus one,
`search(v)` afterwards is true, and `dump()` afterwards is `dump()` before with `v`
inserted at its sorted position; the tree left satisfies the invariants again. -/
theorem insert_absent (s : RedBlackTree) (t : Shape) (hs : Holds s t) (ht : t.RedBlack)
    (hsize : s.currentSize = t.count) (v : Int) (hv : v ∉ t.values) :
    ∃ s2 t2, RedBlackTree.insert s v = .ok (true, s2) ∧ size s2 = size s + 1 ∧
      search s2 v = .ok true ∧ dump s = .ok t.values ∧
      dump s2 = .ok (List.orderedInsert (· ≤ ·) v t.values) ∧ Holds s2 t2 ∧ t2.RedBlack ∧
      s2.currentSize = t2.count := by
  have hf : t.find v = false := by
    have := (find_iff_mem ht.1 v).not.2 hv
    simpa using this
  obtain ⟨s2, e, hs2, -, hc⟩ := hs.insert_new hf
  have ht2 := insertAt_redBlack ht hv s.next
  refine ⟨s2, t.insertAt v s.next, e, hc, ?_, hs.dump_eq, ?_, hs2, ht2, ?_⟩
  · rw [hs2.search_eq, (find_iff_mem ht2.1 v).2 ((mem_insertAt t v s.next v).2 (Or.inl rfl))]
  · rw [hs2.dump_eq, values_insertAt_bst ht.1 hv]
  · rw [hc, hsize, count_insertAt]; push_cast; ring

/-- C4, at the tree 20 (Black) with Red children 10 and 30, inserting 25. -/
theorem insert_absent_witness :
    ∃ s2 t2, RedBlackTree.insert sampleTree 25 = .ok (true, s2) ∧ size s2 = size sampleTree + 1 ∧
      search s2 25 = .ok true ∧ dump sampleTree = .ok sampleShape.values ∧
      dump s2 = .ok (List.orderedInsert (· ≤ ·) 25 sampleShape.values) ∧ Holds s2 t2 ∧
      t2.RedBlack ∧ s2.currentSize = t2.count :=
  insert_absent sampleTree sampleShape Holds.sample_holds Holds.sample_redBlack rfl 25
    (by decide)

/-- C5: for every binary search tree and every value `v` stored in it, `insert(v)`
returns false and the tree object afterwards is the one before (every cell, the
root, and `size()`), and `search(v)` is still true.  And for every binary search tree
and every `v`, a call `insert(v)` followed by a second `insert(v)` makes the second
call return false without changing the object, `search(v)` being true. -/
theorem insert_stored_unchanged :
    (∀ (s : RedBlackTree) (t : Shape) (v : Int), Holds s t → t.BST → v ∈ t.values →
      RedBlackTree.insert s v = .ok (false, s) ∧ search s v = .ok true) ∧
    (∀ (s : RedBlackTree) (t : Shape) (v : Int), Holds s t → t.BST →
      ∃ b s1, RedBlackTree.insert s v = .ok (b, s1) ∧
        RedBlackTree.insert s1 v = .ok (false, s1) ∧ search s1 v = .ok true) := by
  have h1 : ∀ (s : RedBlackTree) (t : Shape) (v : Int), Holds s t → t.BST → v ∈ t.values →
      RedBlackTree.insert s v = .ok (false, s) ∧ search s v = .ok true := by
    intro s t v hs ht hv
    have hf := (find_iff_mem ht v).2 hv
    exact ⟨hs.insert_found hf, by rw [hs.search_eq, hf]⟩
  refine ⟨h1, ?_⟩
  intro s t v hs ht
  by_cases hv : v ∈ t.values
  · obtain ⟨e1, e2⟩ := h1 s t v hs ht hv
    exact ⟨false, s, e1, e1, e2⟩
  · have hf : t.find v = false := by
      have := (find_iff_mem ht v).not.2 hv
      simpa using this
    obtain ⟨s2, e, hs2, -, -⟩ := hs.insert_new hf
    obtain ⟨e1, e2⟩ := h1 s2 _ v hs2 (bst_insertAt ht hv s.next)
      ((mem_insertAt t v s.next v).2 (Or.inl rfl))
    exact ⟨true, s2, e, e1, e2⟩

/-- C5, at the tree 20 (Black) with Red children 10 and 30 and the stored value 10. -/
theorem insert_stored_unchanged_witness :
    (RedBlackTree.insert sampleTree 10 = .ok (false, sampleTree) ∧
      search sampleTree 10 = .ok true) ∧
    (∃ b s1, RedBlackTree.insert sampleTree 10 = .ok (b, s1) ∧
        RedBlackTree.insert s1 10 = .ok (false, s1) ∧ search s1 10 = .ok true) :=
  ⟨insert_stored_unchanged.1 sampleTree sampleShape 10 Holds.sample_holds
      Holds.sample_redBlack.1 (by decide),
    insert_stored_unchanged.2 sampleTree sampleShape 10 Holds.sample_holds
      Holds.sample_redBlack.1⟩

/-- C6: for every binary search tree (the empty tree included) and every value `v`
not stored in it, `remove(v)` returns false and the tree object afterwards is the
one before (same cells, root and `size()`).  On the empty tree, `search(x)` is false,
`dump()` is empty, `size()` is 0 and `remove(x)` is false, for every `x`. -/
theorem remove_absent_unchanged :
    (∀ (s : RedBlackTree) (t : Shape) (v : Int), Holds s t → t.BST → v ∉ t.values →
      remove s v = .ok (false, s)) ∧
    (∀ x : Int, search empty x = .ok false ∧ dump empty = .ok [] ∧ size empty = 0 ∧
      remove empty x = .ok (false, empty)) := by
  constructor
  · intro s t v hs ht hv
    have hf : t.find v = false := by
      have := (find_iff_mem ht v).not.2 hv
      simpa using this
    simp [remove, hs.search_eq, hf]
  · intro x
    exact ⟨rfl, rfl, rfl, rfl⟩

/-- C6, at the tree 20 (Black) with Red children 10 and 30 and the absent value 25. -/
theorem remove_absent_unchanged_witness : remove sampleTree 25 = .ok (false, sampleTree) :=
  remove_absent_unchanged.1 sampleTree sampleShape 25 Holds.sample_holds
    Holds.sample_redBlack.1 (by decide)

/-- C7: for every duplicate-free list of values and every permutation of it, the
tree built by inserting the elements of the permutation in order into the empty tree
has `dump()` equal to the ascending sort of the values, which is strictly
increasing. -/
theorem dump_is_sorted_values (vs ws : List Int) (hnd : vs.Nodup) (hp : ws.Perm vs) :
    ∃ s, insertAll empty ws = .ok s ∧ dump s = .ok (vs.insertionSort (· ≤ ·)) ∧
      (vs.insertionSort (· ≤ ·)).Pairwise (· < ·) := by
  obtain ⟨s, t, e, hs, ht, -, -, hm⟩ :=
    Holds.insertAll_redBlack ws Holds.empty_holds Holds.nil_redBlack (hp.nodup_iff.2 hnd)
      (by simp)
  have hsorted := (bst_iff_sorted t).1 ht.1
  have hperm : t.values.Perm (vs.insertionSort (· ≤ ·)) := by
    refine (List.perm_ext_iff_of_nodup ?_ ?_).2 ?_
    · exact hsorted.imp (fun h => ne_of_lt h)
    · exact (List.perm_insertionSort _ vs).nodup_iff.2 hnd
    · intro x
      rw [hm, (List.perm_insertionSort _ vs).mem_iff, hp.mem_iff]
      simp
  have heq : t.values = vs.insertionSort (· ≤ ·) :=
    List.eq_of_perm_of_sorted hperm (hsorted.imp (fun h => le_of_lt h))
      (List.sorted_insertionSort _ vs)
  exact ⟨s, e, by rw [hs.dump_eq, heq], heq ▸ hsorted⟩

/-- C7, at the sequence 10, 20, 30, 15, 25, 5: `dump()` is 5, 10, 15, 20, 25, 30. -/
theorem dump_is_sorted_values_witness :
    ∃ s, insertAll empty [10, 20, 30, 15, 25, 5] = .ok s ∧
      dump s = .ok [5, 10, 15, 20, 25, 30] ∧
      ([5, 10, 15, 20, 25, 30] : List Int).Pairwise (· < ·) :=
  dump_is_sorted_values [10, 20, 30, 15, 25, 5] [10, 20, 30, 15, 25, 5] (by decide)
    (List.Perm.refl _)

/-- C8: for every tree built by inserting integer values and every pair `low`,
`high` (no order between them assumed), `search(low, high)` returns exactly the
elements `x` of `dump()` with `low <= x <= high`, in the ascending order of `dump()`;
it is empty when no element lies in the interval, whenever `low > high`, and on the
empty tree. -/
theorem range_search_is_filter (vs : List Int) (low high : Int) :
    ∃ s d, insertAll empty vs = .ok s ∧ dump s = .ok d ∧ d.Pairwise (· < ·) ∧
      searchRange s low high = .ok (d.filter (fun x => decide (low ≤ x ∧ x ≤ high))) ∧
      ((∀ x ∈ d, ¬ (low ≤ x ∧ x ≤ high)) → searchRange s low high = .ok []) ∧
      (high < low → searchRange s low high = .ok []) ∧
      searchRange empty low high = .ok [] := by
  obtain ⟨s, t, e, hs, ht, -⟩ := Holds.insertAll_any vs Holds.empty_holds Holds.nil_redBlack
  have hr := hs.searchRange_eq low high
  refine ⟨s, t.values, e, hs.dump_eq, (bst_iff_sorted t).1 ht.1, hr, ?_, ?_, rfl⟩
  · intro h
    rw [hr, List.filter_eq_nil_iff.2]
    intro x hx
    simpa using h x hx
  · intro h
    rw [hr, List.filter_eq_nil_iff.2]
    intro x _
    simp only [decide_eq_true_eq, not_and, not_le]
    intro h1
    omega

/-- C8, at the tree built from 10, 20, 30, 15, 25, 5 and the bounds 12 and 25. -/
theorem range_search_is_filter_witness :
    ∃ s d, insertAll empty [10, 20, 30, 15, 25, 5] = .ok s ∧ dump s = .ok d ∧
      d.Pairwise (· < ·) ∧
      searchRange s 12 25 = .ok (d.filter (fun x => decide ((12 : Int) ≤ x ∧ x ≤ 25))) ∧
      ((∀ x ∈ d, ¬ ((12 : Int) ≤ x ∧ x ≤ 25)) → searchRange s 12 25 = .ok []) ∧
      ((25 : Int) < 12 → searchRange s 12 25 = .ok []) ∧
      searchRange empty 12 25 = .ok [] :=
  range_search_is_filter [10, 20, 30, 15, 25, 5] 12 25

/-- C9: for every binary search tree and every value `v`, `search(v)` returns true
exactly when `v` is an element of `dump()`, that is when some node holds `v`; this
holds in particular for every tree built by a sequence of inserts.  (`search` is a
function of the tree object that returns only the answer, so it changes nothing.) -/
theorem search_iff_in_dump :
    (∀ (s : RedBlackTree) (t : Shape) (v : Int), Holds s t → t.BST →
      ∃ b, search s v = .ok b ∧ dump s = .ok t.values ∧ (b = true ↔ v ∈ t.values)) ∧
    (∀ (vs : List Int) (v : Int), ∃ s b d, insertAll empty vs = .ok s ∧
      search s v = .ok b ∧ dump s = .ok d ∧ (b = true ↔ v ∈ d)) := by
  have h1 : ∀ (s : RedBlackTree) (t : Shape) (v : Int), Holds s t → t.BST →
      ∃ b, search s v = .ok b ∧ dump s = .ok t.values ∧ (b = true ↔ v ∈ t.values) :=
    fun s t v hs ht => ⟨t.find v, hs.search_eq v, hs.dump_eq, find_iff_mem ht v⟩
  refine ⟨h1, ?_⟩
  intro vs v
  obtain ⟨s, t, e, hs, ht, -⟩ := Holds.insertAll_any vs Holds.empty_holds Holds.nil_redBlack
  obtain ⟨b, e1, e2, e3⟩ := h1 s t v hs ht.1
  exact ⟨s, b, t.values, e, e1, e2, e3⟩

/-- C9, at the tree 20 (Black) with Red children 10 and 30 and the value 30. -/
theorem search_iff_in_dump_witness :
    ∃ b, search sampleTree 30 = .ok b ∧ dump sampleTree = .ok sampleShape.values ∧
      (b = true ↔ (30 : Int) ∈ sampleShape.values) :=
  search_iff_in_dump.1 sampleTree sampleShape 30 Holds.sample_holds Holds.sample_redBlack.1

/-- C10: for every tree built by inserting `n` pairwise distinct values into the
empty tree, the height `h` (the number of nodes on the longest path from the root to
a leaf) satisfies `2 ^ h <= (n + 1) ^ 2`, that is `h <= 2 * log2 (n + 1)`. -/
theorem insert_height_bound (vs : List Int) (hnd : vs.Nodup) :
    ∃ s t, insertAll empty vs = .ok s ∧ Holds s t ∧ t.count = vs.length ∧
      2 ^ t.height ≤ (vs.length + 1) ^ 2 := by
  obtain ⟨s, t, e, hs, ht, -, hk, -⟩ :=
    Holds.insertAll_redBlack vs Holds.empty_holds Holds.nil_redBlack hnd (by simp)
  have hc : t.count = vs.length := by rw [hk]; simp [count]
  refine ⟨s, t, e, hs, hc, ?_⟩
  rw [← hc]
  exact redBlack_height ht

/-- C10, at the sequence 10, 20, 30, 15, 25, 5 (`n = 6`). -/
theorem insert_height_bound_witness :
    ∃ s t, insertAll empty [10, 20, 30, 15, 25, 5] = .ok s ∧ Holds s t ∧ t.count = 6 ∧
      2 ^ t.height ≤ (6 + 1) ^ 2 :=
  insert_height_bound [10, 20, 30, 15, 25, 5] (by decide)

/-- C11 (fails on the code): not every sequence of `insert` and `remove` calls from the
empty tree runs without dereferencing a null pointer.  After inserting 1, ..., 10 and
removing 1 and 4 (both calls return normally and leave the tree shown, in which the
Black node 2 has the Black node 3 as its only child), the call `remove(2)` unlinks
node 2, calls `fix` on its Black child 3, enters the loop and evaluates
`sibling->left->isBlack` for the sibling 6, whose left child is absent. -/
theorem remove_sequence_null_deref :
    ∃ s, (insertAll empty [1, 2, 3, 4, 5, 6, 7, 8, 9, 10] >>= fun s => removeAll s [1, 4])
        = .ok s ∧
      Holds s (node 3 true (node 1 true nil 2 (node 2 true nil 3 nil)) 5
        (node 5 true nil 6 (node 7 false (node 6 true nil 7 nil) 8
          (node 8 true nil 9 (node 9 false nil 10 nil))))) ∧
      search s 2 = .ok true ∧
      remove s 2 = .error Err.nullDeref :=
  ⟨_, rfl, ⟨rfl, ⟨rfl, ⟨rfl, trivial, rfl, trivial, trivial⟩, rfl, trivial, rfl,
    ⟨rfl, trivial, trivial⟩, rfl, trivial, rfl, trivial, trivial⟩, by decide, by decide⟩,
    rfl, rfl⟩

/-- C12: a copy has the form of its source.  For every held source tree `r`, copy
construction from `r`, and copy assignment from `r` to a tree `d` of the same store
whose cells are apart from those of `r`, run to completion and leave a tree with nodes
at the same positions holding the same values, hence with the same `dump()`, and with
the same `size()`; the parent references of the copy are consistent; the cells of the
source are untouched, so the source object still holds its tree.  Assignment of an
object to itself changes nothing. -/
theorem copy_same_form :
    (∀ (d r : RedBlackTree) (td ts : Shape), Holds d td → Holds r ts → r.heap = d.heap →
      r.next = d.next → (∀ a ∈ ts.addrs, a ∉ td.addrs) →
      ∃ d2 t, assign d false r.root r.currentSize = .ok d2 ∧ Holds d2 t ∧ SameForm ts t ∧
        dump d2 = dump r ∧ size d2 = size r ∧ ParentsConsistent d2 t.addrs ∧
        (∀ a ∈ ts.addrs, d2.heap a = r.heap a) ∧
        Holds { r with heap := d2.heap, next := d2.next } ts) ∧
    (∀ (r : RedBlackTree) (ts : Shape), Holds r ts →
      ∃ d2 t, copyConstruct r = .ok d2 ∧ Holds d2 t ∧ SameForm ts t ∧
        dump d2 = dump r ∧ size d2 = size r ∧ ParentsConsistent d2 t.addrs ∧
        (∀ a ∈ ts.addrs, d2.heap a = r.heap a) ∧
        Holds { r with heap := d2.heap, next := d2.next } ts) ∧
    (∀ d : RedBlackTree, assign d true d.root d.currentSize = .ok d) := by
  have key : ∀ (d r : RedBlackTree) (td ts : Shape), Holds d td → Holds r ts →
      r.heap = d.heap → r.next = d.next → (∀ a ∈ ts.addrs, a ∉ td.addrs) →
      ∃ d2 t, deepCopy d r.root r.currentSize = .ok d2 ∧ Holds d2 t ∧ SameForm ts t ∧
        dump d2 = dump r ∧ size d2 = size r ∧ ParentsConsistent d2 t.addrs ∧
        (∀ a ∈ ts.addrs, d2.heap a = r.heap a) ∧
        Holds { r with heap := d2.heap, next := d2.next } ts := by
    intro d r td ts hd hr hh hn hdis
    obtain ⟨d2, e, h2, hsz, hnx, hsrc, -⟩ := hd.deepCopy_sim hr hh hn hdis
    refine ⟨d2, _, e, h2, sameForm_copyAt ts _, ?_, hsz, h2.parents, hsrc, ?_⟩
    · rw [h2.dump_eq, hr.dump_eq, values_copyAt]
    · refine ⟨hr.root, hr.rep.frame hsrc, hr.nodup, fun a ha => ?_⟩
      have := hr.bound a ha
      show a < d2.next
      omega
  refine ⟨fun d r td ts hd hr hh hn hdis => by simpa [assign] using key d r td ts hd hr hh hn hdis,
    fun r ts hr => ?_, fun d => rfl⟩
  exact key ⟨r.heap, r.next, none, 0⟩ r nil ts ⟨rfl, trivial, List.nodup_nil, by simp⟩ hr rfl rfl
    (by simp)

/-- C12, for the tree 20 (Black) with Red children 10 and 30: copy construction from
it, and assignment of it to a fresh empty tree of the same store. -/
theorem copy_same_form_witness :
    (∃ d2 t, assign ⟨sampleTree.heap, sampleTree.next, none, 0⟩ false sampleTree.root
        sampleTree.currentSize = .ok d2 ∧ Holds d2 t ∧ SameForm sampleShape t ∧
        dump d2 = dump sampleTree ∧ size d2 = size sampleTree ∧
        ParentsConsistent d2 t.addrs ∧
        (∀ a ∈ sampleShape.addrs, d2.heap a = sampleTree.heap a) ∧
        Holds { sampleTree with heap := d2.heap, next := d2.next } sampleShape) ∧
    (∃ d2 t, copyConstruct sampleTree = .ok d2 ∧ Holds d2 t ∧ SameForm sampleShape t ∧
        dump d2 = dump sampleTree ∧ size d2 = size sampleTree ∧
        ParentsConsistent d2 t.addrs ∧
        (∀ a ∈ sampleShape.addrs, d2.heap a = sampleTree.heap a) ∧
        Holds { sampleTree with heap := d2.heap, next := d2.next } sampleShape) :=
  ⟨copy_same_form.1 ⟨sampleTree.heap, sampleTree.next, none, 0⟩ sampleTree nil sampleShape
      ⟨rfl, trivial, List.nodup_nil, by simp⟩ Holds.sample_holds rfl rfl (by simp),
    copy_same_form.2.1 sampleTree sampleShape Holds.sample_holds⟩

/-- C13 (fails on the code): `copyHelper` makes every node by `NodeT(value)` and never
copies `isBlack`, so every node of a copy is Red.  The copy of a non-empty tree has a
Red root, hence does not satisfy the invariants, and its colours are not those of a
source with a Black root. -/
theorem copy_all_red (r : RedBlackTree) (ts : Shape) (hr : Holds r ts) (hne : ts ≠ nil) :
    ∃ d t, copyConstruct r = .ok d ∧ Holds d t ∧ SameForm ts t ∧ AllRed t ∧
      t.isBlackRoot = false ∧ ¬ t.RedBlack ∧ (ts.isBlackRoot = true → ¬ SameColours ts t) := by
  have hd : Holds ⟨r.heap, r.next, none, 0⟩ nil := ⟨rfl, trivial, List.nodup_nil, by simp⟩
  obtain ⟨d2, e, h2, -⟩ := hd.deepCopy_sim hr rfl rfl (by simp)
  have hroot : (ts.copyAt r.next).isBlackRoot = false := by
    cases ts with
    | nil => exact absurd rfl hne
    | node a c l v rr => rfl
  refine ⟨d2, _, e, h2, sameForm_copyAt ts _, allRed_copyAt ts _, hroot, ?_, ?_⟩
  · intro h
    rw [h.2.1] at hroot
    exact Bool.noConfusion hroot
  · intro hb hc
    cases ts with
    | nil => exact absurd rfl hne
    | node a c l v rr =>
      simp only [isBlackRoot_node] at hb
      subst hb
      exact Bool.noConfusion hc.1

/-- C13, for the tree 20 (Black) with Red children 10 and 30: its copy has a Red
root. -/
theorem copy_all_red_witness :
    sampleShape.RedBlack ∧ ∃ d t, copyConstruct sampleTree = .ok d ∧ Holds d t ∧
      SameForm sampleShape t ∧ AllRed t ∧ t.isBlackRoot = false ∧ ¬ t.RedBlack ∧
      (sampleShape.isBlackRoot = true → ¬ SameColours sampleShape t) :=
  ⟨Holds.sample_redBlack,
    copy_all_red sampleTree sampleShape Holds.sample_holds (by simp [sampleShape])⟩

/-- C14: for the tree built by inserting 1, ..., 7 in that order into the empty tree,
`remove(4)` returns true, and afterwards `search(4)` is false, `dump()` is
`[1, 2, 3, 5, 6, 7]`, `size()` is 6, and the tree (2 Black at the root, children 1
Black and 5 Red, below 5 the Black nodes 3 and 6, below 6 the Red node 7) is a binary
search tree with a Black root, no Red-Red pair and uniform black-heights. -/
theorem scenario_remove_four :
    ∃ s s2, insertAll empty [1, 2, 3, 4, 5, 6, 7] = .ok s ∧ remove s 4 = .ok (true, s2) ∧
      search s2 4 = .ok false ∧ dump s2 = .ok [1, 2, 3, 5, 6, 7] ∧ size s2 = 6 ∧
      Holds s2 (node 1 true (node 0 true nil 1 nil) 2 (node 3 false (node 2 true nil 3 nil) 5
        (node 5 true nil 6 (node 6 false nil 7 nil)))) ∧
      (node 1 true (node 0 true nil 1 nil) 2 (node 3 false (node 2 true nil 3 nil) 5
        (node 5 true nil 6 (node 6 false nil 7 nil)))).RedBlack :=
  ⟨_, _, rfl, rfl, rfl, rfl, rfl,
    ⟨rfl, ⟨rfl, ⟨rfl, trivial, trivial⟩, rfl, ⟨rfl, trivial, trivial⟩, rfl, trivial, rfl,
      trivial, trivial⟩, by decide, by decide⟩,
    ⟨by simp [BST], rfl, by simp [Shape.NoRedRed], by simp [Shape.Balanced, bh]⟩⟩

open Spine

/-- C15: for every held tree that satisfies the invariants and every stored value `v`,
`remove(v)` returns true and frees the cell of the unlinked node (the node holding `v`,
or the left-most node of its right subtree when it has two children), which has at
most one child; the tree afterwards is a binary search tree with a Black root and no
Red node with a Red child, and it has uniform black-heights whenever the unlinked node
is Red, has a child, or is the root. -/
theorem remove_keeps_colour_invariants (s : RedBlackTree) (t : Shape) (v : Int)
    (hs : Holds s t) (hrb : t.RedBlack) (hv : v ∈ t.values) :
    ∃ s2 t2 k a c l x r, remove s v = .ok (true, s2) ∧ Holds s2 t2 ∧
      t.unlinked v = some (k, node a c l x r) ∧ plug k (node a c l x r) = t ∧
      (l = nil ∨ r = nil) ∧ s2.heap a = none ∧
      t2.BST ∧ t2.isBlackRoot = true ∧ t2.NoRedRed ∧
      ((c = false ∨ l ≠ nil ∨ r ≠ nil ∨ k = []) → t2.Balanced) := by
  obtain ⟨hbst, hroot, hnrr, hbal⟩ := hrb
  have hf := (find_iff_mem hbst v).2 hv
  obtain ⟨s2, e, h2, -, -, hfree⟩ := hs.remove_found_freed hf hbal
  obtain ⟨k, a, c, l, x, r, hu, hp, hone, h1, h3, h4⟩ := removeAt_colours hroot hnrr hbal hf
  exact ⟨s2, _, k, a, c, l, x, r, e, h2, hu, hp, hone, hfree k _ a hu rfl,
    (removeAt_bst hbst hv).2.1, h1, h3, h4⟩

/-- C15, for the tree 20 (Black) with Red children 10 and 30 and the value 10, whose
node is a Red leaf. -/
theorem remove_keeps_colour_invariants_witness :
    ∃ s2 t2 k a c l x r, remove sampleTree 10 = .ok (true, s2) ∧ Holds s2 t2 ∧
      sampleShape.unlinked 10 = some (k, node a c l x r) ∧ plug k (node a c l x r) = sampleShape ∧
      (l = nil ∨ r = nil) ∧ s2.heap a = none ∧
      t2.BST ∧ t2.isBlackRoot = true ∧ t2.NoRedRed ∧
      ((c = false ∨ l ≠ nil ∨ r ≠ nil ∨ k = []) → t2.Balanced) :=
  remove_keeps_colour_invariants sampleTree sampleShape 10 Holds.sample_holds
    Holds.sample_redBlack (by decide)

/-- C16: rotations.  For every held tree and every node `x` with right child `y`,
`leftRotate(x)` runs to completion, makes `y` the parent of `x` at the position of `x`
(with the three subtrees re-attached in order), leaves `dump()` unchanged and the
binary-search-tree property intact, keeps the colour and value of every cell, sets the
root to `y` when `x` was the root and leaves it alone otherwise; and `rightRotate(y)`
afterwards gives back the original tree object.  Symmetrically for `rightRotate(x)` on
a node `x` with left child `y`, undone by `leftRotate(y)`. -/
theorem rotate_properties :
    (∀ (s : RedBlackTree) (k : Spine) (x y : Nat) (cx cy : Bool) (α β γ : Shape) (vx vy : Int),
      Holds s (plug k (node x cx α vx (node y cy β vy γ))) →
      ∃ s2, leftRotate s (some x) = .ok s2 ∧
        Holds s2 (plug k (node y cy (node x cx α vx β) vy γ)) ∧
        dump s2 = dump s ∧
        ((plug k (node x cx α vx (node y cy β vy γ))).BST →
          (plug k (node y cy (node x cx α vx β) vy γ)).BST) ∧
        getParent s2.heap (some x) = .ok (some y) ∧
        (∀ a n, s.heap a = some n →
          ∃ n2, s2.heap a = some n2 ∧ n2.isBlack = n.isBlack ∧ n2.data = n.data) ∧
        (s.root = some x → s2.root = some y) ∧ (s.root ≠ some x → s2.root = s.root) ∧
        rightRotate s2 (some y) = .ok s) ∧
    (∀ (s : RedBlackTree) (k : Spine) (x y : Nat) (cx cy : Bool) (α β γ : Shape) (vx vy : Int),
      Holds s (plug k (node x cx (node y cy α vy β) vx γ)) →
      ∃ s2, rightRotate s (some x) = .ok s2 ∧
        Holds s2 (plug k (node y cy α vy (node x cx β vx γ))) ∧
        dump s2 = dump s ∧
        ((plug k (node x cx (node y cy α vy β) vx γ)).BST →
          (plug k (node y cy α vy (node x cx β vx γ))).BST) ∧
        getParent s2.heap (some x) = .ok (some y) ∧
        (∀ a n, s.heap a = some n →
          ∃ n2, s2.heap a = some n2 ∧ n2.isBlack = n.isBlack ∧ n2.data = n.data) ∧
        (s.root = some x → s2.root = some y) ∧ (s.root ≠ some x → s2.root = s.root) ∧
        leftRotate s2 (some y) = .ok s) := by
  constructor
  · intro s k x y cx cy α β γ vx vy hs
    obtain ⟨s2, e, h2, hn, hc, hout⟩ := hs.leftRotate_focus
    obtain ⟨s3, e3, h3, hn3, hc3, hout3⟩ := h2.rightRotate_focus
    have hv : (plug k (node y cy (node x cx α vx β) vy γ)).values =
        (plug k (node x cx α vx (node y cy β vy γ))).values := by
      simp [values_plug]
    have hcells : ∀ z, z ∈ (plug k (node x cx α vx (node y cy β vy γ))).cells ↔
        z ∈ (plug k (node y cy (node x cx α vx β) vy γ)).cells := by
      refine cells_plug_congr k (fun z => ?_)
      simp only [cells, List.mem_cons, List.mem_append]
      tauto
    have hmem : ∀ z, z ∈ (plug k (node y cy (node x cx α vx β) vy γ)).addrs ↔
        z ∈ (plug k (node x cx α vx (node y cy β vy γ))).addrs := by
      intro z
      simp only [mem_addrs_plug, addrs_node, List.mem_cons, List.mem_append]
      tauto
    have hxk : s.root = some x ↔ k = [] := hs.root_eq_iff
    refine ⟨s2, e, h2, by rw [h2.dump_eq, hs.dump_eq, hv], ?_, ?_, hs.colours_kept h2 hcells hout,
      ?_, ?_, ?_⟩
    · intro hb
      rw [bst_iff_sorted] at hb ⊢
      rw [hv]; exact hb
    · have h2x : Holds s2 (plug (Frame.L y cy vy γ :: k) (node x cx α vx β)) := h2
      exact h2x.getParent
    · intro hr
      have hk := hxk.1 hr
      subst hk
      exact h2.root
    · intro hr
      have hk : k ≠ [] := fun h => hr (hxk.2 h)
      cases k with
      | nil => exact absurd rfl hk
      | cons f k => rw [h2.root, hs.root]; exact ptr_plug_cons f k _ _
    · rw [e3]
      congr 1
      refine Holds.state_eq hs h3 (fun z hz => ?_) (hn3.trans hn) (hc3.trans hc)
      rw [hout3 z (fun h => hz ((hmem z).1 h)), hout z hz]
  · intro s k x y cx cy α β γ vx vy hs
    obtain ⟨s2, e, h2, hn, hc, hout⟩ := hs.rightRotate_focus
    obtain ⟨s3, e3, h3, hn3, hc3, hout3⟩ := h2.leftRotate_focus
    have hv : (plug k (node y cy α vy (node x cx β vx γ))).values =
        (plug k (node x cx (node y cy α vy β) vx γ)).values := by
      simp [values_plug]
    have hcells : ∀ z, z ∈ (plug k (node x cx (node y cy α vy β) vx γ)).cells ↔
        z ∈ (plug k (node y cy α vy (node x cx β vx γ))).cells := by
      refine cells_plug_congr k (fun z => ?_)
      simp only [cells, List.mem_cons, List.mem_append]
      tauto
    have hmem : ∀ z, z ∈ (plug k (node y cy α vy (node x cx β vx γ))).addrs ↔
        z ∈ (plug k (node x cx (node y cy α vy β) vx γ)).addrs := by
      intro z
      simp only [mem_addrs_plug, addrs_node, List.mem_cons, List.mem_append]
      tauto
    have hxk : s.root = some x ↔ k = [] := hs.root_eq_iff
    refine ⟨s2, e, h2, by rw [h2.dump_eq, hs.dump_eq, hv], ?_, ?_, hs.colours_kept h2 hcells hout,
      ?_, ?_, ?_⟩
    · intro hb
      rw [bst_iff_sorted] at hb ⊢
      rw [hv]; exact hb
    · have h2x : Holds s2 (plug (Frame.R y cy α vy :: k) (node x cx β vx γ)) := h2
      exact h2x.getParent
    · intro hr
      have hk := hxk.1 hr
      subst hk
      exact h2.root
    · intro hr
      have hk : k ≠ [] := fun h => hr (hxk.2 h)
      cases k with
      | nil => exact absurd rfl hk
      | cons f k => rw [h2.root, hs.root]; exact ptr_plug_cons f k _ _
    · rw [e3]
      congr 1
      refine Holds.state_eq hs h3 (fun z hz => ?_) (hn3.trans hn) (hc3.trans hc)
      rw [hout3 z (fun h => hz ((hmem z).1 h)), hout z hz]

/-- C16, at the root 20 of the tree 20 (Black) with Red children 10 and 30: the left
rotation makes 30 the root and is undone by the right rotation at 30; the right
rotation makes 10 the root and is undone by the left rotation at 10. -/
theorem rotate_properties_witness :
    (∃ s2, leftRotate sampleTree (some 0) = .ok s2 ∧
        Holds s2 (plug [] (node 2 false (node 0 true (node 1 false nil 10 nil) 20 nil) 30 nil)) ∧
        dump s2 = dump sampleTree ∧
        ((plug [] (node 0 true (node 1 false nil 10 nil) 20 (node 2 false nil 30 nil))).BST →
          (plug [] (node 2 false (node 0 true (node 1 false nil 10 nil) 20 nil) 30 nil)).BST) ∧
        getParent s2.heap (some 0) = .ok (some 2) ∧
        (∀ a n, sampleTree.heap a = some n →
          ∃ n2, s2.heap a = some n2 ∧ n2.isBlack = n.isBlack ∧ n2.data = n.data) ∧
        (sampleTree.root = some 0 → s2.root = some 2) ∧
        (sampleTree.root ≠ some 0 → s2.root = sampleTree.root) ∧
        rightRotate s2 (some 2) = .ok sampleTree) ∧
    (∃ s2, rightRotate sampleTree (some 0) = .ok s2 ∧
        Holds s2 (plug [] (node 1 false nil 10 (node 0 true nil 20 (node 2 false nil 30 nil)))) ∧
        dump s2 = dump sampleTree ∧
        ((plug [] (node 0 true (node 1 false nil 10 nil) 20 (node 2 false nil 30 nil))).BST →
          (plug [] (node 1 false nil 10 (node 0 true nil 20 (node 2 false nil 30 nil)))).BST) ∧
        getParent s2.heap (some 0) = .ok (some 1) ∧
        (∀ a n, sampleTree.heap a = some n →
          ∃ n2, s2.heap a = some n2 ∧ n2.isBlack = n.isBlack ∧ n2.data = n.data) ∧
        (sampleTree.root = some 0 → s2.root = some 1) ∧
        (sampleTree.root ≠ some 0 → s2.root = sampleTree.root) ∧
        leftRotate s2 (some 1) = .ok sampleTree) :=
  ⟨rotate_properties.1 sampleTree [] 0 2 true false (node 1 false nil 10 nil) nil nil 20 30
      Holds.sample_holds,
    rotate_properties.2 sampleTree [] 0 1 true false nil nil (node 2 false nil 30 nil) 20 10
      Holds.sample_holds⟩

/-- C17: removal of a value whose node has two children.  For every held tree that
satisfies the invariants and every value `v` whose node `T` (at address `a`, found by
the descent of `findNode`) has two children, the left-most node `S` of the right
subtree of `T` has no left child, and `remove(v)` returns true, frees the cell of `S`
and leaves the old tree with the right subtree of `S` (its root made Black if `S` was
Black) at the position of `S` and the value of `S` in `T`, every other node as it
was; the value of `S` is the smallest stored value greater than `v`. -/
theorem remove_two_children (s : RedBlackTree) (t : Shape) (v : Int) (k : Spine) (a : Nat)
    (c : Bool) (l r : Shape) (hs : Holds s t) (hrb : t.RedBlack)
    (hloc : locate v t [] = some (k, node a c l v r)) (hl : l ≠ nil) (hr : r ≠ nil) :
    ∃ s2 ki sa sc sv sr, t = plug k (node a c l v r) ∧
      r = plug ki (node sa sc nil sv sr) ∧ (∀ f ∈ ki, ∃ pa pc pv pr, f = Frame.L pa pc pv pr) ∧
      remove s v = .ok (true, s2) ∧
      Holds s2 (plug k (node a c l sv (plug ki (spliceChild sc sr)))) ∧
      s2.heap sa = none ∧
      v < sv ∧ sv ∈ t.values ∧ (∀ x ∈ t.values, v < x → sv ≤ x) ∧
      dump s2 = .ok (t.values.erase v) := by
  obtain ⟨hbst, hroot, hnrr, hbal⟩ := hrb
  have hplug : plug k (node a c l v r) = t := (plug_locate hloc).1
  have hv : v ∈ t.values := by rw [← hplug, values_plug]; simp
  have hf := (find_iff_mem hbst v).2 hv
  obtain ⟨s2, e, h2, -, -, hfree⟩ := hs.remove_found_freed hf hbal
  cases l with
  | nil => exact absurd rfl hl
  | node b cb bl bv br =>
    cases r with
    | nil => exact absurd rfl hr
    | node d cd dl dv dr =>
      obtain ⟨hp1, -, -, hex⟩ := leftmost_spec (node d cd dl dv dr) []
      obtain ⟨sa, sc, sv, sr, hS⟩ := hex (by simp)
      have hall := leftmost_allLeft (node d cd dl dv dr)
      have hbef := before_leftmost (node d cd dl dv dr) []
      rcases hlm : leftmost (node d cd dl dv dr) [] with ⟨ki, S⟩
      rw [hlm] at hp1 hS hall hbef
      simp only [plug_nil] at hp1 hS hall hbef
      subst hS
      have hbst2 : (plug k (node a c (node b cb bl bv br) v
          (plug ki (node sa sc nil sv sr)))).BST := by rw [hp1, hplug]; exact hbst
      obtain ⟨m1, m2, m3⟩ := successor_least hbst2 hbef
      rw [hp1, hplug] at m2 m3
      have hrem : t.removeAt v =
          plug k (node a c (node b cb bl bv br) sv (plug ki (spliceChild sc sr))) := by
        simp [removeAt, hloc, hlm]
      refine ⟨s2, ki, sa, sc, sv, sr, hplug.symm, hp1.symm, hall, e, hrem ▸ h2, ?_, m1, m2, m3,
        ?_⟩
      · have hu : t.unlinked v = some (ki ++ Frame.R a c (node b cb bl bv br) v :: k,
            node sa sc nil sv sr) := by simp [unlinked, hloc, hlm]
        exact hfree _ _ sa hu rfl
      · rw [h2.dump_eq, (removeAt_bst hbst hv).1]

/-- C17, for the tree 20 (Black) with Red children 10 and 30 and the value 20: the
successor 30 is unlinked and its value written into the root. -/
theorem remove_two_children_witness :
    ∃ s2 ki sa sc sv sr,
      sampleShape = plug [] (node 0 true (node 1 false nil 10 nil) 20 (node 2 false nil 30 nil)) ∧
      node 2 false nil 30 nil = plug ki (node sa sc nil sv sr) ∧
      (∀ f ∈ ki, ∃ pa pc pv pr, f = Frame.L pa pc pv pr) ∧
      remove sampleTree 20 = .ok (true, s2) ∧
      Holds s2 (plug [] (node 0 true (node 1 false nil 10 nil) sv (plug ki (spliceChild sc sr)))) ∧
      s2.heap sa = none ∧
      20 < sv ∧ sv ∈ sampleShape.values ∧ (∀ x ∈ sampleShape.values, 20 < x → sv ≤ x) ∧
      dump s2 = .ok (sampleShape.values.erase 20) :=
  remove_two_children sampleTree sampleShape 20 [] 0 true (node 1 false nil 10 nil)
    (node 2 false nil 30 nil) Holds.sample_holds Holds.sample_redBlack rfl (by simp) (by simp)

/-- C18 (as stated, fails): the copy of the one-node tree 10 is a binary search tree
with consistent parent references whose only node is Red; `insert(10)` on it returns
false and leaves it as it is, so no call of `insert(10)` on it ends with a tree whose
root is Black. -/
theorem insert_stored_keeps_red_root :
    ∃ r d, RedBlackTree.insert empty 10 = .ok (true, r) ∧ copyConstruct r = .ok d ∧
      Holds d (node 1 false nil 10 nil) ∧ (node 1 false nil 10 nil).BST ∧
      ParentsConsistent d (node 1 false nil 10 nil).addrs ∧
      RedBlackTree.insert d 10 = .ok (false, d) ∧
      ¬ ∃ b s2 t2, RedBlackTree.insert d 10 = .ok (b, s2) ∧ Holds s2 t2 ∧
        t2.isBlackRoot = true := by
  have hd : ∃ r d, RedBlackTree.insert empty 10 = .ok (true, r) ∧ copyConstruct r = .ok d ∧
      Holds d (node 1 false nil 10 nil) ∧ RedBlackTree.insert d 10 = .ok (false, d) :=
    ⟨_, _, rfl, rfl, ⟨rfl, ⟨rfl, trivial, trivial⟩, by decide, by decide⟩, rfl⟩
  obtain ⟨r, d, e1, e2, h, e3⟩ := hd
  refine ⟨r, d, e1, e2, h, by simp [BST], h.parents, e3, ?_⟩
  rintro ⟨b, s2, t2, e, h2, hb⟩
  rw [e3] at e
  simp only [Except.ok.injEq, Prod.mk.injEq] at e
  obtain ⟨-, rfl⟩ := e
  rw [h2.shape_unique h] at hb
  exact Bool.noConfusion hb

/-- C18 (as amended): `insert` on a binary search tree with arbitrary colours.  For
every held binary search tree, whatever the colours of its nodes, and every value `v`,
`insert(v)` runs to completion and leaves a binary search tree with consistent parent
references.  If `v` was absent the call returns true, the root afterwards is Black and
`dump()` is the old `dump()` with `v` at its sorted position; if `v` was present the
call returns false and the tree object is left exactly as it was. -/
theorem insert_any_colours (s : RedBlackTree) (t : Shape) (v : Int) (hs : Holds s t)
    (hbst : t.BST) :
    ∃ b s2 t2, RedBlackTree.insert s v = .ok (b, s2) ∧ Holds s2 t2 ∧ t2.BST ∧
      ParentsConsistent s2 t2.addrs ∧ dump s = .ok t.values ∧
      (v ∉ t.values → b = true ∧ t2.isBlackRoot = true ∧
        dump s2 = .ok (List.orderedInsert (· ≤ ·) v t.values)) ∧
      (v ∈ t.values → b = false ∧ s2 = s ∧ dump s2 = .ok t.values) := by
  by_cases hv : v ∈ t.values
  · have hf := (find_iff_mem hbst v).2 hv
    exact ⟨false, s, t, hs.insert_found hf, hs, hbst, hs.parents, hs.dump_eq,
      fun h => absurd hv h, fun _ => ⟨rfl, rfl, hs.dump_eq⟩⟩
  · have hf : t.find v = false := by
      have := (find_iff_mem hbst v).not.2 hv
      simpa using this
    obtain ⟨s2, e, h2, -, -⟩ := hs.insert_new hf
    refine ⟨true, s2, _, e, h2, bst_insertAt hbst hv _, h2.parents, hs.dump_eq, fun _ => ⟨rfl, ?_, ?_⟩,
      fun h => absurd h hv⟩
    · exact isBlackRoot_setRootBlack _
    · rw [h2.dump_eq, values_insertAt_bst hbst hv]

/-- C18 (as amended), for the all-Red copy of the tree 20 with children 10 and 30 and
the absent value 25. -/
theorem insert_any_colours_witness :
    ∃ d, copyConstruct sampleTree = .ok d ∧
      Holds d (node 3 false (node 4 false nil 10 nil) 20 (node 5 false nil 30 nil)) ∧
      ∃ b s2 t2, RedBlackTree.insert d 25 = .ok (b, s2) ∧ Holds s2 t2 ∧ t2.BST ∧
        ParentsConsistent s2 t2.addrs ∧
        dump d = .ok (node 3 false (node 4 false nil 10 nil) 20 (node 5 false nil 30 nil)).values ∧
        (25 ∉ (node 3 false (node 4 false nil 10 nil) 20 (node 5 false nil 30 nil)).values →
          b = true ∧ t2.isBlackRoot = true ∧
          dump s2 = .ok (List.orderedInsert (· ≤ ·) 25
            (node 3 false (node 4 false nil 10 nil) 20 (node 5 false nil 30 nil)).values)) ∧
        (25 ∈ (node 3 false (node 4 false nil 10 nil) 20 (node 5 false nil 30 nil)).values →
          b = false ∧ s2 = d ∧
          dump s2 = .ok (node 3 false (node 4 false nil 10 nil) 20 (node 5 false nil 30 nil)).values) :=
  ⟨_, rfl, ⟨rfl, ⟨rfl, ⟨rfl, trivial, trivial⟩, rfl, trivial, trivial⟩, by decide, by decide⟩,
    insert_any_colours _ _ 25
      ⟨rfl, ⟨rfl, ⟨rfl, trivial, trivial⟩, rfl, trivial, trivial⟩, by decide, by decide⟩
      (by simp [BST])⟩

/-- C19: parent references are consistent in every reachable tree.  Every tree object
obtained from the empty tree by `insert` calls, `remove` calls on trees that satisfy
the invariants, copy construction and copy assignment holds a tree in which the parent
reference of the root is absent and every child of a node refers back to the node. -/
theorem reachable_parents_consistent (s : RedBlackTree) (h : Reachable s) :
    ∃ t, Holds s t ∧ ParentsConsistent s t.addrs := by
  have key : ∃ t, Holds s t := by
    induction h with
    | empty => exact ⟨nil, Holds.empty_holds⟩
    | @insert s s2 b v _ e ih =>
      obtain ⟨t, ht⟩ := ih
      cases hf : t.find v with
      | true =>
        rw [ht.insert_found hf] at e
        simp only [Except.ok.injEq, Prod.mk.injEq] at e
        exact ⟨t, e.2 ▸ ht⟩
      | false =>
        obtain ⟨s3, e3, h3, -⟩ := ht.insert_new hf
        rw [e3] at e
        simp only [Except.ok.injEq, Prod.mk.injEq] at e
        exact ⟨_, e.2 ▸ h3⟩
    | @remove s s2 t b v _ ht hrb e _ =>
      cases hf : t.find v with
      | true =>
        obtain ⟨s3, e3, h3, -⟩ := ht.remove_found hf hrb.2.2.2
        rw [e3] at e
        simp only [Except.ok.injEq, Prod.mk.injEq] at e
        exact ⟨_, e.2 ▸ h3⟩
      | false =>
        rw [ht.remove_missing hf] at e
        simp only [Except.ok.injEq, Prod.mk.injEq] at e
        exact ⟨t, e.2 ▸ ht⟩
    | @copy r d _ e ih =>
      obtain ⟨ts, hts⟩ := ih
      have hd : Holds ⟨r.heap, r.next, none, 0⟩ nil := ⟨rfl, trivial, List.nodup_nil, by simp⟩
      obtain ⟨d2, e2, h2, -⟩ := hd.deepCopy_sim hts rfl rfl (by simp)
      simp only [copyConstruct] at e
      rw [e2] at e
      simp only [Except.ok.injEq] at e
      exact ⟨_, e ▸ h2⟩
    | @assign d r d2 td ts _ hd hr hh hn hdis e _ =>
      obtain ⟨d3, e3, h3, -⟩ := hd.deepCopy_sim hr hh hn hdis
      simp only [assign, Bool.false_eq_true, ↓reduceIte] at e
      rw [e3] at e
      simp only [Except.ok.injEq] at e
      exact ⟨_, e ▸ h3⟩
  obtain ⟨t, ht⟩ := key
  exact ⟨t, ht, ht.parents⟩

/-- C19, for the copy of the tree after `insert(5)`, `insert(3)` and `remove(5)` from
the empty tree. -/
theorem reachable_parents_consistent_witness :
    ∃ s1 s2 s3 s4, RedBlackTree.insert empty 5 = .ok (true, s1) ∧
      RedBlackTree.insert s1 3 = .ok (true, s2) ∧ remove s2 5 = .ok (true, s3) ∧
      copyConstruct s3 = .ok s4 ∧ ∃ t, Holds s4 t ∧ ParentsConsistent s4 t.addrs :=
  ⟨_, _, _, _, rfl, rfl, rfl, rfl,
    reachable_parents_consistent _
      (Reachable.copy
        (Reachable.remove 5 (Reachable.insert 3 (Reachable.insert 5 Reachable.empty rfl) rfl)
          (t := node 0 true (node 1 false nil 3 nil) 5 nil)
          ⟨rfl, ⟨rfl, ⟨rfl, trivial, trivial⟩, trivial⟩, by decide, by decide⟩
          ⟨by simp [BST], rfl, by simp [Shape.NoRedRed], by simp [Shape.Balanced, bh]⟩ rfl) rfl)⟩
